import Mathlib

/-!
# GraphTasker: the task dependency graph and the scheduler

A shallow embedding of `dag_manager.c` and `scheduler.c` and the properties of their
operations.

Modelling conventions.

* A `dag_t` value is the live part of the C structure: the three parallel arrays
  `tasks`, `deps`, `n_deps` restricted to the indices `0 .. n_tasks-1`, together with
  `capacity`.  Index `u` of the three arrays is one `slot_t`: the task `*tasks[u]` and the
  successor list `deps[u][0 .. n_deps[u]-1]`.
* Pointers are non-null and heap allocation succeeds, so the `NULL` checks and the
  `malloc`/`calloc`/`realloc` failure branches of the source have no counterpart here
  (a request for zero bytes counts as a success).  Every one of those branches leaves the
  tasks and successor lists as they were, so they add no graph to the reachable ones.
* `size_t` and `int` indices are natural numbers; the cast `(int)i` of `dag_find_index`
  is the identity on the graphs considered (fewer than `2^31` tasks).  The one place where
  unsigned wrap-around could be observed, `--indegree[v]` in `dag_toposort`, is modelled
  with its wrap-around (`size_dec`).
* The scratch arrays `colors` and `indegree` are maps from index to value.
* Recursion (`dfs_cycle`) and the `while` loop of `dag_toposort` take a fuel argument; the
  theorems show that the fuel supplied by the callers is never exhausted on a well-formed
  graph.
* The worker threads of the scheduler are a step function on the state of the pool
  (`pool_step`): the sections of `worker_loop` under the mutex are atomic events, the
  unlocked section (execution, status write, time update) is one event that touches only the
  task the worker holds.  The outcome of running a command is an argument of that event.
  The `time` and `freq` fields of a task are integers; the one computation on them,
  `time += freq` in `worker_loop`, is done in the 64-bit signed `time_t` and keeps the low
  64 bits of the sum (`time_wrap`).
-/

namespace GraphTasker

/-! ## Data model (`dag_manager.h`) -/

/-- Initial capacity of the task arrays (`DAG_INITIAL_CAPACITY`). -/
def DAG_INITIAL_CAPACITY : Nat := 16

/-- Status of a task (`task_status_t`). -/
inductive task_status_t where
  | PENDING
  | RUNNING
  | COMPLETED
  | FAILED
  deriving DecidableEq

/-- One schedulable task (`task_t`). -/
structure task_t where
  id : String
  cmd : String
  time : Int
  freq : Int
  status : task_status_t
  deriving DecidableEq

/-- Index `u` of the parallel arrays of `dag_t`: the task `*tasks[u]` and the successor
list `deps[u][0 .. n_deps[u]-1]`. -/
structure slot_t where
  task : task_t
  deps : List Nat
  deriving DecidableEq

/-- The graph (`dag_t`): the slots `0 .. n_tasks-1` and the allocated capacity. -/
structure dag_t where
  slots : List slot_t
  capacity : Nat
  deriving DecidableEq

/-- Number of tasks, `d->n_tasks`. -/
def dag_t.n_tasks (d : dag_t) : Nat := d.slots.length

/-- The task sequence `d->tasks[0 .. n_tasks-1]`. -/
def dag_t.tasks (d : dag_t) : List task_t := d.slots.map slot_t.task

/-- Successor list of index `u`, `d->deps[u][0 .. n_deps[u]-1]` (empty outside the graph). -/
def dag_t.deps (d : dag_t) (u : Nat) : List Nat :=
  match d.slots.get? u with
  | some s => s.deps
  | none => []

/-- Successor count of index `u`, `d->n_deps[u]`. -/
def dag_t.n_deps (d : dag_t) (u : Nat) : Nat := (d.deps u).length

/-- Write of one cell of a scratch array, `a[i] = x`. -/
def array_set (a : Nat → Nat) (i x : Nat) : Nat → Nat :=
  fun j => if j = i then x else a j

/-- Replace the successor list of slot `u`. -/
def set_slot_deps : List slot_t → Nat → List Nat → List slot_t
  | [], _, _ => []
  | s :: rest, 0, l => { s with deps := l } :: rest
  | s :: rest, u + 1, l => s :: set_slot_deps rest u l

/-- Replace the successor list of index `u` of a graph. -/
def dag_t.set_deps (d : dag_t) (u : Nat) (l : List Nat) : dag_t :=
  { d with slots := set_slot_deps d.slots u l }

/-! ## Operations (`dag_manager.c`) -/

/-- Doubling of the backing arrays when they are full (`ensure_capacity`). -/
def ensure_capacity (d : dag_t) : Int × dag_t :=
  if d.n_tasks < d.capacity then (0, d)
  else (0, { d with capacity := d.capacity * 2 })

/-- The empty graph (`dag_init`). -/
def dag_init : dag_t := { slots := [], capacity := DAG_INITIAL_CAPACITY }

/-- The loop of `dag_find_index`, from index `i` on. -/
def find_index_from (id : String) : List slot_t → Nat → Int
  | [], _ => -1
  | s :: rest, i => if s.task.id = id then (i : Int) else find_index_from id rest (i + 1)

/-- Index of the first task whose id is `id`, or `-1` (`dag_find_index`). -/
def dag_find_index (d : dag_t) (id : String) : Int :=
  find_index_from id d.slots 0

/-- Append a task unless its id is taken (`dag_add_task`): result code and graph. -/
def dag_add_task (d : dag_t) (t : task_t) : Int × dag_t :=
  if dag_find_index d t.id ≥ 0 then (-1, d)
  else
    let r := ensure_capacity d
    if r.1 ≠ 0 then (r.1, d)
    else (0, { slots := r.2.slots ++ [{ task := t, deps := [] }], capacity := r.2.capacity })

/-- The `for` loop of `dfs_cycle` over the successors still to be examined; `visit` is the
recursive call. -/
def dfs_successors (visit : Nat → (Nat → Nat) → Bool × (Nat → Nat)) :
    List Nat → (Nat → Nat) → Bool × (Nat → Nat)
  | [], colors => (false, colors)
  | v :: rest, colors =>
    if colors v = 1 then (true, colors)
    else if colors v = 0 then
      match visit v colors with
      | (true, c) => (true, c)
      | (false, c) => dfs_successors visit rest c
    else dfs_successors visit rest colors

/-- Three-colour depth-first search from `u` (`dfs_cycle`): `0` white, `1` gray, `2` black.
Returns whether a back edge was met, and the colour array.  The first argument bounds the
recursion depth. -/
def dfs_cycle (d : dag_t) : Nat → Nat → (Nat → Nat) → Bool × (Nat → Nat)
  | 0, _, colors => (false, colors)
  | fuel + 1, u, colors =>
    match dfs_successors (dfs_cycle d fuel) (d.deps u) (array_set colors u 1) with
    | (true, c) => (true, c)
    | (false, c) => (false, array_set c u 2)

/-- The loop of `dag_detect_cycle` over the start vertices still to be tried. -/
def detect_from (d : dag_t) : List Nat → (Nat → Nat) → Bool
  | [], _ => false
  | i :: rest, colors =>
    if colors i = 0 then
      match dfs_cycle d d.n_tasks i colors with
      | (true, _) => true
      | (false, c) => detect_from d rest c
    else detect_from d rest colors

/-- Whether the graph has a cycle (`dag_detect_cycle`): a search is started at every
vertex that is still white, on a colour array that `calloc` has filled with zeros. -/
def dag_detect_cycle (d : dag_t) : Bool :=
  detect_from d (List.range d.n_tasks) (fun _ => 0)

/-- Add the dependency `from_id -> to_id` (`dag_add_dep`): result code and graph. -/
def dag_add_dep (d : dag_t) (from_id to_id : String) : Int × dag_t :=
  let i := dag_find_index d from_id
  let j := dag_find_index d to_id
  if i < 0 ∨ j < 0 then (-1, d)
  else if j.toNat ∈ d.deps i.toNat then (-2, d)
  else
    let d1 := d.set_deps i.toNat (d.deps i.toNat ++ [j.toNat])
    if dag_detect_cycle d1 then (-3, d1.set_deps i.toNat (d1.deps i.toNat).dropLast)
    else (0, d1)

/-- Largest `size_t` value. -/
def SIZE_MAX : Nat := 2 ^ 64 - 1

/-- Pre-decrement of a `size_t`, `--x`, with its wrap-around at zero. -/
def size_dec (x : Nat) : Nat := if x = 0 then SIZE_MAX else x - 1

/-- Inner loop of the indegree count: `indegree[deps[u][k]]++` for the successors given. -/
def count_successors : List Nat → (Nat → Nat) → (Nat → Nat)
  | [], indegree => indegree
  | v :: rest, indegree => count_successors rest (array_set indegree v (indegree v + 1))

/-- Outer loop of the indegree count over the vertices given. -/
def count_indegree (d : dag_t) : List Nat → (Nat → Nat) → (Nat → Nat)
  | [], indegree => indegree
  | u :: us, indegree => count_indegree d us (count_successors (d.deps u) indegree)

/-- Seeding loop: `if (indegree[u] == 0) queue[qt++] = u` for the vertices given. -/
def seed_queue (indegree : Nat → Nat) : List Nat → List Nat → List Nat
  | [], queue => queue
  | u :: us, queue =>
    if indegree u = 0 then seed_queue indegree us (queue ++ [u])
    else seed_queue indegree us queue

/-- Inner loop of Kahn's algorithm: `if (--indegree[v] == 0) queue[qt++] = v` for the
successors given. -/
def release_successors : List Nat → (Nat → Nat) × List Nat → (Nat → Nat) × List Nat
  | [], s => s
  | v :: rest, (indegree, queue) =>
    let indegree1 := array_set indegree v (size_dec (indegree v))
    if indegree1 v = 0 then release_successors rest (indegree1, queue ++ [v])
    else release_successors rest (indegree1, queue)

/-- Variables of the main loop of `dag_toposort`.  `queue` is the written part
`queue[0 .. qt-1]`, so `qt` is its length; `out_order` is the written part
`(*out_order)[0 .. idx-1]`, so `idx` is its length. -/
structure kahn_state where
  indegree : Nat → Nat
  queue : List Nat
  qh : Nat
  out_order : List Nat

/-- The `while (qh < qt)` loop of `dag_toposort`; the first argument bounds the number of
iterations. -/
def kahn_loop (d : dag_t) : Nat → kahn_state → kahn_state
  | 0, s => s
  | fuel + 1, s =>
    if s.qh < s.queue.length then
      let u := s.queue.getD s.qh 0
      let r := release_successors (d.deps u) (s.indegree, s.queue)
      kahn_loop d fuel
        { indegree := r.1, queue := r.2, qh := s.qh + 1, out_order := s.out_order ++ [u] }
    else s

/-- State of `dag_toposort` when the main loop is entered. -/
def kahn_init (d : dag_t) : kahn_state :=
  let indegree := count_indegree d (List.range d.n_tasks) (fun _ => 0)
  { indegree := indegree
    queue := seed_queue indegree (List.range d.n_tasks) []
    qh := 0
    out_order := [] }

/-- Result of `dag_toposort`: return code, `*out_order` (`none` for `NULL`) and `*out_n`. -/
structure toposort_result where
  code : Int
  out_order : Option (List Nat)
  out_n : Nat
  deriving DecidableEq

/-- Topological sort by Kahn's algorithm (`dag_toposort`). -/
def dag_toposort (d : dag_t) : toposort_result :=
  let n := d.n_tasks
  let s := kahn_loop d n (kahn_init d)
  if s.out_order.length < n then { code := -1, out_order := none, out_n := n }
  else { code := 0, out_order := some s.out_order, out_n := n }

/-! ## Graph-theoretic vocabulary -/

/-- The dependency relation: `u -> v` when `v` occurs in the successor list of the task
index `u`. -/
def Edge (d : dag_t) (u v : Nat) : Prop := u < d.n_tasks ∧ v ∈ d.deps u

/-- Every successor index refers to a task of the graph. -/
def WellFormed (d : dag_t) : Prop := ∀ u v, Edge d u v → v < d.n_tasks

/-- A directed cycle: a non-empty path from some task back to itself. -/
def HasCycle (d : dag_t) : Prop := ∃ u, Relation.TransGen (Edge d) u u

/-! ## Proof vocabulary -/

/-- Invariant of the colour array during the depth-first search: every colour is white,
gray or black; the successors of a black vertex are black; no cycle passes through a black
vertex. -/
structure DfsInv (d : dag_t) (colors : Nat → Nat) : Prop where
  valid : ∀ x, colors x = 0 ∨ colors x = 1 ∨ colors x = 2
  closed : ∀ x y, colors x = 2 → Edge d x y → colors y = 2
  acyclic : ∀ x, colors x = 2 → ¬ Relation.TransGen (Edge d) x x

/-- The only change from `colors` to `c` is that some white cells have become black. -/
def Blackens (colors c : Nat → Nat) : Prop :=
  ∀ x, c x = colors x ∨ (colors x = 0 ∧ c x = 2)

/-- What one search started at a white vertex `u` guarantees: a reported back edge lies on a
cycle; otherwise `u` is black afterwards, only white cells have changed, and the invariant
still holds. -/
def SearchSpec (d : dag_t) (u : Nat) (colors : Nat → Nat) (r : Bool × (Nat → Nat)) : Prop :=
  (r.1 = true → HasCycle d) ∧
  (r.1 = false → Blackens colors r.2 ∧ r.2 u = 2 ∧ DfsInv d r.2)

/-- Graphs obtained from the empty graph by calls of `dag_add_task` and `dag_add_dep`,
whatever the calls return. -/
inductive Reachable : dag_t → Prop where
  | init : Reachable dag_init
  | add_task (d : dag_t) (t : task_t) : Reachable d → Reachable (dag_add_task d t).2
  | add_dep (d : dag_t) (from_id to_id : String) :
      Reachable d → Reachable (dag_add_dep d from_id to_id).2

/-- Number of edges into `v` from the vertices that are not in `out`. -/
def pending_in (d : dag_t) (out : List Nat) (v : Nat) : Nat :=
  Finset.sum (Finset.range d.n_tasks \ out.toFinset) (fun u => (d.deps u).count v)

/-- Invariant of the main loop of `dag_toposort`: the output is the dequeued part of the
queue; the queue holds distinct task indices; `indegree[v]` counts the edges into `v` from
vertices not yet output; the queued vertices are those of indegree zero; every predecessor
of an output vertex was output before it. -/
structure KahnInv (d : dag_t) (s : kahn_state) : Prop where
  out_eq : s.out_order = s.queue.take s.qh
  qh_le : s.qh ≤ s.queue.length
  nodup : s.queue.Nodup
  bound : ∀ v ∈ s.queue, v < d.n_tasks
  indeg : ∀ v, v < d.n_tasks → s.indegree v = pending_in d s.out_order v
  queued : ∀ v, v < d.n_tasks → (v ∈ s.queue ↔ s.indegree v = 0)
  ordered : ∀ (j v : Nat), s.out_order[j]? = some v → ∀ x : Nat, Edge d x v →
    ∃ i : Nat, i < j ∧ s.out_order[i]? = some x

/-! ## Sample graphs (from `test_dag_manager.c`) -/

/-- Task with the given id and otherwise the field values of the test helper `make_task`. -/
def make_task (id : String) : task_t :=
  { id := id, cmd := "", time := 0, freq := 0, status := task_status_t.PENDING }

/-- Graph of the test: tasks `A` and `B` added in that order, then the dependency
`A -> B`. -/
def test_dag : dag_t :=
  (dag_add_dep (dag_add_task (dag_add_task dag_init (make_task "A")).2 (make_task "B")).2
    "A" "B").2

/-- Graph with the two-task cycle `A -> B -> A` and an isolated task `C`, written directly
into the adjacency lists. -/
def cyclic_dag : dag_t :=
  { slots := [{ task := make_task "A", deps := [1] }, { task := make_task "B", deps := [0] },
              { task := make_task "C", deps := [] }]
    capacity := DAG_INITIAL_CAPACITY }

/-! ## Bulk insertion (the resizing loop of `test_dag_manager.c`) -/

/-- Calls `dag_add_task` for the tasks given, in order: the return codes and the graph. -/
def add_tasks (d : dag_t) : List task_t → List Int × dag_t
  | [] => ([], d)
  | t :: ts =>
    let r := dag_add_task d t
    let rs := add_tasks r.2 ts
    (r.1 :: rs.1, rs.2)

/-! ## Scheduler (`scheduler.h`, `scheduler.c`)

The scheduler value holds the graph its pointer `dag` refers to.  Thread handles, the mutex
and the condition variable have no field of their own: the sections of `worker_loop` that
run with the mutex held are the atomic events of the step function `pool_step` below, and
a worker blocked in `pthread_cond_wait` is a worker without an enabled event.  Thread
creation, like allocation, is taken to succeed.  The cells of the ring buffer start with
the value 0; no cell is read before it has been written. -/

/-- The scheduler (`scheduler_t`). -/
structure scheduler_t where
  dag : dag_t
  order : Option (List Nat)
  n_order : Nat
  n_workers : Nat
  queue : Nat → Nat
  q_head : Nat
  q_tail : Nat
  q_capacity : Nat
  stop : Bool

/-- Creation of a scheduler (`sched_init`); `none` stands for a `NULL` graph pointer and
for the `NULL` result. -/
def sched_init (dag : Option dag_t) (n_workers : Nat) : Option scheduler_t :=
  match dag with
  | none => none
  | some d =>
    if n_workers = 0 then none
    else some
      { dag := d
        order := none
        n_order := 0
        n_workers := n_workers
        queue := fun _ => 0
        q_head := 0
        q_tail := 0
        q_capacity := if d.n_tasks > 0 then d.n_tasks + 1 else 1
        stop := false }

/-- Admission of one index to the ring buffer: `queue[q_tail] = x` and
`q_tail = (q_tail + 1) % q_capacity` (in `sched_start` and in `worker_loop`). -/
def enqueue (s : scheduler_t) (x : Nat) : scheduler_t :=
  { s with queue := array_set s.queue s.q_tail x, q_tail := (s.q_tail + 1) % s.q_capacity }

/-- Removal of the head of the ring buffer: `q_head = (q_head + 1) % q_capacity`, after
`idx = queue[q_head]` has been read (in `worker_loop`). -/
def dequeue (s : scheduler_t) : scheduler_t :=
  { s with q_head := (s.q_head + 1) % s.q_capacity }

/-- The seeding loop of `sched_start` over the entries `order[0 .. n_order-1]`. -/
def seed_ready_queue : List Nat → scheduler_t → scheduler_t
  | [], s => s
  | x :: rest, s => seed_ready_queue rest (enqueue s x)

/-- Start of the scheduler up to the creation of the threads (`sched_start`): return code
and scheduler. -/
def sched_start (s : scheduler_t) : Int × scheduler_t :=
  let r := dag_toposort s.dag
  if r.code ≠ 0 then (-1, { s with order := none, n_order := r.out_n })
  else
    (0, seed_ready_queue ((r.out_order.getD []).take r.out_n)
          { s with order := r.out_order, n_order := r.out_n })

/-- What the operating system reports for one run of a command: `fork` failed, `waitpid`
failed, the process exited with an exit status (eight bits, `WEXITSTATUS`), or it ended in
another way. -/
inductive process_outcome where
  | fork_failed
  | wait_failed
  | exited (status : Fin 256)
  | abnormal
  deriving DecidableEq

/-- Run of the command of task `idx` (`execute_task`), given what the operating system
reports. -/
def execute_task (s : scheduler_t) (idx : Nat) (o : process_outcome) : Int :=
  if idx ≥ s.dag.n_tasks then -1
  else
    match o with
    | process_outcome.fork_failed => -1
    | process_outcome.wait_failed => -1
    | process_outcome.exited status => (status.val : Int)
    | process_outcome.abnormal => -1

/-- Write through the pointer `tasks[idx]` in a slot list. -/
def update_slot_task : List slot_t → Nat → (task_t → task_t) → List slot_t
  | [], _, _ => []
  | s :: rest, 0, f => { s with task := f s.task } :: rest
  | s :: rest, i + 1, f => s :: update_slot_task rest i f

/-- Write through the pointer `d->tasks[idx]`: the task at `idx` becomes `f` of it. -/
def dag_t.update_task (d : dag_t) (idx : Nat) (f : task_t → task_t) : dag_t :=
  { d with slots := update_slot_task d.slots idx f }

/-- The field `d->tasks[idx]->freq`. -/
def task_freq (d : dag_t) (idx : Nat) : Int :=
  match d.tasks.get? idx with
  | some t => t.freq
  | none => 0

/-- The status a worker records for a return code of `execute_task`. -/
def status_of_code (code : Int) : task_status_t :=
  if code = 0 then task_status_t.COMPLETED else task_status_t.FAILED

/-- Execution and status write of `worker_loop` for the dequeued index `idx`. -/
def worker_set_status (s : scheduler_t) (idx : Nat) (o : process_outcome) : scheduler_t :=
  let st := status_of_code (execute_task s idx o)
  { s with dag := s.dag.update_task idx (fun t => { t with status := st }) }

/-- Largest value of a `time_t` (64 bits, signed): `2^63 - 1`. -/
def TIME_MAX : Int := 9223372036854775807

/-- Smallest value of a `time_t`: `-2^63`. -/
def TIME_MIN : Int := -9223372036854775808

/-- The `time_t` that holds the integer `x`: its low 64 bits read in two's complement. A
sum within `TIME_MIN .. TIME_MAX` is stored as it is; a sum above `TIME_MAX` comes out
negative, as the compiled addition does. -/
def time_wrap (x : Int) : Int :=
  (x + 9223372036854775808) % 18446744073709551616 - 9223372036854775808

/-- The update `tasks[idx]->time += tasks[idx]->freq` of `worker_loop`, an addition in
`time_t`. -/
def worker_advance_time (s : scheduler_t) (idx : Nat) : scheduler_t :=
  { s with dag := s.dag.update_task idx (fun t => { t with time := time_wrap (t.time + t.freq) }) }

/-- The part of one iteration of `worker_loop` that runs without the mutex: execution,
status write and, for a recurring task, the time update. -/
def worker_execute (s : scheduler_t) (idx : Nat) (o : process_outcome) : scheduler_t :=
  let s1 := worker_set_status s idx o
  if task_freq s1.dag idx > 0 then worker_advance_time s1 idx else s1

/-- One iteration of `worker_loop` from the point where `idx` has been dequeued: execution,
status write and, for a recurring task, time update and re-admission. -/
def worker_iteration (s : scheduler_t) (idx : Nat) (o : process_outcome) : scheduler_t :=
  let s1 := worker_execute s idx o
  if task_freq s1.dag idx > 0 then enqueue s1 idx else s1

/-- Where a worker thread stands in `worker_loop`: at the top of the loop (possibly blocked
on the condition variable), executing a dequeued index, about to take the mutex to re-admit
its index, or returned. -/
inductive worker_pc where
  | waiting
  | running (idx : Nat)
  | readmitting (idx : Nat)
  | exited
  deriving DecidableEq

/-- The scheduler with its worker threads, and the history of executions (index and
outcome, oldest first). -/
structure pool_t where
  sched : scheduler_t
  workers : List worker_pc
  log : List (Nat × process_outcome)

/-- The pool once `sched_start` has created its `n_workers` threads. -/
def launch (s : scheduler_t) : pool_t :=
  { sched := s, workers := List.replicate s.n_workers worker_pc.waiting, log := [] }

/-- Atomic events of the pool: worker `w` dequeues; worker `w` executes its index with the
outcome `o`; worker `w` re-admits its index; worker `w` leaves its loop; `sched_stop`
raises the stop flag. -/
inductive pool_event where
  | dequeue (w : Nat)
  | execute (w : Nat) (o : process_outcome)
  | readmit (w : Nat)
  | leave (w : Nat)
  | raise_stop

/-- One event of the pool, `none` when the event is not enabled. -/
def pool_step (p : pool_t) : pool_event → Option pool_t
  | pool_event.dequeue w =>
    if p.workers.get? w = some worker_pc.waiting ∧ p.sched.q_head ≠ p.sched.q_tail then
      some { p with sched := dequeue p.sched
                    workers := p.workers.set w (worker_pc.running (p.sched.queue p.sched.q_head)) }
    else none
  | pool_event.execute w o =>
    match p.workers.get? w with
    | some (worker_pc.running idx) =>
      some { sched := worker_execute p.sched idx o
             workers := p.workers.set w
               (if task_freq (worker_execute p.sched idx o).dag idx > 0
                then worker_pc.readmitting idx else worker_pc.waiting)
             log := p.log ++ [(idx, o)] }
    | _ => none
  | pool_event.readmit w =>
    match p.workers.get? w with
    | some (worker_pc.readmitting idx) =>
      some { p with sched := enqueue p.sched idx
                    workers := p.workers.set w worker_pc.waiting }
    | _ => none
  | pool_event.leave w =>
    if p.workers.get? w = some worker_pc.waiting ∧ p.sched.stop = true ∧
        p.sched.q_head = p.sched.q_tail then
      some { p with workers := p.workers.set w worker_pc.exited }
    else none
  | pool_event.raise_stop =>
    some { p with sched := { p.sched with stop := true } }

/-- A sequence of events. -/
def pool_run (p : pool_t) : List pool_event → Option pool_t
  | [] => some p
  | e :: es =>
    match pool_step p e with
    | some p1 => pool_run p1 es
    | none => none

/-- Indices held by the workers. -/
def held : List worker_pc → List Nat
  | [] => []
  | worker_pc.running idx :: ws => idx :: held ws
  | worker_pc.readmitting idx :: ws => idx :: held ws
  | _ :: ws => held ws

/-- Number of entries of the ring buffer, from `q_head` up to `q_tail`. -/
def ring_count (s : scheduler_t) : Nat :=
  (s.q_tail + s.q_capacity - s.q_head) % s.q_capacity

/-- Entries of the ring buffer read from `q_head` to `q_tail`. -/
def ring_contents (s : scheduler_t) : List Nat :=
  (List.range (ring_count s)).map (fun k => s.queue ((s.q_head + k) % s.q_capacity))

/-- The ring buffer holds the list `items`: it has fewer entries than the buffer has cells,
`q_tail` lies `items.length` cells after `q_head`, and the cells in between hold the
entries. -/
def RingRep (s : scheduler_t) (items : List Nat) : Prop :=
  s.q_head < s.q_capacity ∧ items.length < s.q_capacity ∧
  s.q_tail = (s.q_head + items.length) % s.q_capacity ∧
  ∀ k : Nat, k < items.length →
    items[k]? = some (s.queue ((s.q_head + k) % s.q_capacity))

/-- States of the pool after a successful `sched_start` on a scheduler that `sched_init`
has just created for the graph `d` with `n_workers` workers. -/
def PoolReachable (d : dag_t) (n_workers : Nat) (p : pool_t) : Prop :=
  ∃ s0 s1 es, sched_init (some d) n_workers = some s0 ∧ sched_start s0 = (0, s1) ∧
    pool_run (launch s1) es = some p

/-- Every worker has left its loop. -/
def all_exited (p : pool_t) : Prop := ∀ w ∈ p.workers, w = worker_pc.exited

/-! ## Sample schedulers (from `test_scheduler.c`) -/

/-- Task of the scheduler tests (`make_task` of `test_scheduler.c`). -/
def make_sched_task (id cmd : String) (freq : Int) : task_t :=
  { id := id, cmd := cmd, time := 0, freq := freq, status := task_status_t.PENDING }

/-- Graph of `test_multi_worker_status`: `T0` runs `true`, `T1` runs `false`. -/
def two_task_dag : dag_t :=
  (dag_add_task (dag_add_task dag_init (make_sched_task "T0" "true" 0)).2
    (make_sched_task "T1" "false" 0)).2

/-- Graph with a single recurring task. -/
def recurring_dag : dag_t :=
  (dag_add_task dag_init (make_sched_task "R" "true" 1)).2

/-! ## Invariants of the worker pool -/

/-- Invariant of the pool over a graph of `n` tasks: the ring buffer has `n + 1` cells and
holds a list; no index occurs twice in the buffer and the hands of the workers together,
and only task indices occur; once every worker has left, the buffer is empty; a worker
leaves only after the stop flag has been raised. -/
structure PoolInv (n : Nat) (p : pool_t) : Prop where
  n_tasks : p.sched.dag.n_tasks = n
  cap : p.sched.q_capacity = n + 1
  rep : RingRep p.sched (ring_contents p.sched)
  once : ∀ x, (ring_contents p.sched).count x + (held p.workers).count x ≤ 1
  bound : ∀ x, n ≤ x → (ring_contents p.sched).count x + (held p.workers).count x = 0
  workers_ne : p.workers ≠ []
  drained : all_exited p → ring_contents p.sched = []
  stopped : (∃ w ∈ p.workers, w = worker_pc.exited) → p.sched.stop = true

/-- Invariant of the pool when no task recurs: every task index is in the ring buffer, in
the hands of a worker or in the history, exactly once in all; the status of an executed
task is the one its outcome commands; no worker is about to re-admit; once a worker has
left, the buffer is empty. -/
structure RunOnceInv (n : Nat) (p : pool_t) : Prop where
  no_freq : ∀ u, task_freq p.sched.dag u = 0
  each_once : ∀ x, x < n →
    (ring_contents p.sched).count x + (held p.workers).count x +
      (p.log.map Prod.fst).count x = 1
  status : ∀ i o, (i, o) ∈ p.log → ∃ t, p.sched.dag.tasks[i]? = some t ∧
    t.status = (if o = process_outcome.exited 0 then task_status_t.COMPLETED
                else task_status_t.FAILED)
  no_readmit : ∀ w ∈ p.workers, ∀ i, w ≠ worker_pc.readmitting i
  empty_after_exit : (∃ w ∈ p.workers, w = worker_pc.exited) → ring_contents p.sched = []

/-! ## Sample runs of the scheduler -/

/-- Seventeen tasks with distinct ids, one more than the initial capacity (the resizing
test adds its tasks under the names `T0`, `T1`, ...). -/
def seventeen_tasks : List task_t :=
  [make_task "T0", make_task "T1", make_task "T2", make_task "T3", make_task "T4",
   make_task "T5", make_task "T6", make_task "T7", make_task "T8", make_task "T9",
   make_task "T10", make_task "T11", make_task "T12", make_task "T13", make_task "T14",
   make_task "T15", make_task "T16"]

/-- The scheduler `sched_init` returns for `two_task_dag` and two workers. -/
def two_task_sched : scheduler_t :=
  { dag := two_task_dag, order := none, n_order := 0, n_workers := 2, queue := fun _ => 0,
    q_head := 0, q_tail := 0, q_capacity := 3, stop := false }

/-- The scheduler of `two_task_sched` once `sched_start` has seeded the ready queue. -/
def two_task_started : scheduler_t := (sched_start two_task_sched).2

/-- A run of `test_multi_worker_status`: each worker takes one task, `T1` fails and `T0`
succeeds, then the scheduler is stopped and both workers leave. -/
def two_task_events : List pool_event :=
  [pool_event.dequeue 0, pool_event.dequeue 1,
   pool_event.execute 1 (process_outcome.exited 1),
   pool_event.execute 0 (process_outcome.exited 0),
   pool_event.raise_stop, pool_event.leave 0, pool_event.leave 1]

/-- The pool at the end of `two_task_events`. -/
def two_task_done : pool_t :=
  (pool_run (launch two_task_started) two_task_events).getD (launch two_task_started)

/-- The pool of `two_task_started` when worker 0 has dequeued and holds the first task. -/
def two_task_busy : pool_t :=
  (pool_run (launch two_task_started) [pool_event.dequeue 0]).getD (launch two_task_started)

/-- The scheduler `sched_init` returns for `recurring_dag` and one worker. -/
def recurring_sched : scheduler_t :=
  { dag := recurring_dag, order := none, n_order := 0, n_workers := 1, queue := fun _ => 0,
    q_head := 0, q_tail := 0, q_capacity := 2, stop := false }

/-- The scheduler of `recurring_sched` once `sched_start` has seeded the ready queue. -/
def recurring_started : scheduler_t := (sched_start recurring_sched).2

/-- Stop is raised, then the only worker runs the recurring task once and re-admits it. -/
def recurring_events : List pool_event :=
  [pool_event.raise_stop, pool_event.dequeue 0,
   pool_event.execute 0 (process_outcome.exited 0), pool_event.readmit 0]

/-- The pool at the end of `recurring_events`. -/
def recurring_stopping : pool_t :=
  (pool_run (launch recurring_started) recurring_events).getD (launch recurring_started)

/-! ## Vocabulary for the order of the topological sort and for the ready queue -/

/-- The array `indegree` of `dag_toposort` when its counting loops have run. -/
def initial_indegree (d : dag_t) : Nat → Nat :=
  count_indegree d (List.range d.n_tasks) (fun _ => 0)

/-- A chain in insertion order: the only successor of `u` is `u + 1`, and the last task has
none. -/
def IsChain (d : dag_t) : Prop :=
  ∀ u, u < d.n_tasks → d.deps u = if u + 1 < d.n_tasks then [u + 1] else []

/-- The two operations on the ready queue. -/
inductive queue_op where
  | put (x : Nat)
  | take
  deriving DecidableEq

/-- One operation on the ring buffer of the scheduler: `put` is the admission code
(`enqueue`); `take` is the removal code of `worker_loop`, which runs only when
`q_head != q_tail`, and yields the value read at `q_head`. -/
def ring_apply (s : scheduler_t) : queue_op → Option (scheduler_t × Option Nat)
  | queue_op.put x => some (enqueue s x, none)
  | queue_op.take =>
    if s.q_head ≠ s.q_tail then some (dequeue s, some (s.queue s.q_head)) else none

/-- A sequence of operations on the ring buffer: the final scheduler and the values taken,
in order; `none` when a `take` meets `q_head = q_tail`. -/
def ring_run (s : scheduler_t) : List queue_op → Option (scheduler_t × List Nat)
  | [] => some (s, [])
  | op :: ops =>
    match ring_apply s op with
    | none => none
    | some (s1, out) =>
      match ring_run s1 ops with
      | none => none
      | some (s2, outs) => some (s2, out.toList ++ outs)

/-- Specification side of the refinement, after the words of the spec: the ready queue as a
first-in first-out list; `put` appends at the back, `take` removes the front and is not
possible on the empty list. -/
def fifo_apply (items : List Nat) : queue_op → Option (List Nat × Option Nat)
  | queue_op.put x => some (items ++ [x], none)
  | queue_op.take =>
    match items with
    | [] => none
    | x :: rest => some (rest, some x)

/-- Specification side of the refinement: a sequence of operations on the first-in first-out
list: the final list and the values taken, in order. -/
def fifo_run (items : List Nat) : List queue_op → Option (List Nat × List Nat)
  | [] => some (items, [])
  | op :: ops =>
    match fifo_apply items op with
    | none => none
    | some (items1, out) =>
      match fifo_run items1 ops with
      | none => none
      | some (items2, outs) => some (items2, out.toList ++ outs)

/-- Whether the number of stored items stays below `cap` all along the sequence of
operations. -/
def fifo_bounded (cap : Nat) (items : List Nat) : List queue_op → Bool
  | [] => decide (items.length < cap)
  | op :: ops =>
    decide (items.length < cap) &&
      match fifo_apply items op with
      | none => true
      | some (items1, _) => fifo_bounded cap items1 ops

/-- The values put by a sequence of operations, in order. -/
def values_put : List queue_op → List Nat
  | [] => []
  | queue_op.put x :: ops => x :: values_put ops
  | queue_op.take :: ops => values_put ops

/-- Invariant of a pool with a single worker over a graph without recurring tasks: the
executions performed, then the index the worker holds, then the ready queue, read in that
order, are the order `out` the queue was seeded with. -/
def SerialInv (out : List Nat) (p : pool_t) : Prop :=
  p.workers.length = 1 ∧
  p.log.map Prod.fst ++ held p.workers ++ ring_contents p.sched = out

/-- Chain of three tasks `A -> B -> C` built through the interface. -/
def chain_dag : dag_t :=
  (dag_add_dep (dag_add_dep (dag_add_task (dag_add_task (dag_add_task dag_init
    (make_task "A")).2 (make_task "B")).2 (make_task "C")).2 "A" "B").2 "B" "C").2

/-- Graph with the tasks `A`, `B`, `C`, `D` and the dependencies `C -> B` and `A -> B`:
`A`, `C` and `D` have no predecessor. -/
def fan_in_dag : dag_t :=
  (dag_add_dep (dag_add_dep (dag_add_task (dag_add_task (dag_add_task (dag_add_task dag_init
    (make_task "A")).2 (make_task "B")).2 (make_task "C")).2 (make_task "D")).2
    "C" "B").2 "A" "B").2

/-- The scheduler `sched_init` returns for `test_dag` and one worker. -/
def serial_sched : scheduler_t :=
  { dag := test_dag, order := none, n_order := 0, n_workers := 1, queue := fun _ => 0,
    q_head := 0, q_tail := 0, q_capacity := 3, stop := false }

/-- The scheduler of `serial_sched` once `sched_start` has seeded the ready queue. -/
def serial_started : scheduler_t := (sched_start serial_sched).2

/-- The single worker has run `A` and holds `B`. -/
def serial_events : List pool_event :=
  [pool_event.dequeue 0, pool_event.execute 0 (process_outcome.exited 0),
   pool_event.dequeue 0]

/-- The pool at the end of `serial_events`. -/
def serial_pool : pool_t :=
  (pool_run (launch serial_started) serial_events).getD (launch serial_started)

/-- A sequence of queue operations that wraps around a buffer of three cells. -/
def sample_ops : List queue_op :=
  [queue_op.put 0, queue_op.put 1, queue_op.take, queue_op.put 2, queue_op.take,
   queue_op.put 3, queue_op.take]

/-- Graph with one recurring task whose `time` is the largest `time_t` (shell:
`add_task R "true" 9223372036854775807 1`). -/
def overflow_dag : dag_t :=
  (dag_add_task dag_init
    { id := "R", cmd := "true", time := TIME_MAX, freq := 1,
      status := task_status_t.PENDING }).2

/-- The scheduler `sched_init` returns for `overflow_dag` and one worker. -/
def overflow_sched : scheduler_t :=
  { dag := overflow_dag, order := none, n_order := 0, n_workers := 1, queue := fun _ => 0,
    q_head := 0, q_tail := 0, q_capacity := 2, stop := false }

/-- The scheduler of `overflow_sched` once `sched_start` has seeded the ready queue. -/
def overflow_started : scheduler_t := (sched_start overflow_sched).2

/-! ## Basic facts about the data model -/

theorem array_set_same (a : Nat → Nat) (i x : Nat) : array_set a i x i = x := by
  simp [array_set]

theorem array_set_other (a : Nat → Nat) (i x j : Nat) (h : j ≠ i) :
    array_set a i x j = a j := by
  simp [array_set, h]

theorem deps_of_slot (d : dag_t) (u : Nat) (s : slot_t) (h : d.slots[u]? = some s) :
    d.deps u = s.deps := by
  simp [dag_t.deps, h]

theorem deps_out_of_range (d : dag_t) (u : Nat) (h : d.n_tasks ≤ u) : d.deps u = [] := by
  have : d.slots[u]? = none := List.getElem?_eq_none (by simpa [dag_t.n_tasks] using h)
  simp [dag_t.deps, this]

theorem set_slot_deps_length (l : List slot_t) (u : Nat) (x : List Nat) :
    (set_slot_deps l u x).length = l.length := by
  induction l generalizing u with
  | nil => simp [set_slot_deps]
  | cons s rest ih =>
    cases u with
    | zero => simp [set_slot_deps]
    | succ u => simp [set_slot_deps, ih]

theorem set_slot_deps_map_task (l : List slot_t) (u : Nat) (x : List Nat) :
    (set_slot_deps l u x).map slot_t.task = l.map slot_t.task := by
  induction l generalizing u with
  | nil => simp [set_slot_deps]
  | cons s rest ih =>
    cases u with
    | zero => simp [set_slot_deps]
    | succ u => simp [set_slot_deps, ih]

theorem set_slot_deps_get_same (l : List slot_t) (u : Nat) (x : List Nat) (h : u < l.length) :
    ∃ s, (set_slot_deps l u x)[u]? = some s ∧ s.deps = x := by
  induction l generalizing u with
  | nil => simp at h
  | cons s rest ih =>
    cases u with
    | zero => exact ⟨{ s with deps := x }, by simp [set_slot_deps], rfl⟩
    | succ u =>
      have h1 : u < rest.length := by simpa using h
      obtain ⟨s1, hs1, hx⟩ := ih u h1
      exact ⟨s1, by simpa [set_slot_deps] using hs1, hx⟩

theorem set_slot_deps_get_other (l : List slot_t) (u v : Nat) (x : List Nat) (h : v ≠ u) :
    (set_slot_deps l u x)[v]? = l[v]? := by
  induction l generalizing u v with
  | nil => simp [set_slot_deps]
  | cons s rest ih =>
    cases u with
    | zero =>
      cases v with
      | zero => exact absurd rfl h
      | succ v => simp [set_slot_deps]
    | succ u =>
      cases v with
      | zero => simp [set_slot_deps]
      | succ v =>
        have h1 : v ≠ u := fun e => h (by rw [e])
        simpa [set_slot_deps] using ih u v h1

theorem set_slot_deps_self (l : List slot_t) (u : Nat) (s : slot_t) (h : l[u]? = some s) :
    set_slot_deps l u s.deps = l := by
  induction l generalizing u with
  | nil => simp at h
  | cons s0 rest ih =>
    cases u with
    | zero =>
      have : s0 = s := by simpa using h
      subst this
      simp [set_slot_deps]
    | succ u =>
      have h1 : rest[u]? = some s := by simpa using h
      simp [set_slot_deps, ih u h1]

theorem set_slot_deps_twice (l : List slot_t) (u : Nat) (x y : List Nat) :
    set_slot_deps (set_slot_deps l u x) u y = set_slot_deps l u y := by
  induction l generalizing u with
  | nil => simp [set_slot_deps]
  | cons s rest ih =>
    cases u with
    | zero => simp [set_slot_deps]
    | succ u => simp [set_slot_deps, ih]

theorem n_tasks_set_deps (d : dag_t) (u : Nat) (x : List Nat) :
    (d.set_deps u x).n_tasks = d.n_tasks := by
  simp [dag_t.set_deps, dag_t.n_tasks, set_slot_deps_length]

theorem tasks_set_deps (d : dag_t) (u : Nat) (x : List Nat) :
    (d.set_deps u x).tasks = d.tasks := by
  simp [dag_t.set_deps, dag_t.tasks, set_slot_deps_map_task]

theorem deps_set_deps_same (d : dag_t) (u : Nat) (x : List Nat) (h : u < d.n_tasks) :
    (d.set_deps u x).deps u = x := by
  obtain ⟨s, hs, hx⟩ := set_slot_deps_get_same d.slots u x h
  have := deps_of_slot (d.set_deps u x) u s (by simpa [dag_t.set_deps] using hs)
  rw [this, hx]

theorem deps_set_deps_other (d : dag_t) (u v : Nat) (x : List Nat) (h : v ≠ u) :
    (d.set_deps u x).deps v = d.deps v := by
  simp [dag_t.deps, dag_t.set_deps, set_slot_deps_get_other d.slots u v x h]

theorem set_deps_self (d : dag_t) (u : Nat) (h : u < d.n_tasks) :
    d.set_deps u (d.deps u) = d := by
  have hu : u < d.slots.length := h
  have hs : d.slots[u]? = some d.slots[u] := List.getElem?_eq_getElem hu
  have h1 := deps_of_slot d u _ hs
  have h2 := set_slot_deps_self d.slots u _ hs
  cases d with
  | mk slots capacity =>
    simp only [dag_t.set_deps]
    congr 1
    simp only at h1 h2 ⊢
    rw [h1]
    exact h2

theorem set_deps_twice (d : dag_t) (u : Nat) (x y : List Nat) :
    (d.set_deps u x).set_deps u y = d.set_deps u y := by
  simp [dag_t.set_deps, set_slot_deps_twice]

/-! ## `dag_find_index` -/

theorem find_index_from_none (id : String) (l : List slot_t) (i : Nat)
    (h : ∀ s ∈ l, s.task.id ≠ id) : find_index_from id l i = -1 := by
  induction l generalizing i with
  | nil => rfl
  | cons s rest ih =>
    have hs : s.task.id ≠ id := h s (List.mem_cons_self _ _)
    simp only [find_index_from, if_neg hs]
    exact ih (i + 1) (fun s1 h1 => h s1 (List.mem_cons_of_mem _ h1))

theorem find_index_from_first (id : String) (l : List slot_t) (i k : Nat) (s : slot_t)
    (hk : l[k]? = some s) (hs : s.task.id = id)
    (hmin : ∀ k1 s1, k1 < k → l[k1]? = some s1 → s1.task.id ≠ id) :
    find_index_from id l i = ((i + k : Nat) : Int) := by
  induction l generalizing i k with
  | nil => simp at hk
  | cons s0 rest ih =>
    cases k with
    | zero =>
      have : s0 = s := by simpa using hk
      subst this
      simp [find_index_from, hs]
    | succ k =>
      have h0 : s0.task.id ≠ id := hmin 0 s0 (Nat.succ_pos k) (by simp)
      have hk1 : rest[k]? = some s := by simpa using hk
      simp only [find_index_from, if_neg h0]
      rw [ih (i + 1) k hk1 (fun k1 s1 hlt h1 => hmin (k1 + 1) s1 (by omega) (by simpa using h1))]
      congr 1
      omega

theorem find_index_from_cases (id : String) (l : List slot_t) (i : Nat) :
    (find_index_from id l i = -1 ∧ ∀ s ∈ l, s.task.id ≠ id) ∨
    (∃ k s, find_index_from id l i = ((i + k : Nat) : Int) ∧ l[k]? = some s ∧ s.task.id = id ∧
      ∀ k1 s1, k1 < k → l[k1]? = some s1 → s1.task.id ≠ id) := by
  induction l generalizing i with
  | nil => left; exact ⟨rfl, by simp⟩
  | cons s0 rest ih =>
    by_cases h0 : s0.task.id = id
    · right
      exact ⟨0, s0, by simp [find_index_from, h0], by simp, h0, fun k1 s1 hlt _ => absurd hlt (by omega)⟩
    · rcases ih (i + 1) with ⟨h1, h2⟩ | ⟨k, s, h1, h2, h3, h4⟩
      · left
        refine ⟨by simp only [find_index_from, if_neg h0]; exact h1, ?_⟩
        intro s hs
        rcases List.mem_cons.1 hs with e | e
        · rw [e]; exact h0
        · exact h2 s e
      · right
        refine ⟨k + 1, s, ?_, by simpa using h2, h3, ?_⟩
        · simp only [find_index_from, if_neg h0]
          rw [h1]; congr 1; omega
        · intro k1 s1 hlt hk1
          cases k1 with
          | zero =>
            have : s0 = s1 := by simpa using hk1
            rw [← this]; exact h0
          | succ k1 => exact h4 k1 s1 (by omega) (by simpa using hk1)

theorem dag_find_index_cases (d : dag_t) (id : String) :
    (dag_find_index d id = -1 ∧ ∀ t ∈ d.tasks, t.id ≠ id) ∨
    (∃ (k : Nat) (s : slot_t), dag_find_index d id = (k : Int) ∧ k < d.n_tasks ∧ d.slots[k]? = some s ∧
      s.task.id = id ∧ ∀ k1 t1, k1 < k → d.tasks[k1]? = some t1 → t1.id ≠ id) := by
  rcases find_index_from_cases id d.slots 0 with ⟨h1, h2⟩ | ⟨k, s, h1, h2, h3, h4⟩
  · left
    refine ⟨h1, ?_⟩
    intro t ht
    obtain ⟨s, hs, rfl⟩ := List.mem_map.1 ht
    exact h2 s hs
  · right
    refine ⟨k, s, by simpa [dag_find_index] using h1, ?_, h2, h3, ?_⟩
    · exact (List.getElem?_eq_some_iff.1 h2).1
    · intro k1 t1 hlt ht1
      simp only [dag_t.tasks, List.getElem?_map] at ht1
      cases hk : d.slots[k1]? with
      | none => simp [hk] at ht1
      | some s1 =>
        simp [hk] at ht1
        rw [← ht1]
        exact h4 k1 s1 hlt hk

/-! ## Cycle detection by depth-first search -/

theorem Blackens.refl (colors : Nat → Nat) : Blackens colors colors := fun _ => Or.inl rfl

theorem Blackens.trans {a b c : Nat → Nat} (h1 : Blackens a b) (h2 : Blackens b c) :
    Blackens a c := by
  intro x
  rcases h1 x with e1 | ⟨e1, e1b⟩
  · rcases h2 x with e2 | ⟨e2, e2b⟩
    · left; rw [e2, e1]
    · right; exact ⟨by rw [← e1]; exact e2, e2b⟩
  · rcases h2 x with e2 | ⟨e2, _⟩
    · right; exact ⟨e1, by rw [e2]; exact e1b⟩
    · rw [e1b] at e2; exact absurd e2 (by decide)

theorem Blackens.keep {a b : Nat → Nat} (h : Blackens a b) (x : Nat) (hx : a x ≠ 0) :
    b x = a x := by
  rcases h x with e | ⟨e, _⟩
  · exact e
  · exact absurd e hx

theorem Blackens.white {a b : Nat → Nat} (h : Blackens a b) (x : Nat) (hx : b x = 0) :
    a x = 0 := by
  rcases h x with e | ⟨e, _⟩
  · rw [← e]; exact hx
  · exact e

theorem Blackens.gray {a b : Nat → Nat} (h : Blackens a b) (x : Nat) (hx : b x = 1) :
    a x = 1 := by
  rcases h x with e | ⟨_, e⟩
  · rw [← e]; exact hx
  · rw [e] at hx; exact absurd hx (by decide)

theorem closed_reach (d : dag_t) (colors : Nat → Nat) (h : DfsInv d colors) (x y : Nat)
    (hx : colors x = 2) (hxy : Relation.ReflTransGen (Edge d) x y) : colors y = 2 := by
  induction hxy with
  | refl => exact hx
  | tail _ hbc ih => exact h.closed _ _ ih hbc

theorem dfs_successors_spec (d : dag_t) (hwf : WellFormed d)
    (visit : Nat → (Nat → Nat) → Bool × (Nat → Nat)) (W : Finset Nat) (u : Nat)
    (hvisit : ∀ v colors, v < d.n_tasks → colors v = 0 →
      (∀ x, x < d.n_tasks → colors x = 0 → x ∈ W) →
      (∀ g, colors g = 1 → Relation.ReflTransGen (Edge d) g v) → DfsInv d colors →
      SearchSpec d v colors (visit v colors)) :
    ∀ (rest : List Nat) (colors : Nat → Nat), (∀ v ∈ rest, Edge d u v) → colors u = 1 →
      (∀ x, x < d.n_tasks → colors x = 0 → x ∈ W) →
      (∀ g, colors g = 1 → Relation.ReflTransGen (Edge d) g u) → DfsInv d colors →
      ((dfs_successors visit rest colors).1 = true → HasCycle d) ∧
      ((dfs_successors visit rest colors).1 = false →
        Blackens colors (dfs_successors visit rest colors).2 ∧
        (∀ v ∈ rest, (dfs_successors visit rest colors).2 v = 2) ∧
        DfsInv d (dfs_successors visit rest colors).2) := by
  intro rest
  induction rest with
  | nil =>
    intro colors _ _ _ _ hinv
    simp only [dfs_successors]
    exact ⟨fun h => absurd h (by decide), fun _ => ⟨Blackens.refl _, by simp, hinv⟩⟩
  | cons v rest ih =>
    intro colors hedge hu hW hgray hinv
    have huv : Edge d u v := hedge v (List.mem_cons_self _ _)
    have hrest : ∀ w ∈ rest, Edge d u w := fun w hw => hedge w (List.mem_cons_of_mem _ hw)
    by_cases h1 : colors v = 1
    · simp only [dfs_successors, if_pos h1]
      refine ⟨fun _ => ⟨v, ?_⟩, fun h => absurd h (by decide)⟩
      exact Relation.TransGen.tail' (hgray v h1) huv
    · by_cases h0 : colors v = 0
      · have hsp := hvisit v colors (hwf u v huv) h0 hW
          (fun g hg => Relation.ReflTransGen.tail (hgray g hg) huv) hinv
        rcases hr : visit v colors with ⟨b, c⟩
        rw [hr] at hsp
        cases b with
        | true =>
          simp only [dfs_successors, if_neg h1, if_pos h0, hr]
          exact ⟨fun _ => hsp.1 rfl, fun h => absurd h (by decide)⟩
        | false =>
          obtain ⟨hbl, hv2, hinv2⟩ := hsp.2 rfl
          simp only at hbl hv2 hinv2
          have hu2 : c u = 1 := by rw [hbl.keep u (by rw [hu]; decide)]; exact hu
          have ih2 := ih c hrest hu2 (fun x hx hx0 => hW x hx (hbl.white x hx0))
            (fun g hg => hgray g (hbl.gray g hg)) hinv2
          simp only [dfs_successors, if_neg h1, if_pos h0, hr]
          refine ⟨ih2.1, fun hf => ?_⟩
          obtain ⟨hbl3, hall, hinv3⟩ := ih2.2 hf
          refine ⟨hbl.trans hbl3, ?_, hinv3⟩
          intro w hw
          rcases List.mem_cons.1 hw with e | e
          · rw [e, hbl3.keep v (by rw [hv2]; decide)]; exact hv2
          · exact hall w e
      · have hv2 : colors v = 2 := by
          rcases hinv.valid v with e | e | e
          · exact absurd e h0
          · exact absurd e h1
          · exact e
        have ih2 := ih colors hrest hu hW hgray hinv
        simp only [dfs_successors, if_neg h1, if_neg h0]
        refine ⟨ih2.1, fun hf => ?_⟩
        obtain ⟨hbl3, hall, hinv3⟩ := ih2.2 hf
        refine ⟨hbl3, ?_, hinv3⟩
        intro w hw
        rcases List.mem_cons.1 hw with e | e
        · rw [e, hbl3.keep v (by rw [hv2]; decide)]; exact hv2
        · exact hall w e

theorem dfs_cycle_spec (d : dag_t) (hwf : WellFormed d) :
    ∀ (fuel u : Nat) (colors : Nat → Nat) (W : Finset Nat),
      u < d.n_tasks → colors u = 0 →
      (∀ x, x < d.n_tasks → colors x = 0 → x ∈ W) → W.card ≤ fuel →
      (∀ g, colors g = 1 → Relation.ReflTransGen (Edge d) g u) → DfsInv d colors →
      SearchSpec d u colors (dfs_cycle d fuel u colors) := by
  intro fuel
  induction fuel with
  | zero =>
    intro u colors W hu hu0 hW hcard _ _
    have hmem : u ∈ W := hW u hu hu0
    have : W = ∅ := Finset.card_eq_zero.1 (Nat.le_zero.1 hcard)
    rw [this] at hmem
    exact absurd hmem (Finset.not_mem_empty u)
  | succ fuel ih =>
    intro u colors W hu hu0 hW hcard hgray hinv
    have hmem : u ∈ W := hW u hu hu0
    -- the colour array once `u` is gray
    have hg_u : array_set colors u 1 u = 1 := array_set_same _ _ _
    have hg_other : ∀ x, x ≠ u → array_set colors u 1 x = colors x :=
      fun x hx => array_set_other _ _ _ _ hx
    have hinv1 : DfsInv d (array_set colors u 1) := by
      refine ⟨?_, ?_, ?_⟩
      · intro x
        by_cases hx : x = u
        · right; left; rw [hx]; exact hg_u
        · rw [hg_other x hx]; exact hinv.valid x
      · intro x y hx hxy
        have hxu : x ≠ u := by
          intro e; rw [e, hg_u] at hx; exact absurd hx (by decide)
        rw [hg_other x hxu] at hx
        have hy := hinv.closed x y hx hxy
        have hyu : y ≠ u := by
          intro e; rw [e, hu0] at hy; exact absurd hy (by decide)
        rw [hg_other y hyu]; exact hy
      · intro x hx
        have hxu : x ≠ u := by
          intro e; rw [e, hg_u] at hx; exact absurd hx (by decide)
        rw [hg_other x hxu] at hx
        exact hinv.acyclic x hx
    have hW1 : ∀ x, x < d.n_tasks → array_set colors u 1 x = 0 → x ∈ W.erase u := by
      intro x hx hx0
      have hxu : x ≠ u := by
        intro e; rw [e, hg_u] at hx0; exact absurd hx0 (by decide)
      rw [hg_other x hxu] at hx0
      exact Finset.mem_erase.2 ⟨hxu, hW x hx hx0⟩
    have hcard1 : (W.erase u).card ≤ fuel := by
      rw [Finset.card_erase_of_mem hmem]; omega
    have hgray1 : ∀ g, array_set colors u 1 g = 1 → Relation.ReflTransGen (Edge d) g u := by
      intro g hg
      by_cases hgu : g = u
      · rw [hgu]
      · rw [hg_other g hgu] at hg; exact hgray g hg
    have hloop := dfs_successors_spec d hwf (dfs_cycle d fuel) (W.erase u) u
      (fun v c hv hv0 hWc hgc hic => ih v c (W.erase u) hv hv0 hWc hcard1 hgc hic)
      (d.deps u) (array_set colors u 1) (fun v hv => ⟨hu, hv⟩) hg_u hW1 hgray1 hinv1
    rcases hr : dfs_successors (dfs_cycle d fuel) (d.deps u) (array_set colors u 1) with ⟨b, c⟩
    rw [hr] at hloop
    cases b with
    | true =>
      simp only [dfs_cycle, hr, SearchSpec]
      exact ⟨fun _ => hloop.1 rfl, fun h => absurd h (by decide)⟩
    | false =>
      obtain ⟨hbl, hall, hinv2⟩ := hloop.2 rfl
      simp only at hbl hall hinv2
      have hcu : c u = 1 := by rw [hbl.keep u (by rw [hg_u]; decide)]; exact hg_u
      simp only [dfs_cycle, hr, SearchSpec]
      refine ⟨fun h => absurd h (by decide), fun _ => ⟨?_, array_set_same _ _ _, ?_, ?_, ?_⟩⟩
      · intro x
        by_cases hx : x = u
        · right; rw [hx]; exact ⟨hu0, array_set_same _ _ _⟩
        · rw [array_set_other _ _ _ _ hx]
          rcases hbl x with e | ⟨e1, e2⟩
          · left; rw [e, hg_other x hx]
          · right; rw [hg_other x hx] at e1; exact ⟨e1, e2⟩
      · intro x
        by_cases hx : x = u
        · right; right; rw [hx]; exact array_set_same _ _ _
        · rw [array_set_other _ _ _ _ hx]; exact hinv2.valid x
      · intro x y hx hxy
        have hy : c y = 2 := by
          by_cases hxu : x = u
          · rw [hxu] at hxy; exact hall y hxy.2
          · rw [array_set_other _ _ _ _ hxu] at hx; exact hinv2.closed x y hx hxy
        have hyu : y ≠ u := by
          intro e; rw [e, hcu] at hy; exact absurd hy (by decide)
        rw [array_set_other _ _ _ _ hyu]; exact hy
      · intro x hx hcyc
        by_cases hxu : x = u
        · rw [hxu] at hcyc
          obtain ⟨s, hus, hsu⟩ := Relation.TransGen.head'_iff.1 hcyc
          have hs2 : c s = 2 := hall s hus.2
          have := closed_reach d c hinv2 s u hs2 hsu
          rw [hcu] at this; exact absurd this (by decide)
        · rw [array_set_other _ _ _ _ hxu] at hx; exact hinv2.acyclic x hx hcyc

theorem detect_from_spec (d : dag_t) (hwf : WellFormed d) :
    ∀ (is : List Nat) (colors : Nat → Nat), (∀ i ∈ is, i < d.n_tasks) →
      (∀ x, colors x ≠ 1) → DfsInv d colors →
      (∀ x, x < d.n_tasks → x ∉ is → colors x = 2) →
      (detect_from d is colors = true ↔ HasCycle d) := by
  intro is
  induction is with
  | nil =>
    intro colors _ _ hinv hall
    simp only [detect_from]
    refine ⟨fun h => absurd h (by decide), fun ⟨x, hx⟩ => ?_⟩
    obtain ⟨s, hxs, _⟩ := Relation.TransGen.head'_iff.1 hx
    exact absurd hx (hinv.acyclic x (hall x hxs.1 (List.not_mem_nil x)))
  | cons i rest ih =>
    intro colors hlt hng hinv hall
    have hrest : ∀ k ∈ rest, k < d.n_tasks := fun k hk => hlt k (List.mem_cons_of_mem _ hk)
    by_cases h0 : colors i = 0
    · have hsp := dfs_cycle_spec d hwf d.n_tasks i colors (Finset.range d.n_tasks)
        (hlt i (List.mem_cons_self _ _)) h0 (fun x hx _ => Finset.mem_range.2 hx)
        (by simp) (fun g hg => absurd hg (hng g)) hinv
      rcases hr : dfs_cycle d d.n_tasks i colors with ⟨b, c⟩
      rw [hr] at hsp
      cases b with
      | true =>
        simp only [detect_from, if_pos h0, hr]
        exact ⟨fun _ => hsp.1 rfl, fun _ => trivial⟩
      | false =>
        obtain ⟨hbl, hi2, hinv2⟩ := hsp.2 rfl
        simp only at hbl hi2 hinv2
        simp only [detect_from, if_pos h0, hr]
        refine ih c hrest (fun x hx => hng x (hbl.gray x hx)) hinv2 ?_
        intro x hx hxr
        by_cases hxi : x = i
        · rw [hxi]; exact hi2
        · have := hall x hx (by simp [hxi, hxr])
          rw [hbl.keep x (by rw [this]; decide)]; exact this
    · have hi2 : colors i = 2 := by
        rcases hinv.valid i with e | e | e
        · exact absurd e h0
        · exact absurd e (hng i)
        · exact e
      simp only [detect_from, if_neg h0]
      refine ih colors hrest hng hinv ?_
      intro x hx hxr
      by_cases hxi : x = i
      · rw [hxi]; exact hi2
      · exact hall x hx (by simp [hxi, hxr])

theorem dag_detect_cycle_iff (d : dag_t) (hwf : WellFormed d) :
    dag_detect_cycle d = true ↔ HasCycle d := by
  refine detect_from_spec d hwf (List.range d.n_tasks) (fun _ => 0)
    (fun i hi => List.mem_range.1 hi) (fun _ => Nat.zero_ne_one) ⟨?_, ?_, ?_⟩ ?_
  · intro x; left; rfl
  · intro x y hx; exact absurd hx (by decide)
  · intro x hx; exact absurd hx (by decide)
  · intro x hx hnot; exact absurd (List.mem_range.2 hx) hnot

/-! ### The recursion bound is never reached

Supplying more fuel than the number of white vertices does not change the result of the
search, so the bound passed by `dag_detect_cycle` (the number of tasks) is never the reason
a search stops. -/

theorem dfs_successors_congr (d : dag_t) (hwf : WellFormed d)
    (visit1 visit2 : Nat → (Nat → Nat) → Bool × (Nat → Nat)) (W : Finset Nat) (u : Nat)
    (hsame : ∀ v colors, v < d.n_tasks → colors v = 0 →
      (∀ x, x < d.n_tasks → colors x = 0 → x ∈ W) →
      (∀ g, colors g = 1 → Relation.ReflTransGen (Edge d) g v) → DfsInv d colors →
      visit1 v colors = visit2 v colors)
    (hvisit : ∀ v colors, v < d.n_tasks → colors v = 0 →
      (∀ x, x < d.n_tasks → colors x = 0 → x ∈ W) →
      (∀ g, colors g = 1 → Relation.ReflTransGen (Edge d) g v) → DfsInv d colors →
      SearchSpec d v colors (visit2 v colors)) :
    ∀ (rest : List Nat) (colors : Nat → Nat), (∀ v ∈ rest, Edge d u v) → colors u = 1 →
      (∀ x, x < d.n_tasks → colors x = 0 → x ∈ W) →
      (∀ g, colors g = 1 → Relation.ReflTransGen (Edge d) g u) → DfsInv d colors →
      dfs_successors visit1 rest colors = dfs_successors visit2 rest colors := by
  intro rest
  induction rest with
  | nil => intro colors _ _ _ _ _; rfl
  | cons v rest ih =>
    intro colors hedge hu hW hgray hinv
    have huv : Edge d u v := hedge v (List.mem_cons_self _ _)
    have hrest : ∀ w ∈ rest, Edge d u w := fun w hw => hedge w (List.mem_cons_of_mem _ hw)
    by_cases h1 : colors v = 1
    · simp only [dfs_successors, if_pos h1]
    · by_cases h0 : colors v = 0
      · have hreach : ∀ g, colors g = 1 → Relation.ReflTransGen (Edge d) g v :=
          fun g hg => Relation.ReflTransGen.tail (hgray g hg) huv
        have heq := hsame v colors (hwf u v huv) h0 hW hreach hinv
        have hsp := hvisit v colors (hwf u v huv) h0 hW hreach hinv
        simp only [dfs_successors, if_neg h1, if_pos h0, heq]
        rcases hr : visit2 v colors with ⟨b, c⟩
        rw [hr] at hsp
        cases b with
        | true => rfl
        | false =>
          obtain ⟨hbl, _, hinv2⟩ := hsp.2 rfl
          simp only at hbl hinv2
          have hu2 : c u = 1 := by rw [hbl.keep u (by rw [hu]; decide)]; exact hu
          exact ih c hrest hu2 (fun x hx hx0 => hW x hx (hbl.white x hx0))
            (fun g hg => hgray g (hbl.gray g hg)) hinv2
      · simp only [dfs_successors, if_neg h1, if_neg h0]
        exact ih colors hrest hu hW hgray hinv

theorem dfs_cycle_fuel_irrelevant (d : dag_t) (hwf : WellFormed d) :
    ∀ (fuel k u : Nat) (colors : Nat → Nat) (W : Finset Nat),
      u < d.n_tasks → colors u = 0 →
      (∀ x, x < d.n_tasks → colors x = 0 → x ∈ W) → W.card ≤ fuel →
      (∀ g, colors g = 1 → Relation.ReflTransGen (Edge d) g u) → DfsInv d colors →
      dfs_cycle d (fuel + k) u colors = dfs_cycle d fuel u colors := by
  intro fuel
  induction fuel with
  | zero =>
    intro k u colors W hu hu0 hW hcard _ _
    have hmem : u ∈ W := hW u hu hu0
    have : W = ∅ := Finset.card_eq_zero.1 (Nat.le_zero.1 hcard)
    rw [this] at hmem
    exact absurd hmem (Finset.not_mem_empty u)
  | succ fuel ih =>
    intro k u colors W hu hu0 hW hcard hgray hinv
    have hmem : u ∈ W := hW u hu hu0
    have hg_u : array_set colors u 1 u = 1 := array_set_same _ _ _
    have hg_other : ∀ x, x ≠ u → array_set colors u 1 x = colors x :=
      fun x hx => array_set_other _ _ _ _ hx
    have hinv1 : DfsInv d (array_set colors u 1) := by
      refine ⟨?_, ?_, ?_⟩
      · intro x
        by_cases hx : x = u
        · right; left; rw [hx]; exact hg_u
        · rw [hg_other x hx]; exact hinv.valid x
      · intro x y hx hxy
        have hxu : x ≠ u := by
          intro e; rw [e, hg_u] at hx; exact absurd hx (by decide)
        rw [hg_other x hxu] at hx
        have hy := hinv.closed x y hx hxy
        have hyu : y ≠ u := by
          intro e; rw [e, hu0] at hy; exact absurd hy (by decide)
        rw [hg_other y hyu]; exact hy
      · intro x hx
        have hxu : x ≠ u := by
          intro e; rw [e, hg_u] at hx; exact absurd hx (by decide)
        rw [hg_other x hxu] at hx
        exact hinv.acyclic x hx
    have hW1 : ∀ x, x < d.n_tasks → array_set colors u 1 x = 0 → x ∈ W.erase u := by
      intro x hx hx0
      have hxu : x ≠ u := by
        intro e; rw [e, hg_u] at hx0; exact absurd hx0 (by decide)
      rw [hg_other x hxu] at hx0
      exact Finset.mem_erase.2 ⟨hxu, hW x hx hx0⟩
    have hcard1 : (W.erase u).card ≤ fuel := by
      rw [Finset.card_erase_of_mem hmem]; omega
    have hgray1 : ∀ g, array_set colors u 1 g = 1 → Relation.ReflTransGen (Edge d) g u := by
      intro g hg
      by_cases hgu : g = u
      · rw [hgu]
      · rw [hg_other g hgu] at hg; exact hgray g hg
    have hloop := dfs_successors_congr d hwf (dfs_cycle d (fuel + k)) (dfs_cycle d fuel)
      (W.erase u) u
      (fun v c hv hv0 hWc hgc hic => ih k v c (W.erase u) hv hv0 hWc hcard1 hgc hic)
      (fun v c hv hv0 hWc hgc hic =>
        dfs_cycle_spec d hwf fuel v c (W.erase u) hv hv0 hWc hcard1 hgc hic)
      (d.deps u) (array_set colors u 1) (fun v hv => ⟨hu, hv⟩) hg_u hW1 hgray1 hinv1
    have hk : fuel + 1 + k = (fuel + k) + 1 := by omega
    rw [hk]
    simp only [dfs_cycle, hloop]

/-! ## `dag_add_task` -/

theorem dag_find_index_nonneg_iff (d : dag_t) (id : String) :
    dag_find_index d id ≥ 0 ↔ ∃ t ∈ d.tasks, t.id = id := by
  rcases dag_find_index_cases d id with ⟨h1, h2⟩ | ⟨k, s, h1, _, h3, h4, _⟩
  · rw [h1]
    constructor
    · intro h; exact absurd h (by decide)
    · rintro ⟨t, ht, hid⟩; exact absurd hid (h2 t ht)
  · rw [h1]
    constructor
    · intro _
      exact ⟨s.task, List.mem_map.2 ⟨s, List.getElem?_mem h3, rfl⟩, h4⟩
    · intro _; exact Int.ofNat_nonneg k

theorem dag_find_index_neg_one_or_nat (d : dag_t) (id : String) :
    dag_find_index d id = -1 ∨ ∃ k : Nat, dag_find_index d id = (k : Int) ∧ k < d.n_tasks := by
  rcases dag_find_index_cases d id with ⟨h1, _⟩ | ⟨k, s, h1, h2, _⟩
  · exact Or.inl h1
  · exact Or.inr ⟨k, h1, h2⟩

theorem dag_add_task_dup (d : dag_t) (t : task_t) (h : ∃ t1 ∈ d.tasks, t1.id = t.id) :
    dag_add_task d t = (-1, d) := by
  have := (dag_find_index_nonneg_iff d t.id).2 h
  simp [dag_add_task, this]

theorem dag_add_task_fresh (d : dag_t) (t : task_t) (h : ∀ t1 ∈ d.tasks, t1.id ≠ t.id) :
    dag_add_task d t =
      (0, { slots := d.slots ++ [{ task := t, deps := [] }],
            capacity := (ensure_capacity d).2.capacity }) := by
  have hneg : ¬ dag_find_index d t.id ≥ 0 := by
    rw [dag_find_index_nonneg_iff]
    rintro ⟨t1, ht1, hid⟩
    exact h t1 ht1 hid
  have h1 : (ensure_capacity d).1 = 0 := by
    unfold ensure_capacity; split <;> rfl
  have h2 : (ensure_capacity d).2.slots = d.slots := by
    unfold ensure_capacity; split <;> rfl
  simp [dag_add_task, hneg, h1, h2]

theorem deps_append_slot_old (d : dag_t) (s : slot_t) (c : Nat) (u : Nat) (hu : u < d.n_tasks) :
    dag_t.deps { slots := d.slots ++ [s], capacity := c } u = d.deps u := by
  have hu1 : u < d.slots.length := hu
  simp [dag_t.deps, List.getElem?_append_left hu1]

theorem deps_append_slot_new (d : dag_t) (s : slot_t) (c : Nat) :
    dag_t.deps { slots := d.slots ++ [s], capacity := c } d.n_tasks = s.deps := by
  simp [dag_t.deps, dag_t.n_tasks]

theorem n_tasks_append_slot (d : dag_t) (s : slot_t) (c : Nat) :
    dag_t.n_tasks { slots := d.slots ++ [s], capacity := c } = d.n_tasks + 1 := by
  simp [dag_t.n_tasks]

theorem edge_dag_add_task (d : dag_t) (t : task_t) (x y : Nat) :
    Edge (dag_add_task d t).2 x y ↔ Edge d x y := by
  by_cases h : ∃ t1 ∈ d.tasks, t1.id = t.id
  · rw [dag_add_task_dup d t h]
  · have h1 : ∀ t1 ∈ d.tasks, t1.id ≠ t.id := fun t1 ht1 hid => h ⟨t1, ht1, hid⟩
    rw [dag_add_task_fresh d t h1]
    simp only [Edge]
    rw [n_tasks_append_slot]
    constructor
    · rintro ⟨hx, hy⟩
      rcases Nat.lt_succ_iff_lt_or_eq.1 hx with hlt | heq
      · rw [deps_append_slot_old d _ _ x hlt] at hy; exact ⟨hlt, hy⟩
      · rw [heq, deps_append_slot_new] at hy; simp at hy
    · rintro ⟨hx, hy⟩
      refine ⟨Nat.lt_succ_of_lt hx, ?_⟩
      rw [deps_append_slot_old d _ _ x hx]; exact hy

theorem n_tasks_dag_add_task_le (d : dag_t) (t : task_t) :
    d.n_tasks ≤ (dag_add_task d t).2.n_tasks := by
  by_cases h : ∃ t1 ∈ d.tasks, t1.id = t.id
  · rw [dag_add_task_dup d t h]
  · have h1 : ∀ t1 ∈ d.tasks, t1.id ≠ t.id := fun t1 ht1 hid => h ⟨t1, ht1, hid⟩
    rw [dag_add_task_fresh d t h1]
    simp [dag_t.n_tasks]

theorem transGen_congr {r s : Nat → Nat → Prop} (h : ∀ x y, r x y ↔ s x y) (a b : Nat) :
    Relation.TransGen r a b ↔ Relation.TransGen s a b :=
  ⟨fun p => p.mono (fun x y hxy => (h x y).1 hxy), fun p => p.mono (fun x y hxy => (h x y).2 hxy)⟩

theorem hasCycle_congr (d1 d2 : dag_t) (h : ∀ x y, Edge d1 x y ↔ Edge d2 x y) :
    HasCycle d1 ↔ HasCycle d2 := by
  constructor
  · rintro ⟨u, hu⟩; exact ⟨u, (transGen_congr h u u).1 hu⟩
  · rintro ⟨u, hu⟩; exact ⟨u, (transGen_congr h u u).2 hu⟩

/-! ## `dag_add_dep` -/

theorem edge_set_deps_append (d : dag_t) (i j : Nat) (hi : i < d.n_tasks) (x y : Nat) :
    Edge (d.set_deps i (d.deps i ++ [j])) x y ↔ Edge d x y ∨ (x = i ∧ y = j) := by
  simp only [Edge, n_tasks_set_deps]
  by_cases hx : x = i
  · subst hx
    rw [deps_set_deps_same d x _ hi]
    simp only [List.mem_append, List.mem_singleton]
    constructor
    · rintro ⟨_, h | h⟩
      · exact Or.inl ⟨hi, h⟩
      · exact Or.inr ⟨trivial, h⟩
    · rintro (⟨_, h⟩ | ⟨_, h⟩)
      · exact ⟨hi, Or.inl h⟩
      · exact ⟨hi, Or.inr h⟩
  · rw [deps_set_deps_other d i x _ hx]
    constructor
    · intro h; exact Or.inl h
    · rintro (h | ⟨h, _⟩)
      · exact h
      · exact absurd h hx

theorem wellFormed_set_deps_append (d : dag_t) (hwf : WellFormed d) (i j : Nat)
    (hi : i < d.n_tasks) (hj : j < d.n_tasks) :
    WellFormed (d.set_deps i (d.deps i ++ [j])) := by
  intro u v huv
  rw [n_tasks_set_deps]
  rcases (edge_set_deps_append d i j hi u v).1 huv with h | ⟨_, h⟩
  · exact hwf u v h
  · rw [h]; exact hj

theorem transGen_add_edge {r s : Nat → Nat → Prop} {i j : Nat}
    (h : ∀ x y, s x y ↔ r x y ∨ (x = i ∧ y = j)) {a b : Nat} (p : Relation.TransGen s a b) :
    Relation.TransGen r a b ∨
      (Relation.ReflTransGen r a i ∧ Relation.ReflTransGen r j b) := by
  induction p with
  | single hab =>
    rcases (h _ _).1 hab with e | ⟨e1, e2⟩
    · exact Or.inl (Relation.TransGen.single e)
    · right; rw [e1, e2]; exact ⟨Relation.ReflTransGen.refl, Relation.ReflTransGen.refl⟩
  | tail _ hbc ih =>
    rcases (h _ _).1 hbc with e | ⟨e1, e2⟩
    · rcases ih with p1 | ⟨p1, p2⟩
      · exact Or.inl (Relation.TransGen.tail p1 e)
      · exact Or.inr ⟨p1, Relation.ReflTransGen.tail p2 e⟩
    · right
      rw [e2]
      refine ⟨?_, Relation.ReflTransGen.refl⟩
      rcases ih with p1 | ⟨p1, _⟩
      · rw [← e1]; exact p1.to_reflTransGen
      · exact p1

theorem hasCycle_set_deps_append (d : dag_t) (i j : Nat) (hi : i < d.n_tasks)
    (hac : ¬ HasCycle d) :
    HasCycle (d.set_deps i (d.deps i ++ [j])) ↔ Relation.ReflTransGen (Edge d) j i := by
  have hE := edge_set_deps_append d i j hi
  constructor
  · rintro ⟨a, ha⟩
    rcases transGen_add_edge hE ha with p | ⟨p1, p2⟩
    · exact absurd ⟨a, p⟩ hac
    · exact p2.trans p1
  · intro p
    refine ⟨j, Relation.TransGen.tail' ?_ ((hE i j).2 (Or.inr ⟨rfl, rfl⟩))⟩
    exact p.mono (fun x y hxy => (hE x y).2 (Or.inl hxy))

theorem dag_add_dep_missing (d : dag_t) (from_id to_id : String)
    (h : dag_find_index d from_id = -1 ∨ dag_find_index d to_id = -1) :
    dag_add_dep d from_id to_id = (-1, d) := by
  have : dag_find_index d from_id < 0 ∨ dag_find_index d to_id < 0 := by
    rcases h with h | h
    · left; rw [h]; decide
    · right; rw [h]; decide
  simp [dag_add_dep, this]

theorem dag_add_dep_found (d : dag_t) (from_id to_id : String) (i j : Nat)
    (hi : dag_find_index d from_id = (i : Int)) (hj : dag_find_index d to_id = (j : Int)) :
    dag_add_dep d from_id to_id =
      if j ∈ d.deps i then (-2, d)
      else if dag_detect_cycle (d.set_deps i (d.deps i ++ [j])) then (-3, d)
      else (0, d.set_deps i (d.deps i ++ [j])) := by
  have hi_lt : i < d.n_tasks := by
    rcases dag_find_index_neg_one_or_nat d from_id with h | ⟨k, hk, hlt⟩
    · rw [hi] at h; exact absurd h (by omega)
    · rw [hi] at hk; have : i = k := by exact_mod_cast hk
      rw [this]; exact hlt
  have hnot : ¬ ((i : Int) < 0 ∨ (j : Int) < 0) := by omega
  simp only [dag_add_dep, hi, hj, if_neg hnot, Int.toNat_ofNat]
  by_cases hmem : j ∈ d.deps i
  · simp [hmem]
  · simp only [if_neg hmem]
    by_cases hc : dag_detect_cycle (d.set_deps i (d.deps i ++ [j])) = true
    · simp only [hc, if_true]
      rw [deps_set_deps_same d i _ hi_lt, List.dropLast_concat, set_deps_twice,
        set_deps_self d i hi_lt]
    · simp [hc]

theorem dag_add_dep_graph_cases (d : dag_t) (from_id to_id : String) :
    (dag_add_dep d from_id to_id).2 = d ∨
    ∃ i j : Nat, i < d.n_tasks ∧ j < d.n_tasks ∧
      dag_detect_cycle (d.set_deps i (d.deps i ++ [j])) = false ∧
      (dag_add_dep d from_id to_id).2 = d.set_deps i (d.deps i ++ [j]) := by
  rcases dag_find_index_neg_one_or_nat d from_id with h | ⟨i, hi, hilt⟩
  · left; rw [dag_add_dep_missing d _ _ (Or.inl h)]
  · rcases dag_find_index_neg_one_or_nat d to_id with h | ⟨j, hj, hjlt⟩
    · left; rw [dag_add_dep_missing d _ _ (Or.inr h)]
    · rw [dag_add_dep_found d _ _ i j hi hj]
      by_cases hmem : j ∈ d.deps i
      · left; simp [hmem]
      · by_cases hc : dag_detect_cycle (d.set_deps i (d.deps i ++ [j])) = true
        · left; simp [hmem, hc]
        · right
          refine ⟨i, j, hilt, hjlt, by simpa using hc, ?_⟩
          simp [hmem, hc]

/-! ## Invariants of reachable graphs -/

theorem wellFormed_dag_init : WellFormed dag_init := by
  intro u v h
  exact absurd h.1 (by simp [dag_init, dag_t.n_tasks])

theorem not_hasCycle_dag_init : ¬ HasCycle dag_init := by
  rintro ⟨u, hu⟩
  obtain ⟨s, hus, _⟩ := Relation.TransGen.head'_iff.1 hu
  exact absurd hus.1 (by simp [dag_init, dag_t.n_tasks])

theorem wellFormed_dag_add_task (d : dag_t) (t : task_t) (hwf : WellFormed d) :
    WellFormed (dag_add_task d t).2 := by
  intro u v huv
  have := hwf u v ((edge_dag_add_task d t u v).1 huv)
  exact Nat.lt_of_lt_of_le this (n_tasks_dag_add_task_le d t)

theorem reachable_wellFormed_acyclic (d : dag_t) (h : Reachable d) :
    WellFormed d ∧ ¬ HasCycle d := by
  induction h with
  | init => exact ⟨wellFormed_dag_init, not_hasCycle_dag_init⟩
  | add_task d t _ ih =>
    refine ⟨wellFormed_dag_add_task d t ih.1, ?_⟩
    rw [hasCycle_congr _ d (edge_dag_add_task d t)]
    exact ih.2
  | add_dep d from_id to_id _ ih =>
    rcases dag_add_dep_graph_cases d from_id to_id with h | ⟨i, j, hi, hj, hc, h⟩
    · rw [h]; exact ih
    · rw [h]
      have hwf1 := wellFormed_set_deps_append d ih.1 i j hi hj
      refine ⟨hwf1, ?_⟩
      intro hcyc
      have := (dag_detect_cycle_iff _ hwf1).2 hcyc
      rw [hc] at this
      exact absurd this (by decide)

/-! ## Topological sort by Kahn's algorithm -/

theorem count_successors_spec (l : List Nat) (indegree : Nat → Nat) (v : Nat) :
    count_successors l indegree v = indegree v + l.count v := by
  induction l generalizing indegree with
  | nil => simp [count_successors]
  | cons w rest ih =>
    simp only [count_successors]
    rw [ih]
    by_cases h : v = w
    · subst h
      rw [array_set_same, List.count_cons_self]; omega
    · rw [array_set_other _ _ _ _ h, List.count_cons_of_ne h]

theorem count_indegree_spec (d : dag_t) (us : List Nat) (indegree : Nat → Nat) (v : Nat) :
    count_indegree d us indegree v =
      indegree v + (us.map (fun u => (d.deps u).count v)).sum := by
  induction us generalizing indegree with
  | nil => simp [count_indegree]
  | cons u us ih =>
    simp only [count_indegree, List.map_cons, List.sum_cons]
    rw [ih, count_successors_spec]; omega

theorem seed_queue_spec (indegree : Nat → Nat) (us queue : List Nat) :
    seed_queue indegree us queue = queue ++ us.filter (fun u => decide (indegree u = 0)) := by
  induction us generalizing queue with
  | nil => simp [seed_queue]
  | cons u us ih =>
    by_cases h : indegree u = 0
    · simp [seed_queue, h, ih]
    · simp [seed_queue, h, ih]

theorem release_successors_spec (l : List Nat) :
    ∀ (indegree : Nat → Nat) (queue : List Nat), (∀ v, l.count v ≤ indegree v) →
      (∀ v, (release_successors l (indegree, queue)).1 v = indegree v - l.count v) ∧
      ∃ fresh : List Nat, (release_successors l (indegree, queue)).2 = queue ++ fresh ∧
        fresh.Nodup ∧ ∀ v, v ∈ fresh ↔ (v ∈ l ∧ indegree v = l.count v) := by
  induction l with
  | nil =>
    intro indegree queue _
    refine ⟨fun v => by simp [release_successors], [], by simp [release_successors], by simp, ?_⟩
    intro v; simp
  | cons w rest ih =>
    intro indegree queue hle
    have hw : 1 ≤ indegree w := by
      have := hle w
      rw [List.count_cons_self] at this; omega
    have hdec : size_dec (indegree w) = indegree w - 1 := by
      unfold size_dec; rw [if_neg (by omega)]
    have h1 : ∀ v, array_set indegree w (indegree w - 1) v =
        indegree v - (if v = w then 1 else 0) := by
      intro v
      by_cases hv : v = w
      · subst hv; rw [array_set_same]; simp
      · rw [array_set_other _ _ _ _ hv]; simp [hv]
    have hle1 : ∀ v, rest.count v ≤ array_set indegree w (indegree w - 1) v := by
      intro v
      have := hle v
      rw [h1]
      by_cases hv : v = w
      · subst hv; rw [List.count_cons_self] at this; simp; omega
      · rw [List.count_cons_of_ne hv] at this; simp [hv]; exact this
    have hval : ∀ v (q : List Nat),
        (release_successors rest (array_set indegree w (indegree w - 1), q)).1 v =
          indegree v - (w :: rest).count v := by
      intro v q
      rw [(ih _ q hle1).1 v, h1]
      by_cases hv : v = w
      · subst hv; rw [List.count_cons_self]; simp; omega
      · rw [List.count_cons_of_ne hv]; simp [hv]
    by_cases hz : array_set indegree w (indegree w - 1) w = 0
    · have hstep : release_successors (w :: rest) (indegree, queue) =
          release_successors rest (array_set indegree w (indegree w - 1), queue ++ [w]) := by
        simp only [release_successors, hdec, if_pos hz]
      rw [hstep]
      refine ⟨fun v => hval v _, ?_⟩
      obtain ⟨fresh, hq, hnd, hmem⟩ := (ih _ (queue ++ [w]) hle1).2
      have hw1 : indegree w = 1 := by
        rw [array_set_same] at hz; omega
      have hwrest : w ∉ rest := by
        have := hle1 w
        rw [hz] at this
        exact List.count_eq_zero.1 (Nat.le_zero.1 this)
      refine ⟨w :: fresh, by rw [hq]; simp, ?_, ?_⟩
      · refine List.nodup_cons.2 ⟨fun hin => hwrest ((hmem w).1 hin).1, hnd⟩
      · intro v
        by_cases hv : v = w
        · subst hv
          simp only [List.mem_cons, true_or, List.count_cons_self, true_iff]
          rw [List.count_eq_zero.2 hwrest]; exact ⟨trivial, hw1⟩
        · rw [List.mem_cons, List.mem_cons, List.count_cons_of_ne hv, hmem v,
            array_set_other _ _ _ _ hv]
          simp [hv]
    · have hstep : release_successors (w :: rest) (indegree, queue) =
          release_successors rest (array_set indegree w (indegree w - 1), queue) := by
        simp only [release_successors, hdec, if_neg hz]
      rw [hstep]
      refine ⟨fun v => hval v _, ?_⟩
      obtain ⟨fresh, hq, hnd, hmem⟩ := (ih _ queue hle1).2
      refine ⟨fresh, hq, hnd, ?_⟩
      intro v
      by_cases hv : v = w
      · subst hv
        rw [hmem v, List.count_cons_self, array_set_same]
        rw [array_set_same] at hz
        constructor
        · rintro ⟨_, h⟩; exact ⟨List.mem_cons_self _ _, by omega⟩
        · rintro ⟨_, h⟩
          have hc : 0 < rest.count v := by omega
          exact ⟨List.count_pos_iff.1 hc, by omega⟩
      · rw [hmem v, List.mem_cons, List.count_cons_of_ne hv, array_set_other _ _ _ _ hv]
        simp [hv]

theorem pending_in_nil (d : dag_t) (v : Nat) :
    pending_in d [] v = ((List.range d.n_tasks).map (fun u => (d.deps u).count v)).sum := by
  unfold pending_in
  have h : (List.range d.n_tasks).toFinset = Finset.range d.n_tasks := by
    ext x; simp
  rw [← List.sum_toFinset _ (List.nodup_range _), h]
  simp

theorem pending_in_snoc (d : dag_t) (out : List Nat) (u v : Nat) (hu : u < d.n_tasks)
    (hout : u ∉ out) :
    pending_in d out v = (d.deps u).count v + pending_in d (out ++ [u]) v := by
  unfold pending_in
  have hmem : u ∈ Finset.range d.n_tasks \ out.toFinset := by
    simp [hu, hout]
  have hset : Finset.range d.n_tasks \ (out ++ [u]).toFinset =
      (Finset.range d.n_tasks \ out.toFinset).erase u := by
    ext x
    simp only [Finset.mem_sdiff, Finset.mem_range, List.mem_toFinset, List.mem_append,
      List.mem_singleton, Finset.mem_erase]
    tauto
  rw [hset]
  exact (Finset.add_sum_erase _ (fun u => (d.deps u).count v) hmem).symm

theorem pending_in_eq_zero (d : dag_t) (out : List Nat) (v x : Nat)
    (h : pending_in d out v = 0) (hx : Edge d x v) : x ∈ out := by
  by_contra hnot
  have := pending_in_snoc d out x v hx.1 hnot
  have hc : 0 < (d.deps x).count v := List.count_pos_iff.2 hx.2
  omega

theorem pending_in_pos (d : dag_t) (out : List Nat) (v : Nat)
    (h : pending_in d out v ≠ 0) : ∃ x, Edge d x v ∧ x ∉ out := by
  unfold pending_in at h
  obtain ⟨x, hx, hne⟩ := Finset.exists_ne_zero_of_sum_ne_zero h
  simp only [Finset.mem_sdiff, Finset.mem_range, List.mem_toFinset] at hx
  refine ⟨x, ⟨hx.1, ?_⟩, hx.2⟩
  exact List.count_pos_iff.1 (Nat.pos_of_ne_zero hne)

theorem length_le_of_nodup_of_bound (l : List Nat) (n : Nat) (hnd : l.Nodup)
    (hb : ∀ v ∈ l, v < n) : l.length ≤ n := by
  have h1 : l.toFinset ⊆ Finset.range n := by
    intro x hx
    exact Finset.mem_range.2 (hb x (List.mem_toFinset.1 hx))
  have h2 := Finset.card_le_card h1
  rw [List.toFinset_card_of_nodup hnd, Finset.card_range] at h2
  exact h2

theorem getElem_not_mem_take (l : List Nat) (k : Nat) (u : Nat) (hnd : l.Nodup)
    (hu : l[k]? = some u) : u ∉ l.take k := by
  intro hin
  obtain ⟨i, hi⟩ := List.mem_iff_getElem?.1 hin
  have hik : i < k := by
    by_contra hge
    have : (l.take k)[i]? = none := by
      apply List.getElem?_eq_none
      rw [List.length_take]; omega
    rw [this] at hi; exact absurd hi (by simp)
  rw [List.getElem?_take_of_lt hik] at hi
  obtain ⟨hi1, hi2⟩ := List.getElem?_eq_some_iff.1 hi
  obtain ⟨hk1, hk2⟩ := List.getElem?_eq_some_iff.1 hu
  have := (List.Nodup.getElem_inj_iff hnd).1 (hi2.trans hk2.symm)
  omega

theorem kahn_init_inv (d : dag_t) : KahnInv d (kahn_init d) := by
  have hind : ∀ v, (kahn_init d).indegree v = pending_in d [] v := by
    intro v
    simp only [kahn_init]
    rw [count_indegree_spec, pending_in_nil]; omega
  have hq : (kahn_init d).queue =
      (List.range d.n_tasks).filter (fun u => decide ((kahn_init d).indegree u = 0)) := by
    simp only [kahn_init]
    rw [seed_queue_spec]; simp
  refine ⟨rfl, Nat.zero_le _, ?_, ?_, fun v _ => hind v, ?_, ?_⟩
  · rw [hq]; exact (List.nodup_range _).filter _
  · intro v hv
    rw [hq] at hv
    exact List.mem_range.1 (List.mem_filter.1 hv).1
  · intro v hv
    rw [hq, List.mem_filter]
    simp [List.mem_range, hv]
  · intro j v hj
    simp [kahn_init] at hj

theorem kahn_step_inv (d : dag_t) (hwf : WellFormed d) (s : kahn_state) (hinv : KahnInv d s)
    (hlt : s.qh < s.queue.length) :
    KahnInv d
      { indegree := (release_successors (d.deps (s.queue.getD s.qh 0)) (s.indegree, s.queue)).1
        queue := (release_successors (d.deps (s.queue.getD s.qh 0)) (s.indegree, s.queue)).2
        qh := s.qh + 1
        out_order := s.out_order ++ [s.queue.getD s.qh 0] } := by
  generalize hu_def : s.queue.getD s.qh 0 = u
  have hu_get : s.queue[s.qh]? = some u := by
    rw [← hu_def, List.getD_eq_getElem?_getD, List.getElem?_eq_getElem hlt]; rfl
  have hu_mem : u ∈ s.queue := List.getElem?_mem hu_get
  have hu_lt : u < d.n_tasks := hinv.bound u hu_mem
  have hu_out : u ∉ s.out_order := by
    rw [hinv.out_eq]; exact getElem_not_mem_take _ _ _ hinv.nodup hu_get
  have hpre : ∀ v, (d.deps u).count v ≤ s.indegree v := by
    intro v
    by_cases hv : v < d.n_tasks
    · rw [hinv.indeg v hv, pending_in_snoc d s.out_order u v hu_lt hu_out]; omega
    · have : v ∉ d.deps u := fun hin => hv (hwf u v ⟨hu_lt, hin⟩)
      rw [List.count_eq_zero.2 this]; omega
  obtain ⟨hval, fresh, hq, hnd, hmem⟩ :=
    release_successors_spec (d.deps u) s.indegree s.queue hpre
  have hfresh_pos : ∀ v, v ∈ fresh → s.indegree v ≠ 0 := by
    intro v hv
    obtain ⟨h1, h2⟩ := (hmem v).1 hv
    have := List.count_pos_iff.2 h1
    omega
  have hfresh_lt : ∀ v, v ∈ fresh → v < d.n_tasks :=
    fun v hv => hwf u v ⟨hu_lt, ((hmem v).1 hv).1⟩
  refine ⟨?_, ?_, ?_, ?_, ?_, ?_, ?_⟩ <;> dsimp only
  · rw [hq, List.take_append_of_le_length hlt, List.take_succ, hu_get, hinv.out_eq]; rfl
  · rw [hq, List.length_append]; omega
  · rw [hq]
    refine List.nodup_append.2 ⟨hinv.nodup, hnd, ?_⟩
    intro v hv1 hv2
    exact hfresh_pos v hv2 ((hinv.queued v (hinv.bound v hv1)).1 hv1)
  · intro v hv
    rw [hq] at hv
    rcases List.mem_append.1 hv with h | h
    · exact hinv.bound v h
    · exact hfresh_lt v h
  · intro v hv
    have := pending_in_snoc d s.out_order u v hu_lt hu_out
    rw [hval, hinv.indeg v hv]; omega
  · intro v hv
    rw [hq, hval, List.mem_append, hmem, hinv.queued v hv]
    have hle := hpre v
    constructor
    · rintro (h | ⟨_, h⟩) <;> omega
    · intro h
      by_cases hin : v ∈ d.deps u
      · exact Or.inr ⟨hin, by omega⟩
      · left
        have := List.count_eq_zero.2 hin
        omega
  · intro j v hj x hx
    by_cases hjlt : j < s.out_order.length
    · rw [List.getElem?_append_left hjlt] at hj
      obtain ⟨i, hi, hix⟩ := hinv.ordered j v hj x hx
      refine ⟨i, hi, ?_⟩
      rw [List.getElem?_append_left (by omega)]; exact hix
    · have hjeq : j = s.out_order.length := by
        have : j < (s.out_order ++ [u]).length := (List.getElem?_eq_some_iff.1 hj).1
        rw [List.length_append] at this
        simp at this; omega
      have hvu : v = u := by
        rw [hjeq] at hj; simpa using hj.symm
      rw [hvu] at hx
      have hz : s.indegree u = 0 := (hinv.queued u hu_lt).1 hu_mem
      rw [hinv.indeg u hu_lt] at hz
      have hxout : x ∈ s.out_order := pending_in_eq_zero d s.out_order u x hz hx
      obtain ⟨i, hi⟩ := List.mem_iff_getElem?.1 hxout
      have hilt : i < s.out_order.length := (List.getElem?_eq_some_iff.1 hi).1
      refine ⟨i, by omega, ?_⟩
      rw [List.getElem?_append_left hilt]; exact hi

theorem kahn_loop_spec (d : dag_t) (hwf : WellFormed d) :
    ∀ (fuel : Nat) (s : kahn_state), KahnInv d s → d.n_tasks ≤ s.qh + fuel →
      KahnInv d (kahn_loop d fuel s) ∧
      (kahn_loop d fuel s).qh = (kahn_loop d fuel s).queue.length := by
  intro fuel
  induction fuel with
  | zero =>
    intro s hinv hfuel
    have := length_le_of_nodup_of_bound s.queue d.n_tasks hinv.nodup hinv.bound
    have := hinv.qh_le
    exact ⟨hinv, by simp only [kahn_loop]; omega⟩
  | succ fuel ih =>
    intro s hinv hfuel
    by_cases hlt : s.qh < s.queue.length
    · simp only [kahn_loop, if_pos hlt]
      exact ih _ (kahn_step_inv d hwf s hinv hlt) (by dsimp only; omega)
    · simp only [kahn_loop, if_neg hlt]
      have := hinv.qh_le
      exact ⟨hinv, by omega⟩

theorem exists_cycle_of_all_have_pred (R : Nat → Nat → Prop) (S : Finset Nat)
    (hne : S.Nonempty) (h : ∀ v ∈ S, ∃ x ∈ S, R x v) : ∃ c, Relation.TransGen R c c := by
  by_contra hno
  let r : S → S → Prop := fun a b => Relation.TransGen R a.1 b.1
  haveI : IsTrans S r := ⟨fun _ _ _ hab hbc => Relation.TransGen.trans hab hbc⟩
  haveI : IsIrrefl S r := ⟨fun a ha => hno ⟨a.1, ha⟩⟩
  have hwf : WellFounded r := Finite.wellFounded_of_trans_of_irrefl r
  obtain ⟨v0, hv0⟩ := hne
  obtain ⟨m, _, hm⟩ := hwf.has_min Set.univ ⟨⟨v0, hv0⟩, trivial⟩
  obtain ⟨x, hx, hxm⟩ := h m.1 m.2
  exact hm ⟨x, hx⟩ trivial (Relation.TransGen.single hxm)

theorem ordered_transGen (d : dag_t) (out : List Nat)
    (hord : ∀ (j v : Nat), out[j]? = some v → ∀ x : Nat, Edge d x v →
      ∃ i : Nat, i < j ∧ out[i]? = some x)
    (x v : Nat) (hxv : Relation.TransGen (Edge d) x v) :
    ∀ j : Nat, out[j]? = some v → ∃ i : Nat, i < j ∧ out[i]? = some x := by
  induction hxv with
  | single h => intro j hj; exact hord j _ hj x h
  | tail _ hbc ih =>
    intro j hj
    obtain ⟨i, hi, hib⟩ := hord j _ hj _ hbc
    obtain ⟨k, hk, hkx⟩ := ih i hib
    exact ⟨k, by omega, hkx⟩

theorem cycle_not_output (d : dag_t) (out : List Nat)
    (hord : ∀ (j v : Nat), out[j]? = some v → ∀ x : Nat, Edge d x v →
      ∃ i : Nat, i < j ∧ out[i]? = some x)
    (c : Nat) (hc : Relation.TransGen (Edge d) c c) : c ∉ out := by
  have key : ∀ j : Nat, out[j]? ≠ some c := by
    intro j
    induction j using Nat.strong_induction_on with
    | _ j ih =>
      intro hj
      obtain ⟨i, hi, hic⟩ := ordered_transGen d out hord c c hc j hj
      exact ih i hi hic
  intro hin
  obtain ⟨j, hj⟩ := List.mem_iff_getElem?.1 hin
  exact key j hj

theorem kahn_final_cyclic (d : dag_t) (s : kahn_state) (hinv : KahnInv d s)
    (hcyc : HasCycle d) : s.out_order.length < d.n_tasks := by
  obtain ⟨c, hc⟩ := hcyc
  have hcn : c < d.n_tasks := by
    obtain ⟨_, h, _⟩ := Relation.TransGen.head'_iff.1 hc
    exact h.1
  have hnot : c ∉ s.out_order := cycle_not_output d s.out_order hinv.ordered c hc
  have hnd : s.out_order.Nodup := by
    rw [hinv.out_eq]; exact hinv.nodup.sublist (List.take_sublist _ _)
  have hb : ∀ v ∈ s.out_order, v < d.n_tasks := by
    intro v hv
    rw [hinv.out_eq] at hv
    exact hinv.bound v (List.mem_of_mem_take hv)
  have hsub : s.out_order.toFinset ⊆ (Finset.range d.n_tasks).erase c := by
    intro x hx
    have hx1 := List.mem_toFinset.1 hx
    refine Finset.mem_erase.2 ⟨fun e => hnot (e ▸ hx1), Finset.mem_range.2 (hb x hx1)⟩
  have h2 := Finset.card_le_card hsub
  rw [List.toFinset_card_of_nodup hnd,
    Finset.card_erase_of_mem (Finset.mem_range.2 hcn), Finset.card_range] at h2
  omega

theorem kahn_final_acyclic (d : dag_t) (s : kahn_state) (hinv : KahnInv d s)
    (hdone : s.qh = s.queue.length) (hac : ¬ HasCycle d) :
    s.out_order.Perm (List.range d.n_tasks) := by
  have hout : s.out_order = s.queue := by
    rw [hinv.out_eq, hdone, List.take_length]
  have hall : ∀ v, v < d.n_tasks → v ∈ s.out_order := by
    by_contra hex
    push_neg at hex
    obtain ⟨v0, hv0, hv0out⟩ := hex
    apply hac
    apply exists_cycle_of_all_have_pred (Edge d) (Finset.range d.n_tasks \ s.out_order.toFinset)
    · exact ⟨v0, by simp [hv0, hv0out]⟩
    · intro v hv
      simp only [Finset.mem_sdiff, Finset.mem_range, List.mem_toFinset] at hv
      have h1 : s.indegree v ≠ 0 := by
        intro hz
        exact hv.2 (hout ▸ (hinv.queued v hv.1).2 hz)
      rw [hinv.indeg v hv.1] at h1
      obtain ⟨x, hx, hxout⟩ := pending_in_pos d s.out_order v h1
      exact ⟨x, by simp [hx.1, hxout], hx⟩
  apply List.perm_of_nodup_nodup_toFinset_eq (hout ▸ hinv.nodup) (List.nodup_range _)
  ext x
  simp only [List.mem_toFinset, List.mem_range]
  exact ⟨fun hx => hinv.bound x (hout ▸ hx), hall x⟩

theorem dag_toposort_cyclic (d : dag_t) (hwf : WellFormed d) (hcyc : HasCycle d) :
    dag_toposort d = { code := -1, out_order := none, out_n := d.n_tasks } := by
  have h := kahn_loop_spec d hwf d.n_tasks (kahn_init d) (kahn_init_inv d)
    (by simp [kahn_init])
  have hlt := kahn_final_cyclic d _ h.1 hcyc
  simp only [dag_toposort, if_pos hlt]

theorem dag_toposort_acyclic (d : dag_t) (hwf : WellFormed d) (hac : ¬ HasCycle d) :
    ∃ out : List Nat,
      dag_toposort d = { code := 0, out_order := some out, out_n := d.n_tasks } ∧
      out.Perm (List.range d.n_tasks) ∧
      ∀ u v : Nat, Edge d u v →
        ∃ i j : Nat, i < j ∧ out[i]? = some u ∧ out[j]? = some v := by
  have h := kahn_loop_spec d hwf d.n_tasks (kahn_init d) (kahn_init_inv d)
    (by simp [kahn_init])
  have hperm := kahn_final_acyclic d _ h.1 h.2 hac
  refine ⟨(kahn_loop d d.n_tasks (kahn_init d)).out_order, ?_, hperm, ?_⟩
  · have hlen : ¬ (kahn_loop d d.n_tasks (kahn_init d)).out_order.length < d.n_tasks := by
      rw [hperm.length_eq, List.length_range]; omega
    simp only [dag_toposort, if_neg hlen]
  · intro u v huv
    have hv : v ∈ (kahn_loop d d.n_tasks (kahn_init d)).out_order :=
      hperm.mem_iff.2 (List.mem_range.2 (hwf u v huv))
    obtain ⟨j, hj⟩ := List.mem_iff_getElem?.1 hv
    obtain ⟨i, hi, hiu⟩ := h.1.ordered j v hj u huv
    exact ⟨i, j, hi, hiu, hj⟩

/-! ## Checking the hypotheses on a concrete graph -/

theorem wellFormed_of_slots (d : dag_t)
    (h : ∀ s ∈ d.slots, ∀ v ∈ s.deps, v < d.n_tasks) : WellFormed d := by
  intro u v huv
  have hu : u < d.slots.length := huv.1
  have hs : d.slots[u]? = some d.slots[u] := List.getElem?_eq_getElem hu
  have hv := huv.2
  rw [deps_of_slot d u _ hs] at hv
  exact h _ (List.getElem?_mem hs) v hv

theorem not_hasCycle_of_detect (d : dag_t) (hwf : WellFormed d)
    (h : dag_detect_cycle d = false) : ¬ HasCycle d := by
  intro hc
  rw [(dag_detect_cycle_iff d hwf).2 hc] at h
  exact absurd h (by decide)

theorem dag_find_index_lt (d : dag_t) (id : String) (i : Nat)
    (hi : dag_find_index d id = (i : Int)) : i < d.n_tasks := by
  rcases dag_find_index_neg_one_or_nat d id with h | ⟨k, hk, hlt⟩
  · rw [hi] at h; exact absurd h (by omega)
  · rw [hi] at hk
    have : i = k := by exact_mod_cast hk
    rw [this]; exact hlt

theorem not_detect_of_acyclic (d : dag_t) (hwf : WellFormed d) (hac : ¬ HasCycle d) :
    dag_detect_cycle d = false := by
  cases hb : dag_detect_cycle d with
  | false => rfl
  | true => exact absurd ((dag_detect_cycle_iff d hwf).1 hb) hac

theorem dag_add_dep_of_path (d : dag_t) (hwf : WellFormed d) (hac : ¬ HasCycle d)
    (from_id to_id : String) (i j : Nat)
    (hi : dag_find_index d from_id = (i : Int)) (hj : dag_find_index d to_id = (j : Int))
    (hnew : j ∉ d.deps i) (hpath : Relation.ReflTransGen (Edge d) j i) :
    dag_add_dep d from_id to_id = (-3, d) := by
  have hi_lt := dag_find_index_lt d from_id i hi
  have hj_lt := dag_find_index_lt d to_id j hj
  have hcyc : HasCycle (d.set_deps i (d.deps i ++ [j])) :=
    (hasCycle_set_deps_append d i j hi_lt hac).2 hpath
  have hdet : dag_detect_cycle (d.set_deps i (d.deps i ++ [j])) = true :=
    (dag_detect_cycle_iff _ (wellFormed_set_deps_append d hwf i j hi_lt hj_lt)).2 hcyc
  rw [dag_add_dep_found d from_id to_id i j hi hj, if_neg hnew, if_pos hdet]

theorem dag_add_dep_of_no_path (d : dag_t) (hwf : WellFormed d) (hac : ¬ HasCycle d)
    (from_id to_id : String) (i j : Nat)
    (hi : dag_find_index d from_id = (i : Int)) (hj : dag_find_index d to_id = (j : Int))
    (hnew : j ∉ d.deps i) (hpath : ¬ Relation.ReflTransGen (Edge d) j i) :
    dag_add_dep d from_id to_id = (0, d.set_deps i (d.deps i ++ [j])) := by
  have hi_lt := dag_find_index_lt d from_id i hi
  have hj_lt := dag_find_index_lt d to_id j hj
  have hcyc : ¬ HasCycle (d.set_deps i (d.deps i ++ [j])) :=
    fun h => hpath ((hasCycle_set_deps_append d i j hi_lt hac).1 h)
  have hdet : ¬ dag_detect_cycle (d.set_deps i (d.deps i ++ [j])) = true :=
    fun h => hcyc ((dag_detect_cycle_iff _
      (wellFormed_set_deps_append d hwf i j hi_lt hj_lt)).1 h)
  rw [dag_add_dep_found d from_id to_id i j hi hj, if_neg hnew, if_neg hdet]

/-! ## The claims -/

/-- Claim C1. For every well-formed acyclic graph, `dag_toposort` returns 0, sets `*out_n`
to `n_tasks`, and `*out_order` is a permutation of `0 .. n_tasks-1` in which, for every edge
`u -> v` of the adjacency lists, `u` stands strictly before `v`. -/
theorem toposort_acyclic_topological_order (d : dag_t) (hwf : WellFormed d)
    (hac : ¬ HasCycle d) :
    ∃ out : List Nat,
      dag_toposort d = { code := 0, out_order := some out, out_n := d.n_tasks } ∧
      out.Perm (List.range d.n_tasks) ∧
      ∀ u v : Nat, Edge d u v →
        ∃ i j : Nat, i < j ∧ out[i]? = some u ∧ out[j]? = some v :=
  dag_toposort_acyclic d hwf hac

theorem toposort_acyclic_topological_order_witness :
    WellFormed test_dag ∧ ¬ HasCycle test_dag ∧
    ∃ out : List Nat,
      dag_toposort test_dag = { code := 0, out_order := some out, out_n := test_dag.n_tasks } ∧
      out.Perm (List.range test_dag.n_tasks) ∧
      ∀ u v : Nat, Edge test_dag u v →
        ∃ i j : Nat, i < j ∧ out[i]? = some u ∧ out[j]? = some v :=
  ⟨wellFormed_of_slots test_dag (by decide),
   not_hasCycle_of_detect test_dag (wellFormed_of_slots test_dag (by decide)) (by decide),
   toposort_acyclic_topological_order test_dag (wellFormed_of_slots test_dag (by decide))
     (not_hasCycle_of_detect test_dag (wellFormed_of_slots test_dag (by decide)) (by decide))⟩

/-- Claim C2. Acyclicity is an invariant: every graph reachable from `dag_init` by calls of
`dag_add_task` and `dag_add_dep`, whatever they return, has no directed cycle, and
`dag_detect_cycle` returns false on it. -/
theorem reachable_acyclic (d : dag_t) (h : Reachable d) :
    ¬ HasCycle d ∧ dag_detect_cycle d = false := by
  have hinv := reachable_wellFormed_acyclic d h
  exact ⟨hinv.2, not_detect_of_acyclic d hinv.1 hinv.2⟩

theorem reachable_acyclic_witness :
    Reachable test_dag ∧ ¬ HasCycle test_dag ∧ dag_detect_cycle test_dag = false :=
  ⟨Reachable.add_dep _ "A" "B" (Reachable.add_task _ (make_task "B")
      (Reachable.add_task _ (make_task "A") Reachable.init)),
   reachable_acyclic test_dag (Reachable.add_dep _ "A" "B" (Reachable.add_task _ (make_task "B")
      (Reachable.add_task _ (make_task "A") Reachable.init)))⟩

/-- Claim C3. On a well-formed acyclic graph, when both ids exist (at indices `i` and `j`),
the edge `i -> j` is absent and the graph has a path from `j` back to `i` (so that the edge
would close a cycle), `dag_add_dep` returns -3 and the graph afterwards is the graph before
the call: same tasks, same successor count and successor list for every index; and
`dag_detect_cycle` on it returns false. -/
theorem add_dep_cycle_rejected (d : dag_t) (hwf : WellFormed d) (hac : ¬ HasCycle d)
    (from_id to_id : String) (i j : Nat)
    (hi : dag_find_index d from_id = (i : Int)) (hj : dag_find_index d to_id = (j : Int))
    (hnew : j ∉ d.deps i) (hpath : Relation.ReflTransGen (Edge d) j i) :
    (dag_add_dep d from_id to_id).1 = -3 ∧
    (dag_add_dep d from_id to_id).2 = d ∧
    (dag_add_dep d from_id to_id).2.tasks = d.tasks ∧
    (∀ u, (dag_add_dep d from_id to_id).2.n_deps u = d.n_deps u ∧
      (dag_add_dep d from_id to_id).2.deps u = d.deps u) ∧
    dag_detect_cycle (dag_add_dep d from_id to_id).2 = false := by
  rw [dag_add_dep_of_path d hwf hac from_id to_id i j hi hj hnew hpath]
  exact ⟨rfl, rfl, rfl, fun u => ⟨rfl, rfl⟩, not_detect_of_acyclic d hwf hac⟩

theorem add_dep_cycle_rejected_witness :
    WellFormed test_dag ∧ ¬ HasCycle test_dag ∧
    dag_find_index test_dag "B" = ((1 : Nat) : Int) ∧
    dag_find_index test_dag "A" = ((0 : Nat) : Int) ∧
    0 ∉ test_dag.deps 1 ∧ Relation.ReflTransGen (Edge test_dag) 0 1 ∧
    (dag_add_dep test_dag "B" "A").1 = -3 ∧
    (dag_add_dep test_dag "B" "A").2 = test_dag ∧
    (dag_add_dep test_dag "B" "A").2.tasks = test_dag.tasks ∧
    (∀ u, (dag_add_dep test_dag "B" "A").2.n_deps u = test_dag.n_deps u ∧
      (dag_add_dep test_dag "B" "A").2.deps u = test_dag.deps u) ∧
    dag_detect_cycle (dag_add_dep test_dag "B" "A").2 = false :=
  ⟨wellFormed_of_slots test_dag (by decide),
   not_hasCycle_of_detect test_dag (wellFormed_of_slots test_dag (by decide)) (by decide),
   by decide, by decide, by decide,
   Relation.ReflTransGen.single ⟨by decide, by decide⟩,
   add_dep_cycle_rejected test_dag (wellFormed_of_slots test_dag (by decide))
     (not_hasCycle_of_detect test_dag (wellFormed_of_slots test_dag (by decide)) (by decide))
     "B" "A" 1 0 (by decide) (by decide) (by decide)
     (Relation.ReflTransGen.single ⟨by decide, by decide⟩)⟩

/-- Claim C4. On a well-formed acyclic graph (allocation succeeding), `dag_add_dep` returns
0 exactly when both ids are present (at indices `i` and `j`), `j` is not yet a successor of
`i`, and there is no path from `j` to `i`; then `j` has been appended at the end of the
successor list of `i`, every other successor list and the tasks being unchanged.  A
dependency of an existing task on itself is rejected with -3. -/
theorem add_dep_succeeds_iff (d : dag_t) (hwf : WellFormed d) (hac : ¬ HasCycle d)
    (from_id to_id : String) :
    ((dag_add_dep d from_id to_id).1 = 0 ↔
      ∃ i j : Nat, dag_find_index d from_id = (i : Int) ∧ dag_find_index d to_id = (j : Int) ∧
        j ∉ d.deps i ∧ ¬ Relation.ReflTransGen (Edge d) j i) ∧
    ((dag_add_dep d from_id to_id).1 = 0 →
      ∃ i j : Nat, dag_find_index d from_id = (i : Int) ∧ dag_find_index d to_id = (j : Int) ∧
        (dag_add_dep d from_id to_id).2.deps i = d.deps i ++ [j] ∧
        (∀ u, u ≠ i → (dag_add_dep d from_id to_id).2.deps u = d.deps u) ∧
        (dag_add_dep d from_id to_id).2.tasks = d.tasks ∧
        (dag_add_dep d from_id to_id).2.n_tasks = d.n_tasks) ∧
    (∀ i : Nat, dag_find_index d from_id = (i : Int) →
      (dag_add_dep d from_id from_id).1 = -3) := by
  have key : (dag_add_dep d from_id to_id).1 = 0 →
      ∃ i j : Nat, dag_find_index d from_id = (i : Int) ∧ dag_find_index d to_id = (j : Int) ∧
        j ∉ d.deps i ∧ ¬ Relation.ReflTransGen (Edge d) j i := by
    intro h0
    rcases dag_find_index_neg_one_or_nat d from_id with h | ⟨i, hi, _⟩
    · rw [dag_add_dep_missing d _ _ (Or.inl h)] at h0; simp at h0
    · rcases dag_find_index_neg_one_or_nat d to_id with h | ⟨j, hj, _⟩
      · rw [dag_add_dep_missing d _ _ (Or.inr h)] at h0; simp at h0
      · refine ⟨i, j, hi, hj, ?_, ?_⟩
        · intro hmem
          rw [dag_add_dep_found d _ _ i j hi hj, if_pos hmem] at h0
          simp at h0
        · intro hpath
          by_cases hmem : j ∈ d.deps i
          · rw [dag_add_dep_found d _ _ i j hi hj, if_pos hmem] at h0
            simp at h0
          · rw [dag_add_dep_of_path d hwf hac _ _ i j hi hj hmem hpath] at h0
            simp at h0
  refine ⟨⟨key, ?_⟩, ?_, ?_⟩
  · rintro ⟨i, j, hi, hj, hnew, hpath⟩
    rw [dag_add_dep_of_no_path d hwf hac _ _ i j hi hj hnew hpath]
  · intro h0
    obtain ⟨i, j, hi, hj, hnew, hpath⟩ := key h0
    refine ⟨i, j, hi, hj, ?_⟩
    rw [dag_add_dep_of_no_path d hwf hac _ _ i j hi hj hnew hpath]
    exact ⟨deps_set_deps_same d i _ (dag_find_index_lt d from_id i hi),
      fun u hu => deps_set_deps_other d i u _ hu, tasks_set_deps d i _, n_tasks_set_deps d i _⟩
  · intro i hi
    have hnew : i ∉ d.deps i := by
      intro hmem
      exact hac ⟨i, Relation.TransGen.single ⟨dag_find_index_lt d from_id i hi, hmem⟩⟩
    rw [dag_add_dep_of_path d hwf hac _ _ i i hi hi hnew Relation.ReflTransGen.refl]

theorem add_dep_succeeds_iff_witness :
    WellFormed test_dag ∧ ¬ HasCycle test_dag ∧
    (((dag_add_dep test_dag "B" "A").1 = 0 ↔
      ∃ i j : Nat, dag_find_index test_dag "B" = (i : Int) ∧
        dag_find_index test_dag "A" = (j : Int) ∧
        j ∉ test_dag.deps i ∧ ¬ Relation.ReflTransGen (Edge test_dag) j i) ∧
    ((dag_add_dep test_dag "B" "A").1 = 0 →
      ∃ i j : Nat, dag_find_index test_dag "B" = (i : Int) ∧
        dag_find_index test_dag "A" = (j : Int) ∧
        (dag_add_dep test_dag "B" "A").2.deps i = test_dag.deps i ++ [j] ∧
        (∀ u, u ≠ i → (dag_add_dep test_dag "B" "A").2.deps u = test_dag.deps u) ∧
        (dag_add_dep test_dag "B" "A").2.tasks = test_dag.tasks ∧
        (dag_add_dep test_dag "B" "A").2.n_tasks = test_dag.n_tasks) ∧
    (∀ i : Nat, dag_find_index test_dag "B" = (i : Int) →
      (dag_add_dep test_dag "B" "B").1 = -3)) :=
  ⟨wellFormed_of_slots test_dag (by decide),
   not_hasCycle_of_detect test_dag (wellFormed_of_slots test_dag (by decide)) (by decide),
   add_dep_succeeds_iff test_dag (wellFormed_of_slots test_dag (by decide))
     (not_hasCycle_of_detect test_dag (wellFormed_of_slots test_dag (by decide)) (by decide))
     "B" "A"⟩

/-- Claim C5. For every well-formed graph, connected or not, `dag_detect_cycle` returns true
if and only if the dependency relation has a directed cycle (a non-empty path from a task
back to itself, self-loops included). -/
theorem detect_cycle_iff_cycle (d : dag_t) (hwf : WellFormed d) :
    dag_detect_cycle d = true ↔ HasCycle d :=
  dag_detect_cycle_iff d hwf

theorem detect_cycle_iff_cycle_witness :
    WellFormed cyclic_dag ∧ (dag_detect_cycle cyclic_dag = true ↔ HasCycle cyclic_dag) :=
  ⟨wellFormed_of_slots cyclic_dag (by decide),
   detect_cycle_iff_cycle cyclic_dag (wellFormed_of_slots cyclic_dag (by decide))⟩

/-- Claim C6. For every well-formed graph, however its adjacency lists were built,
`dag_toposort` returns -1 with `*out_order` set to `NULL` if and only if the graph has a
directed cycle; on a cyclic graph no order, partial or not, is returned. -/
theorem toposort_fails_iff_cycle (d : dag_t) (hwf : WellFormed d) :
    (((dag_toposort d).code = -1 ∧ (dag_toposort d).out_order = none) ↔ HasCycle d) ∧
    (HasCycle d →
      dag_toposort d = { code := -1, out_order := none, out_n := d.n_tasks }) := by
  refine ⟨⟨?_, ?_⟩, dag_toposort_cyclic d hwf⟩
  · rintro ⟨hcode, _⟩
    by_contra hac
    obtain ⟨out, hres, _⟩ := dag_toposort_acyclic d hwf hac
    rw [hres] at hcode
    simp at hcode
  · intro hcyc
    rw [dag_toposort_cyclic d hwf hcyc]
    exact ⟨rfl, rfl⟩

theorem toposort_fails_iff_cycle_witness :
    WellFormed cyclic_dag ∧
    ((((dag_toposort cyclic_dag).code = -1 ∧ (dag_toposort cyclic_dag).out_order = none) ↔
        HasCycle cyclic_dag) ∧
      (HasCycle cyclic_dag →
        dag_toposort cyclic_dag =
          { code := -1, out_order := none, out_n := cyclic_dag.n_tasks })) :=
  ⟨wellFormed_of_slots cyclic_dag (by decide),
   toposort_fails_iff_cycle cyclic_dag (wellFormed_of_slots cyclic_dag (by decide))⟩

/-- Claim C7. With allocation succeeding, `dag_add_task` returns 0 if and only if no task of
the graph has the id of `t`; on success `n_tasks` grows by one and `t` is stored at the old
`n_tasks` with an empty successor list, the earlier tasks and successor lists being kept;
when the id is taken the call returns -1 and the graph is unchanged. -/
theorem add_task_spec (d : dag_t) (t : task_t) :
    ((dag_add_task d t).1 = 0 ↔ ∀ t1 ∈ d.tasks, t1.id ≠ t.id) ∧
    ((dag_add_task d t).1 = 0 →
      (dag_add_task d t).2.n_tasks = d.n_tasks + 1 ∧
      (dag_add_task d t).2.tasks[d.n_tasks]? = some t ∧
      (dag_add_task d t).2.deps d.n_tasks = [] ∧
      (dag_add_task d t).2.tasks = d.tasks ++ [t] ∧
      ∀ u, u < d.n_tasks → (dag_add_task d t).2.deps u = d.deps u) ∧
    ((∃ t1 ∈ d.tasks, t1.id = t.id) → dag_add_task d t = (-1, d)) := by
  have hlen : d.tasks.length = d.n_tasks := by simp [dag_t.tasks, dag_t.n_tasks]
  have hfresh : (∀ t1 ∈ d.tasks, t1.id ≠ t.id) →
      (dag_add_task d t).1 = 0 ∧
      (dag_add_task d t).2.n_tasks = d.n_tasks + 1 ∧
      (dag_add_task d t).2.tasks[d.n_tasks]? = some t ∧
      (dag_add_task d t).2.deps d.n_tasks = [] ∧
      (dag_add_task d t).2.tasks = d.tasks ++ [t] ∧
      ∀ u, u < d.n_tasks → (dag_add_task d t).2.deps u = d.deps u := by
    intro h
    rw [dag_add_task_fresh d t h]
    have htasks : dag_t.tasks { slots := d.slots ++ [{ task := t, deps := [] }],
                                capacity := (ensure_capacity d).2.capacity } =
        d.tasks ++ [t] := by
      simp [dag_t.tasks]
    refine ⟨rfl, n_tasks_append_slot d _ _, ?_, deps_append_slot_new d _ _, htasks,
      fun u hu => deps_append_slot_old d _ _ u hu⟩
    rw [htasks, ← hlen]; simp
  have hdup : (∃ t1 ∈ d.tasks, t1.id = t.id) → dag_add_task d t = (-1, d) :=
    dag_add_task_dup d t
  refine ⟨⟨?_, fun h => (hfresh h).1⟩, ?_, hdup⟩
  · intro h0 t1 ht1 hid
    rw [hdup ⟨t1, ht1, hid⟩] at h0
    simp at h0
  · intro h0
    have hno : ∀ t1 ∈ d.tasks, t1.id ≠ t.id := by
      intro t1 ht1 hid
      rw [hdup ⟨t1, ht1, hid⟩] at h0; simp at h0
    exact (hfresh hno).2

theorem add_task_spec_witness :
    (dag_add_task test_dag (make_task "C")).1 = 0 ∧
    dag_add_task test_dag (make_task "A") = (-1, test_dag) :=
  ⟨((add_task_spec test_dag (make_task "C")).1).2 (by decide),
   (add_task_spec test_dag (make_task "A")).2.2 ⟨make_task "A", by decide, rfl⟩⟩

/-- Claim C8. For every graph, the empty one included, if `from_id` or `to_id` is not the id
of a task of the graph then `dag_add_dep` returns -1 and leaves the graph unchanged. -/
theorem add_dep_unknown_id (d : dag_t) (from_id to_id : String)
    (h : (∀ t ∈ d.tasks, t.id ≠ from_id) ∨ (∀ t ∈ d.tasks, t.id ≠ to_id)) :
    dag_add_dep d from_id to_id = (-1, d) := by
  apply dag_add_dep_missing
  rcases h with h | h
  · left
    rcases dag_find_index_cases d from_id with ⟨h1, _⟩ | ⟨k, s, _, _, h3, h4, _⟩
    · exact h1
    · exact absurd h4 (h s.task (List.mem_map.2 ⟨s, List.getElem?_mem h3, rfl⟩))
  · right
    rcases dag_find_index_cases d to_id with ⟨h1, _⟩ | ⟨k, s, _, _, h3, h4, _⟩
    · exact h1
    · exact absurd h4 (h s.task (List.mem_map.2 ⟨s, List.getElem?_mem h3, rfl⟩))

theorem add_dep_unknown_id_witness :
    ((∀ t ∈ dag_init.tasks, t.id ≠ "X") ∨ (∀ t ∈ dag_init.tasks, t.id ≠ "Y")) ∧
    dag_add_dep dag_init "X" "Y" = (-1, dag_init) :=
  ⟨Or.inl (by decide), add_dep_unknown_id dag_init "X" "Y" (Or.inl (by decide))⟩

/-- Claim C9. For every graph in which both ids exist (at indices `i` and `j`) and `j`
already occurs in the successor list of `i`, `dag_add_dep` returns -2 and leaves the graph
unchanged; in particular the successor count of `i` is not increased. -/
theorem add_dep_duplicate_edge (d : dag_t) (from_id to_id : String) (i j : Nat)
    (hi : dag_find_index d from_id = (i : Int)) (hj : dag_find_index d to_id = (j : Int))
    (hmem : j ∈ d.deps i) :
    dag_add_dep d from_id to_id = (-2, d) ∧
    (dag_add_dep d from_id to_id).2.n_deps i = d.n_deps i := by
  have hres : dag_add_dep d from_id to_id = (-2, d) := by
    rw [dag_add_dep_found d from_id to_id i j hi hj, if_pos hmem]
  rw [hres]
  exact ⟨rfl, rfl⟩

theorem add_dep_duplicate_edge_witness :
    dag_find_index test_dag "A" = ((0 : Nat) : Int) ∧
    dag_find_index test_dag "B" = ((1 : Nat) : Int) ∧ 1 ∈ test_dag.deps 0 ∧
    dag_add_dep test_dag "A" "B" = (-2, test_dag) ∧
    (dag_add_dep test_dag "A" "B").2.n_deps 0 = test_dag.n_deps 0 :=
  ⟨by decide, by decide, by decide,
   add_dep_duplicate_edge test_dag "A" "B" 0 1 (by decide) (by decide) (by decide)⟩

/-- Claim C10. For every graph and id, `dag_find_index` returns the smallest index below
`n_tasks` whose task has that id when there is such a task, and -1 when there is none, in
particular on the empty graph.  The function only reads the graph: it returns a number and
no graph. -/
theorem find_index_spec (d : dag_t) (id : String) :
    ((∃ t ∈ d.tasks, t.id = id) →
      ∃ (i : Nat) (t : task_t), dag_find_index d id = (i : Int) ∧ i < d.n_tasks ∧
        d.tasks[i]? = some t ∧ t.id = id ∧
        ∀ (k : Nat) (t1 : task_t), k < i → d.tasks[k]? = some t1 → t1.id ≠ id) ∧
    ((∀ t ∈ d.tasks, t.id ≠ id) → dag_find_index d id = -1) ∧
    (d.n_tasks = 0 → dag_find_index d id = -1) := by
  have hnone : (∀ t ∈ d.tasks, t.id ≠ id) → dag_find_index d id = -1 := by
    intro h
    rcases dag_find_index_cases d id with ⟨h1, _⟩ | ⟨k, s, _, _, h3, h4, _⟩
    · exact h1
    · exact absurd h4 (h s.task (List.mem_map.2 ⟨s, List.getElem?_mem h3, rfl⟩))
  refine ⟨?_, hnone, ?_⟩
  · rintro ⟨t, ht, hid⟩
    rcases dag_find_index_cases d id with ⟨_, h2⟩ | ⟨k, s, h1, h2, h3, h4, h5⟩
    · exact absurd hid (h2 t ht)
    · refine ⟨k, s.task, h1, h2, ?_, h4, h5⟩
      simp [dag_t.tasks, h3]
  · intro hn
    apply hnone
    intro t ht
    have : d.slots = [] := List.length_eq_zero.1 hn
    simp [dag_t.tasks, this] at ht

theorem find_index_spec_witness :
    (∃ (i : Nat) (t : task_t), dag_find_index test_dag "B" = (i : Int) ∧ i < test_dag.n_tasks ∧
        test_dag.tasks[i]? = some t ∧ t.id = "B" ∧
        ∀ (k : Nat) (t1 : task_t), k < i → test_dag.tasks[k]? = some t1 → t1.id ≠ "B") ∧
    dag_find_index test_dag "X" = -1 ∧ dag_find_index dag_init "X" = -1 :=
  ⟨(find_index_spec test_dag "B").1 ⟨make_task "B", by decide, rfl⟩,
   (find_index_spec test_dag "X").2.1 (by decide),
   (find_index_spec dag_init "X").2.2 rfl⟩

/-! ## Bulk insertion, unique ids and duplicate-free successor lists -/

theorem tasks_dag_add_task_fresh (d : dag_t) (t : task_t)
    (h : ∀ t1 ∈ d.tasks, t1.id ≠ t.id) : (dag_add_task d t).2.tasks = d.tasks ++ [t] := by
  rw [dag_add_task_fresh d t h]
  simp [dag_t.tasks]

theorem n_tasks_eq_length_tasks (d : dag_t) : d.tasks.length = d.n_tasks := by
  simp [dag_t.tasks, dag_t.n_tasks]

theorem deps_dag_add_task (d : dag_t) (t : task_t) (u : Nat) :
    (dag_add_task d t).2.deps u = d.deps u := by
  by_cases h : ∃ t1 ∈ d.tasks, t1.id = t.id
  · rw [dag_add_task_dup d t h]
  · have h1 : ∀ t1 ∈ d.tasks, t1.id ≠ t.id := fun t1 ht1 hid => h ⟨t1, ht1, hid⟩
    rw [dag_add_task_fresh d t h1]
    rcases Nat.lt_trichotomy u d.n_tasks with hlt | heq | hgt
    · exact deps_append_slot_old d _ _ u hlt
    · rw [heq, deps_append_slot_new, deps_out_of_range d d.n_tasks (Nat.le_refl _)]
    · rw [deps_out_of_range d u (Nat.le_of_lt hgt)]
      apply deps_out_of_range
      rw [n_tasks_append_slot]; omega

theorem capacity_dag_add_task (d : dag_t) (t : task_t) (hle : d.n_tasks ≤ d.capacity)
    (hpos : 0 < d.capacity) :
    (dag_add_task d t).2.n_tasks ≤ (dag_add_task d t).2.capacity ∧
    d.capacity ≤ (dag_add_task d t).2.capacity := by
  by_cases h : ∃ t1 ∈ d.tasks, t1.id = t.id
  · rw [dag_add_task_dup d t h]; exact ⟨hle, Nat.le_refl _⟩
  · have h1 : ∀ t1 ∈ d.tasks, t1.id ≠ t.id := fun t1 ht1 hid => h ⟨t1, ht1, hid⟩
    rw [dag_add_task_fresh d t h1, n_tasks_append_slot]
    simp only [ensure_capacity]
    split <;> simp only <;> omega

theorem dag_find_index_of_nodup (d : dag_t) (hnd : (d.tasks.map task_t.id).Nodup) (k : Nat)
    (t : task_t) (hk : d.tasks[k]? = some t) : dag_find_index d t.id = (k : Int) := by
  rcases dag_find_index_cases d t.id with ⟨_, h2⟩ | ⟨k1, s, h1, _, h3, h4, _⟩
  · exact absurd rfl (h2 t (List.getElem?_mem hk))
  · rw [h1]
    have hk1 : (d.tasks.map task_t.id)[k1]? = some t.id := by
      simp [dag_t.tasks, h3, h4]
    have hk2 : (d.tasks.map task_t.id)[k]? = some t.id := by
      simp [hk]
    obtain ⟨a1, a2⟩ := List.getElem?_eq_some_iff.1 hk1
    obtain ⟨b1, b2⟩ := List.getElem?_eq_some_iff.1 hk2
    have := (List.Nodup.getElem_inj_iff hnd).1 (a2.trans b2.symm)
    rw [this]

theorem add_tasks_spec (ts : List task_t) :
    ∀ d : dag_t, (d.tasks.map task_t.id ++ ts.map task_t.id).Nodup →
      d.n_tasks ≤ d.capacity → 0 < d.capacity →
      (∀ code ∈ (add_tasks d ts).1, code = 0) ∧ (add_tasks d ts).1.length = ts.length ∧
      (add_tasks d ts).2.tasks = d.tasks ++ ts ∧
      (add_tasks d ts).2.n_tasks ≤ (add_tasks d ts).2.capacity ∧
      d.capacity ≤ (add_tasks d ts).2.capacity := by
  induction ts with
  | nil =>
    intro d _ hle _
    simp [add_tasks, hle]
  | cons t ts ih =>
    intro d hnd hle hpos
    have hfresh : ∀ t1 ∈ d.tasks, t1.id ≠ t.id := by
      intro t1 ht1 hid
      have hdis := (List.nodup_append.1 hnd).2.2
      exact hdis (List.mem_map.2 ⟨t1, ht1, rfl⟩) (by rw [hid]; simp)
    have htasks := tasks_dag_add_task_fresh d t hfresh
    have hcode : (dag_add_task d t).1 = 0 := by rw [dag_add_task_fresh d t hfresh]
    have hcap := capacity_dag_add_task d t hle hpos
    have hnd1 : ((dag_add_task d t).2.tasks.map task_t.id ++ ts.map task_t.id).Nodup := by
      rw [htasks]
      simpa [List.append_assoc] using hnd
    obtain ⟨h1, h2, h3, h4, h5⟩ := ih (dag_add_task d t).2 hnd1 hcap.1 (by omega)
    simp only [add_tasks]
    refine ⟨?_, by simp [h2], by rw [h3, htasks]; simp, h4, by omega⟩
    intro code hc
    rcases List.mem_cons.1 hc with e | e
    · rw [e]; exact hcode
    · exact h1 code e

theorem tasks_dag_add_dep (d : dag_t) (from_id to_id : String) :
    (dag_add_dep d from_id to_id).2.tasks = d.tasks := by
  rcases dag_add_dep_graph_cases d from_id to_id with h | ⟨i, j, _, _, _, h⟩
  · rw [h]
  · rw [h, tasks_set_deps]

theorem reachable_ids_nodup (d : dag_t) (h : Reachable d) : (d.tasks.map task_t.id).Nodup := by
  induction h with
  | init => simp [dag_init, dag_t.tasks]
  | add_task d t _ ih =>
    by_cases hd : ∃ t1 ∈ d.tasks, t1.id = t.id
    · rw [dag_add_task_dup d t hd]; exact ih
    · have h1 : ∀ t1 ∈ d.tasks, t1.id ≠ t.id := fun t1 ht1 hid => hd ⟨t1, ht1, hid⟩
      rw [tasks_dag_add_task_fresh d t h1, List.map_append]
      refine List.nodup_append.2 ⟨ih, by simp, ?_⟩
      intro x hx1 hx2
      obtain ⟨t1, ht1, rfl⟩ := List.mem_map.1 hx1
      have : t1.id = t.id := by simpa using hx2
      exact h1 t1 ht1 this
  | add_dep d from_id to_id _ ih =>
    rw [tasks_dag_add_dep]; exact ih

theorem dag_add_dep_graph_cases_fresh (d : dag_t) (from_id to_id : String) :
    (dag_add_dep d from_id to_id).2 = d ∨
    ∃ i j : Nat, i < d.n_tasks ∧ j < d.n_tasks ∧ j ∉ d.deps i ∧
      (dag_add_dep d from_id to_id).2 = d.set_deps i (d.deps i ++ [j]) := by
  rcases dag_find_index_neg_one_or_nat d from_id with h | ⟨i, hi, hilt⟩
  · left; rw [dag_add_dep_missing d _ _ (Or.inl h)]
  · rcases dag_find_index_neg_one_or_nat d to_id with h | ⟨j, hj, hjlt⟩
    · left; rw [dag_add_dep_missing d _ _ (Or.inr h)]
    · rw [dag_add_dep_found d _ _ i j hi hj]
      by_cases hmem : j ∈ d.deps i
      · left; simp [hmem]
      · by_cases hc : dag_detect_cycle (d.set_deps i (d.deps i ++ [j])) = true
        · left; simp [hmem, hc]
        · right
          exact ⟨i, j, hilt, hjlt, hmem, by simp [hmem, hc]⟩

theorem reachable_deps_nodup (d : dag_t) (h : Reachable d) : ∀ u, (d.deps u).Nodup := by
  induction h with
  | init => intro u; simp [dag_init, dag_t.deps]
  | add_task d t _ ih => intro u; rw [deps_dag_add_task]; exact ih u
  | add_dep d from_id to_id _ ih =>
    intro u
    rcases dag_add_dep_graph_cases_fresh d from_id to_id with h | ⟨i, j, hi, _, hnew, h⟩
    · rw [h]; exact ih u
    · rw [h]
      by_cases hu : u = i
      · rw [hu, deps_set_deps_same d i _ hi]
        exact List.nodup_append.2 ⟨ih i, by simp, by
          intro x hx1 hx2
          have : x = j := by simpa using hx2
          exact hnew (this ▸ hx1)⟩
      · rw [deps_set_deps_other d i u _ hu]; exact ih u

theorem ensure_capacity_room (d : dag_t) (hle : d.n_tasks ≤ d.capacity) (hpos : 0 < d.capacity) :
    (ensure_capacity d).1 = 0 ∧ (ensure_capacity d).2.slots = d.slots ∧
    d.n_tasks < (ensure_capacity d).2.capacity := by
  unfold ensure_capacity
  split
  · exact ⟨rfl, rfl, by assumption⟩
  · refine ⟨rfl, rfl, ?_⟩
    simp only
    omega

theorem reachable_capacity (d : dag_t) (h : Reachable d) :
    d.n_tasks ≤ d.capacity ∧ 0 < d.capacity := by
  induction h with
  | init => simp [dag_init, dag_t.n_tasks, DAG_INITIAL_CAPACITY]
  | add_task d t _ ih =>
    have := capacity_dag_add_task d t ih.1 ih.2
    exact ⟨this.1, by omega⟩
  | add_dep d from_id to_id _ ih =>
    rcases dag_add_dep_graph_cases d from_id to_id with h | ⟨i, j, _, _, _, h⟩
    · rw [h]; exact ih
    · rw [h]
      simpa [dag_t.set_deps, dag_t.n_tasks, set_slot_deps_length] using ih

/-! ## Scheduler: construction and one worker iteration -/

theorem update_slot_task_length (l : List slot_t) (idx : Nat) (f : task_t → task_t) :
    (update_slot_task l idx f).length = l.length := by
  induction l generalizing idx with
  | nil => simp [update_slot_task]
  | cons s rest ih =>
    cases idx with
    | zero => simp [update_slot_task]
    | succ i => simp [update_slot_task, ih]

theorem update_slot_task_get_same (l : List slot_t) (idx : Nat) (f : task_t → task_t)
    (s : slot_t) (h : l[idx]? = some s) :
    (update_slot_task l idx f)[idx]? = some { s with task := f s.task } := by
  induction l generalizing idx with
  | nil => simp at h
  | cons s0 rest ih =>
    cases idx with
    | zero =>
      have : s0 = s := by simpa using h
      subst this
      simp [update_slot_task]
    | succ i =>
      have h1 : rest[i]? = some s := by simpa using h
      simpa [update_slot_task] using ih i h1

theorem update_slot_task_get_other (l : List slot_t) (idx u : Nat) (f : task_t → task_t)
    (h : u ≠ idx) : (update_slot_task l idx f)[u]? = l[u]? := by
  induction l generalizing idx u with
  | nil => simp [update_slot_task]
  | cons s rest ih =>
    cases idx with
    | zero =>
      cases u with
      | zero => exact absurd rfl h
      | succ v => simp [update_slot_task]
    | succ i =>
      cases u with
      | zero => simp [update_slot_task]
      | succ v =>
        have h1 : v ≠ i := fun e => h (by rw [e])
        simpa [update_slot_task] using ih i v h1

theorem update_slot_task_out_of_range (l : List slot_t) (idx : Nat) (f : task_t → task_t)
    (h : l.length ≤ idx) : update_slot_task l idx f = l := by
  induction l generalizing idx with
  | nil => simp [update_slot_task]
  | cons s rest ih =>
    cases idx with
    | zero => simp at h
    | succ i =>
      have h1 : rest.length ≤ i := by simpa using h
      simp [update_slot_task, ih i h1]

theorem update_slot_task_map_deps (l : List slot_t) (idx : Nat) (f : task_t → task_t) :
    (update_slot_task l idx f).map slot_t.deps = l.map slot_t.deps := by
  induction l generalizing idx with
  | nil => simp [update_slot_task]
  | cons s rest ih =>
    cases idx with
    | zero => simp [update_slot_task]
    | succ i => simp [update_slot_task, ih]

theorem n_tasks_update_task (d : dag_t) (idx : Nat) (f : task_t → task_t) :
    (d.update_task idx f).n_tasks = d.n_tasks := by
  simp [dag_t.update_task, dag_t.n_tasks, update_slot_task_length]

theorem tasks_update_task_same (d : dag_t) (idx : Nat) (f : task_t → task_t) (t : task_t)
    (h : d.tasks[idx]? = some t) : (d.update_task idx f).tasks[idx]? = some (f t) := by
  simp only [dag_t.tasks, List.getElem?_map] at h ⊢
  cases hs : d.slots[idx]? with
  | none => simp [hs] at h
  | some s =>
    simp only [hs, Option.map_some', Option.some.injEq] at h
    simp [dag_t.update_task, update_slot_task_get_same d.slots idx f s hs, h]

theorem tasks_update_task_other (d : dag_t) (idx u : Nat) (f : task_t → task_t)
    (h : u ≠ idx) : (d.update_task idx f).tasks[u]? = d.tasks[u]? := by
  simp [dag_t.tasks, dag_t.update_task, update_slot_task_get_other d.slots idx u f h]

theorem update_task_out_of_range (d : dag_t) (idx : Nat) (f : task_t → task_t)
    (h : d.n_tasks ≤ idx) : d.update_task idx f = d := by
  simp [dag_t.update_task, update_slot_task_out_of_range d.slots idx f h]

theorem deps_update_task (d : dag_t) (idx u : Nat) (f : task_t → task_t) :
    (d.update_task idx f).deps u = d.deps u := by
  have h := congrArg (fun l => l[u]?) (update_slot_task_map_deps d.slots idx f)
  simp only [List.getElem?_map] at h
  simp only [dag_t.deps, dag_t.update_task, List.get?_eq_getElem?]
  cases h1 : (update_slot_task d.slots idx f)[u]? with
  | none =>
    cases h2 : d.slots[u]? with
    | none => rfl
    | some s2 => simp [h1, h2] at h
  | some s1 =>
    cases h2 : d.slots[u]? with
    | none => simp [h1, h2] at h
    | some s2 =>
      simp [h1, h2] at h
      exact h

theorem task_freq_of_task (d : dag_t) (idx : Nat) (t : task_t) (h : d.tasks[idx]? = some t) :
    task_freq d idx = t.freq := by
  simp [task_freq, h]

theorem task_exists_of_lt (d : dag_t) (idx : Nat) (h : idx < d.n_tasks) :
    ∃ t, d.tasks[idx]? = some t := by
  have : idx < d.tasks.length := by rw [n_tasks_eq_length_tasks]; exact h
  exact ⟨d.tasks[idx], List.getElem?_eq_getElem this⟩

theorem execute_task_eq_zero_iff (s : scheduler_t) (idx : Nat) (o : process_outcome) :
    execute_task s idx o = 0 ↔ idx < s.dag.n_tasks ∧ o = process_outcome.exited 0 := by
  unfold execute_task
  by_cases h : idx ≥ s.dag.n_tasks
  · simp [h]
  · simp only [if_neg h]
    have hlt : idx < s.dag.n_tasks := by omega
    cases o with
    | fork_failed => simp
    | wait_failed => simp
    | abnormal => simp
    | exited status =>
      simp only [hlt, true_and, process_outcome.exited.injEq]
      constructor
      · intro h0
        have : status.val = 0 := by exact_mod_cast h0
        exact Fin.ext this
      · intro h0; rw [h0]; rfl

theorem time_wrap_of_range (x : Int) (hlo : TIME_MIN ≤ x) (hhi : x ≤ TIME_MAX) :
    time_wrap x = x := by
  unfold TIME_MIN at hlo
  unfold TIME_MAX at hhi
  unfold time_wrap
  omega

theorem worker_execute_task (s : scheduler_t) (idx : Nat) (o : process_outcome) (t : task_t)
    (ht : s.dag.tasks[idx]? = some t) :
    (0 < t.freq →
      (worker_execute s idx o).dag.tasks[idx]? =
        some { t with status := status_of_code (execute_task s idx o),
                      time := time_wrap (t.time + t.freq) }) ∧
    (¬ 0 < t.freq →
      (worker_execute s idx o).dag.tasks[idx]? =
        some { t with status := status_of_code (execute_task s idx o) }) := by
  have h1 : (worker_set_status s idx o).dag.tasks[idx]? =
      some { t with status := status_of_code (execute_task s idx o) } := by
    simp only [worker_set_status]
    exact tasks_update_task_same s.dag idx _ t ht
  have hf : task_freq (worker_set_status s idx o).dag idx = t.freq := by
    rw [task_freq_of_task _ idx _ h1]
  constructor
  · intro hpos
    have hpos1 : task_freq (worker_set_status s idx o).dag idx > 0 := by rw [hf]; exact hpos
    simp only [worker_execute, if_pos hpos1, worker_advance_time]
    exact tasks_update_task_same _ idx _ _ h1
  · intro hnot
    have hnot1 : ¬ task_freq (worker_set_status s idx o).dag idx > 0 := by rw [hf]; exact hnot
    simp only [worker_execute, if_neg hnot1]
    exact h1

theorem worker_execute_other (s : scheduler_t) (idx u : Nat) (o : process_outcome)
    (hu : u ≠ idx) : (worker_execute s idx o).dag.tasks[u]? = s.dag.tasks[u]? := by
  have h1 : (worker_set_status s idx o).dag.tasks[u]? = s.dag.tasks[u]? := by
    simp only [worker_set_status]
    exact tasks_update_task_other s.dag idx u _ hu
  unfold worker_execute
  simp only
  split
  · simp only [worker_advance_time]
    rw [tasks_update_task_other _ idx u _ hu, h1]
  · exact h1

theorem worker_execute_frame (s : scheduler_t) (idx : Nat) (o : process_outcome) :
    (worker_execute s idx o).queue = s.queue ∧ (worker_execute s idx o).q_head = s.q_head ∧
    (worker_execute s idx o).q_tail = s.q_tail ∧
    (worker_execute s idx o).q_capacity = s.q_capacity ∧
    (worker_execute s idx o).stop = s.stop ∧
    (worker_execute s idx o).dag.n_tasks = s.dag.n_tasks := by
  unfold worker_execute
  simp only
  split <;>
    simp [worker_advance_time, worker_set_status, n_tasks_update_task]

theorem worker_execute_freq (s : scheduler_t) (idx u : Nat) (o : process_outcome) :
    task_freq (worker_execute s idx o).dag u = task_freq s.dag u := by
  by_cases hu : u = idx
  · subst hu
    cases ht : s.dag.tasks[u]? with
    | none =>
      have hn : s.dag.n_tasks ≤ u := by
        have := List.getElem?_eq_none_iff.1 ht
        rw [n_tasks_eq_length_tasks] at this; exact this
      have h1 : (worker_set_status s u o).dag = s.dag := by
        simp only [worker_set_status]; exact update_task_out_of_range _ _ _ hn
      have h0 : task_freq s.dag u = 0 := by simp [task_freq, ht]
      have hnot : ¬ task_freq (worker_set_status s u o).dag u > 0 := by rw [h1, h0]; decide
      have hw : worker_execute s u o = worker_set_status s u o := by
        unfold worker_execute
        simp only [if_neg hnot]
      rw [hw, h1]
    | some t =>
      have h := worker_execute_task s u o t ht
      by_cases hpos : 0 < t.freq
      · rw [task_freq_of_task _ u _ (h.1 hpos), task_freq_of_task _ u _ ht]
      · rw [task_freq_of_task _ u _ (h.2 hpos), task_freq_of_task _ u _ ht]
  · simp only [task_freq, List.get?_eq_getElem?, worker_execute_other s idx u o hu]

/-! ## The ring buffer as a list -/

theorem add_mod_wrap (h k cap : Nat) (hh : h < cap) (hk : k < cap) :
    (h + k) % cap = if h + k < cap then h + k else h + k - cap := by
  split
  · rename_i hlt; exact Nat.mod_eq_of_lt hlt
  · rw [Nat.mod_eq_sub_mod (by omega)]; exact Nat.mod_eq_of_lt (by omega)

theorem add_mod_inj (h k1 k2 cap : Nat) (hh : h < cap) (hk1 : k1 < cap) (hk2 : k2 < cap)
    (he : (h + k1) % cap = (h + k2) % cap) : k1 = k2 := by
  rw [add_mod_wrap h k1 cap hh hk1, add_mod_wrap h k2 cap hh hk2] at he
  split at he <;> split at he <;> omega

theorem ringRep_congr (s t : scheduler_t) (items : List Nat) (h : RingRep s items)
    (hq : t.queue = s.queue) (hh : t.q_head = s.q_head) (ht : t.q_tail = s.q_tail)
    (hc : t.q_capacity = s.q_capacity) : RingRep t items := by
  unfold RingRep at h ⊢
  rw [hq, hh, ht, hc]; exact h

theorem ringRep_enqueue (s : scheduler_t) (items : List Nat) (x : Nat) (h : RingRep s items)
    (hroom : items.length + 1 < s.q_capacity) : RingRep (enqueue s x) (items ++ [x]) := by
  obtain ⟨h1, h2, h3, h4⟩ := h
  refine ⟨h1, by simpa using hroom, ?_, ?_⟩
  · simp only [enqueue, List.length_append, List.length_singleton]
    rw [h3, Nat.mod_add_mod, Nat.add_assoc]
  · intro k hk
    simp only [enqueue]
    have hk1 : k < items.length + 1 := by simpa using hk
    by_cases hlt : k < items.length
    · have hne : (s.q_head + k) % s.q_capacity ≠ s.q_tail := by
        rw [h3]
        intro he
        have := add_mod_inj s.q_head k items.length s.q_capacity h1 (by omega) h2 he
        omega
      rw [List.getElem?_append_left hlt, array_set_other _ _ _ _ hne]
      exact h4 k hlt
    · have hk2 : k = items.length := by omega
      rw [hk2, ← h3, array_set_same]
      simp

theorem ringRep_dequeue (s : scheduler_t) (x : Nat) (items : List Nat)
    (h : RingRep s (x :: items)) : s.queue s.q_head = x ∧ RingRep (dequeue s) items := by
  obtain ⟨h1, h2, h3, h4⟩ := h
  have hlen : items.length + 1 < s.q_capacity := by simpa using h2
  have h0 := h4 0 (by simp)
  simp only [List.getElem?_cons_zero, Option.some.injEq, Nat.add_zero,
    Nat.mod_eq_of_lt h1] at h0
  refine ⟨h0.symm, Nat.mod_lt _ (by omega), by simp only [dequeue]; omega, ?_, ?_⟩
  · simp only [dequeue]
    rw [h3, Nat.mod_add_mod]
    simp only [List.length_cons]
    congr 1; omega
  · intro k hk
    simp only [dequeue]
    have := h4 (k + 1) (by simpa using hk)
    simp only [List.getElem?_cons_succ] at this
    rw [this, Nat.mod_add_mod]
    congr 3; omega

theorem ringRep_empty_iff (s : scheduler_t) (items : List Nat) (h : RingRep s items) :
    s.q_head = s.q_tail ↔ items = [] := by
  obtain ⟨h1, h2, h3, _⟩ := h
  constructor
  · intro he
    have h0 : (s.q_head + 0) % s.q_capacity = (s.q_head + items.length) % s.q_capacity := by
      rw [← h3, ← he, Nat.add_zero, Nat.mod_eq_of_lt h1]
    have := add_mod_inj s.q_head 0 items.length s.q_capacity h1 (by omega) h2 h0
    exact List.length_eq_zero.1 this.symm
  · intro he
    rw [h3, he, List.length_nil, Nat.add_zero, Nat.mod_eq_of_lt h1]

theorem ringRep_count (s : scheduler_t) (items : List Nat) (h : RingRep s items) :
    ring_count s = items.length := by
  obtain ⟨h1, h2, h3, _⟩ := h
  unfold ring_count
  rw [h3, add_mod_wrap s.q_head items.length s.q_capacity h1 h2]
  split
  · have : s.q_head + items.length + s.q_capacity - s.q_head =
        items.length + s.q_capacity := by omega
    rw [this, Nat.add_mod_right]; exact Nat.mod_eq_of_lt h2
  · have : s.q_head + items.length - s.q_capacity + s.q_capacity - s.q_head =
        items.length := by omega
    rw [this]; exact Nat.mod_eq_of_lt h2

theorem ringRep_contents (s : scheduler_t) (items : List Nat) (h : RingRep s items) :
    ring_contents s = items := by
  have hc := ringRep_count s items h
  obtain ⟨_, _, _, h4⟩ := h
  apply List.ext_getElem?
  intro k
  unfold ring_contents
  rw [hc, List.getElem?_map]
  by_cases hk : k < items.length
  · rw [List.getElem?_range hk, h4 k hk]; rfl
  · rw [List.getElem?_eq_none (by simpa using hk), List.getElem?_eq_none (by omega)]; rfl

theorem ringRep_unique (s : scheduler_t) (a b : List Nat) (ha : RingRep s a)
    (hb : RingRep s b) : a = b := by
  rw [← ringRep_contents s a ha, ← ringRep_contents s b hb]

theorem seed_ready_queue_spec (l : List Nat) :
    ∀ (s : scheduler_t) (items : List Nat), RingRep s items →
      items.length + l.length < s.q_capacity →
      RingRep (seed_ready_queue l s) (items ++ l) ∧
      (seed_ready_queue l s).dag = s.dag ∧ (seed_ready_queue l s).q_head = s.q_head ∧
      (seed_ready_queue l s).q_capacity = s.q_capacity ∧
      (seed_ready_queue l s).stop = s.stop ∧ (seed_ready_queue l s).order = s.order ∧
      (seed_ready_queue l s).n_order = s.n_order ∧
      (seed_ready_queue l s).n_workers = s.n_workers := by
  induction l with
  | nil =>
    intro s items h _
    simpa [seed_ready_queue] using h
  | cons x rest ih =>
    intro s items h hroom
    have hroom1 : items.length + (rest.length + 1) < s.q_capacity := by simpa using hroom
    have h1 := ringRep_enqueue s items x h (by omega)
    have h2 := ih (enqueue s x) (items ++ [x]) h1
      (by simp only [List.length_append, List.length_singleton, enqueue]; omega)
    simp only [seed_ready_queue]
    refine ⟨by simpa [List.append_assoc] using h2.1, ?_⟩
    simpa [enqueue] using h2.2

theorem sched_init_some (d : dag_t) (n_workers : Nat) (h : n_workers ≠ 0) :
    sched_init (some d) n_workers = some
      { dag := d, order := none, n_order := 0, n_workers := n_workers, queue := fun _ => 0,
        q_head := 0, q_tail := 0, q_capacity := d.n_tasks + 1, stop := false } := by
  simp only [sched_init, if_neg h]
  congr 2
  split <;> omega

theorem sched_start_acyclic (d : dag_t) (hwf : WellFormed d) (hac : ¬ HasCycle d)
    (s0 : scheduler_t) (hdag : s0.dag = d) (hcap : s0.q_capacity = d.n_tasks + 1)
    (hrep : RingRep s0 []) :
    ∃ out : List Nat, dag_toposort d =
        { code := 0, out_order := some out, out_n := d.n_tasks } ∧
      out.Perm (List.range d.n_tasks) ∧
      (sched_start s0).1 = 0 ∧ RingRep (sched_start s0).2 out ∧
      (sched_start s0).2.dag = d ∧ (sched_start s0).2.q_head = s0.q_head ∧
      (sched_start s0).2.q_capacity = d.n_tasks + 1 ∧
      (sched_start s0).2.stop = s0.stop ∧ (sched_start s0).2.order = some out ∧
      (sched_start s0).2.n_order = d.n_tasks ∧
      (sched_start s0).2.n_workers = s0.n_workers := by
  obtain ⟨out, hres, hperm, _⟩ := dag_toposort_acyclic d hwf hac
  have hlen : out.length = d.n_tasks := by rw [hperm.length_eq, List.length_range]
  refine ⟨out, hres, hperm, ?_⟩
  have hstart : sched_start s0 =
      (0, seed_ready_queue out { s0 with order := some out, n_order := d.n_tasks }) := by
    simp only [sched_start, hdag, hres]
    simp [← hlen]
  rw [hstart]
  have hrep1 : RingRep { s0 with order := some out, n_order := d.n_tasks } [] :=
    ringRep_congr s0 _ [] hrep rfl rfl rfl rfl
  have h := seed_ready_queue_spec out _ [] hrep1 (by simp [hcap, hlen])
  simp only [List.nil_append] at h
  obtain ⟨h1, h2, h3, h4, h5, h6, h7, h8⟩ := h
  exact ⟨rfl, h1, by rw [h2]; exact hdag, h3, by rw [h4]; exact hcap, h5, h6, h7, h8⟩

theorem sched_start_cyclic (d : dag_t) (hwf : WellFormed d) (hcyc : HasCycle d)
    (s0 : scheduler_t) (hdag : s0.dag = d) : (sched_start s0).1 = -1 := by
  simp [sched_start, hdag, dag_toposort_cyclic d hwf hcyc]

/-! ## The worker pool: events and invariants -/

theorem held_cons (a : worker_pc) (ws : List worker_pc) : held (a :: ws) = held [a] ++ held ws := by
  cases a <;> simp [held]

theorem held_set_count (ws : List worker_pc) :
    ∀ (w : Nat) (a b : worker_pc), ws[w]? = some a → ∀ x : Nat,
      (held (ws.set w b)).count x + (held [a]).count x =
        (held ws).count x + (held [b]).count x := by
  induction ws with
  | nil => intro w a b h; simp at h
  | cons a0 rest ih =>
    intro w a b h x
    cases w with
    | zero =>
      have : a0 = a := by simpa using h
      subst this
      simp only [List.set_cons_zero]
      rw [held_cons b rest, held_cons a0 rest, List.count_append, List.count_append]
      omega
    | succ v =>
      have h1 : rest[v]? = some a := by simpa using h
      simp only [List.set_cons_succ]
      rw [held_cons a0 (rest.set v b), held_cons a0 rest, List.count_append,
        List.count_append]
      have := ih v a b h1 x
      omega

theorem held_running (i : Nat) : held [worker_pc.running i] = [i] := rfl

theorem held_readmitting (i : Nat) : held [worker_pc.readmitting i] = [i] := rfl

theorem held_waiting : held [worker_pc.waiting] = [] := rfl

theorem held_exited : held [worker_pc.exited] = [] := rfl

theorem held_of_all_exited (ws : List worker_pc) (h : ∀ w ∈ ws, w = worker_pc.exited) :
    held ws = [] := by
  induction ws with
  | nil => rfl
  | cons a rest ih =>
    have ha : a = worker_pc.exited := h a (List.mem_cons_self _ _)
    rw [held_cons, ha, held_exited, List.nil_append]
    exact ih (fun w hw => h w (List.mem_cons_of_mem _ hw))

theorem held_replicate_waiting (k : Nat) : held (List.replicate k worker_pc.waiting) = [] := by
  induction k with
  | zero => rfl
  | succ k ih => rw [List.replicate_succ, held_cons, held_waiting, List.nil_append, ih]

theorem mem_set_of_get (ws : List worker_pc) (w : Nat) (a b : worker_pc)
    (h : ws[w]? = some a) : b ∈ ws.set w b := by
  have hw : w < ws.length := (List.getElem?_eq_some_iff.1 h).1
  exact List.mem_iff_getElem?.2 ⟨w, by simp [List.getElem?_set, hw]⟩

theorem set_ne_nil (ws : List worker_pc) (w : Nat) (b : worker_pc) (h : ws ≠ []) :
    ws.set w b ≠ [] := by
  intro he
  have := congrArg List.length he
  simp at this
  exact h this

theorem exited_of_mem_set (ws : List worker_pc) (w : Nat) (b : worker_pc)
    (hb : b ≠ worker_pc.exited) (h : ∃ x ∈ ws.set w b, x = worker_pc.exited) :
    ∃ x ∈ ws, x = worker_pc.exited := by
  obtain ⟨x, hx, he⟩ := h
  rcases List.mem_or_eq_of_mem_set hx with h1 | h1
  · exact ⟨x, h1, he⟩
  · exact absurd (h1 ▸ he) hb

theorem ring_contents_congr (s t : scheduler_t) (hq : t.queue = s.queue)
    (hh : t.q_head = s.q_head) (ht : t.q_tail = s.q_tail)
    (hc : t.q_capacity = s.q_capacity) : ring_contents t = ring_contents s := by
  simp [ring_contents, ring_count, hq, hh, ht, hc]

theorem pool_step_dequeue (p q : pool_t) (w : Nat)
    (h : pool_step p (pool_event.dequeue w) = some q) :
    p.workers[w]? = some worker_pc.waiting ∧ p.sched.q_head ≠ p.sched.q_tail ∧
    q.sched = dequeue p.sched ∧
    q.workers = p.workers.set w (worker_pc.running (p.sched.queue p.sched.q_head)) ∧
    q.log = p.log := by
  simp only [pool_step, List.get?_eq_getElem?] at h
  split at h
  · rename_i hc
    have := Option.some.inj h
    subst this
    exact ⟨hc.1, hc.2, rfl, rfl, rfl⟩
  · simp at h

theorem pool_step_execute (p q : pool_t) (w : Nat) (o : process_outcome)
    (h : pool_step p (pool_event.execute w o) = some q) :
    ∃ idx, p.workers[w]? = some (worker_pc.running idx) ∧
      q.sched = worker_execute p.sched idx o ∧
      q.workers = p.workers.set w
        (if task_freq (worker_execute p.sched idx o).dag idx > 0
         then worker_pc.readmitting idx else worker_pc.waiting) ∧
      q.log = p.log ++ [(idx, o)] := by
  simp only [pool_step, List.get?_eq_getElem?] at h
  split at h
  · rename_i idx hw
    have := Option.some.inj h
    subst this
    exact ⟨idx, hw, rfl, rfl, rfl⟩
  · simp at h

theorem pool_step_readmit (p q : pool_t) (w : Nat)
    (h : pool_step p (pool_event.readmit w) = some q) :
    ∃ idx, p.workers[w]? = some (worker_pc.readmitting idx) ∧
      q.sched = enqueue p.sched idx ∧ q.workers = p.workers.set w worker_pc.waiting ∧
      q.log = p.log := by
  simp only [pool_step, List.get?_eq_getElem?] at h
  split at h
  · rename_i idx hw
    have := Option.some.inj h
    subst this
    exact ⟨idx, hw, rfl, rfl, rfl⟩
  · simp at h

theorem pool_step_leave (p q : pool_t) (w : Nat)
    (h : pool_step p (pool_event.leave w) = some q) :
    p.workers[w]? = some worker_pc.waiting ∧ p.sched.stop = true ∧
    p.sched.q_head = p.sched.q_tail ∧ q.sched = p.sched ∧
    q.workers = p.workers.set w worker_pc.exited ∧ q.log = p.log := by
  simp only [pool_step, List.get?_eq_getElem?] at h
  split at h
  · rename_i hc
    have := Option.some.inj h
    subst this
    exact ⟨hc.1, hc.2.1, hc.2.2, rfl, rfl, rfl⟩
  · simp at h

theorem pool_step_raise_stop (p q : pool_t)
    (h : pool_step p pool_event.raise_stop = some q) :
    q.sched = { p.sched with stop := true } ∧ q.workers = p.workers ∧ q.log = p.log := by
  simp only [pool_step] at h
  have := Option.some.inj h
  subst this
  exact ⟨rfl, rfl, rfl⟩

theorem count_cons_eq (x y : Nat) (rest : List Nat) :
    (x :: rest).count y = rest.count y + [x].count y := by
  simp [List.count_cons]

theorem count_singleton_self (x : Nat) : [x].count x = 1 := by simp

theorem length_le_of_count (l : List Nat) (n : Nat) (h1 : ∀ x, l.count x ≤ 1)
    (h2 : ∀ x, n ≤ x → l.count x = 0) : l.length ≤ n := by
  apply length_le_of_nodup_of_bound l n (List.nodup_iff_count_le_one.2 h1)
  intro v hv
  by_contra hge
  have := h2 v (Nat.le_of_not_lt hge)
  have hpos := List.count_pos_iff.2 hv
  omega

theorem pool_room (n : Nat) (p : pool_t) (hinv : PoolInv n p) (idx : Nat)
    (hheld : 1 ≤ (held p.workers).count idx) : (ring_contents p.sched).length + 1 ≤ n := by
  have hlen := length_le_of_count (ring_contents p.sched ++ held p.workers) n
    (fun x => by rw [List.count_append]; exact hinv.once x)
    (fun x hx => by rw [List.count_append]; exact hinv.bound x hx)
  have hpos : 0 < (held p.workers).length :=
    List.length_pos_of_mem (List.count_pos_iff.1 hheld)
  rw [List.length_append] at hlen
  omega

theorem pool_step_inv (n : Nat) (p q : pool_t) (e : pool_event) (hinv : PoolInv n p)
    (h : pool_step p e = some q) : PoolInv n q := by
  cases e with
  | dequeue w =>
    obtain ⟨hw, hne, hs, hws, _⟩ := pool_step_dequeue p q w h
    cases hitems : ring_contents p.sched with
    | nil =>
      exact absurd ((ringRep_empty_iff _ _ hinv.rep).2 hitems) hne
    | cons x rest =>
      have hrep1 : RingRep p.sched (x :: rest) := hitems ▸ hinv.rep
      obtain ⟨hx, hrep2⟩ := ringRep_dequeue p.sched x rest hrep1
      have hcont : ring_contents q.sched = rest := by
        rw [hs]; exact ringRep_contents _ _ hrep2
      have hcount : ∀ y, rest.count y + (held q.workers).count y =
          (ring_contents p.sched).count y + (held p.workers).count y := by
        intro y
        have := held_set_count p.workers w worker_pc.waiting (worker_pc.running x) hw y
        rw [held_waiting, held_running] at this
        rw [hws, hx, hitems, count_cons_eq]
        simp only [List.count_nil] at this
        omega
      refine ⟨by rw [hs]; exact hinv.n_tasks, by rw [hs]; exact hinv.cap,
        by rw [hcont, hs]; exact hrep2, ?_, ?_, by rw [hws]; exact set_ne_nil _ _ _ hinv.workers_ne,
        ?_, ?_⟩
      · intro y; rw [hcont, hcount]; exact hinv.once y
      · intro y hy; rw [hcont, hcount]; exact hinv.bound y hy
      · intro hall
        have hmem := mem_set_of_get p.workers w worker_pc.waiting
          (worker_pc.running (p.sched.queue p.sched.q_head)) hw
        rw [← hws] at hmem
        exact absurd (hall _ hmem) (by simp)
      · intro hex
        rw [hws] at hex
        have := hinv.stopped (exited_of_mem_set _ _ _ (by simp) hex)
        rw [hs]; exact this
  | execute w o =>
    obtain ⟨idx, hw, hs, hws, _⟩ := pool_step_execute p q w o h
    obtain ⟨f1, f2, f3, f4, f5, f6⟩ := worker_execute_frame p.sched idx o
    have hcont : ring_contents q.sched = ring_contents p.sched := by
      rw [hs]; exact ring_contents_congr _ _ f1 f2 f3 f4
    generalize hpcd : (if task_freq (worker_execute p.sched idx o).dag idx > 0
        then worker_pc.readmitting idx else worker_pc.waiting) = pc at hws
    have hpc : ∀ y, (held [pc]).count y ≤ [idx].count y := by
      intro y
      rw [← hpcd]
      split
      · rw [held_readmitting]
      · rw [held_waiting]; simp
    have hne : pc ≠ worker_pc.exited := by
      rw [← hpcd]
      split <;> simp
    have hcount : ∀ y, (held q.workers).count y ≤ (held p.workers).count y := by
      intro y
      have := held_set_count p.workers w (worker_pc.running idx) pc hw y
      rw [held_running] at this
      rw [hws]
      have := hpc y
      omega
    refine ⟨by rw [hs, f6]; exact hinv.n_tasks, by rw [hs, f4]; exact hinv.cap,
      by rw [hcont, hs]; exact ringRep_congr _ _ _ hinv.rep f1 f2 f3 f4, ?_, ?_,
      by rw [hws]; exact set_ne_nil _ _ _ hinv.workers_ne, ?_, ?_⟩
    · intro y
      have := hinv.once y
      have := hcount y
      rw [hcont]; omega
    · intro y hy
      have := hinv.bound y hy
      have := hcount y
      rw [hcont]; omega
    · intro hall
      have hmem := mem_set_of_get p.workers w (worker_pc.running idx) pc hw
      rw [← hws] at hmem
      exact absurd (hall _ hmem) hne
    · intro hex
      rw [hws] at hex
      have := hinv.stopped (exited_of_mem_set _ _ _ hne hex)
      rw [hs, f5]; exact this
  | readmit w =>
    obtain ⟨idx, hw, hs, hws, _⟩ := pool_step_readmit p q w h
    have hset : ∀ y, (held q.workers).count y + [idx].count y = (held p.workers).count y := by
      intro y
      have := held_set_count p.workers w (worker_pc.readmitting idx) worker_pc.waiting hw y
      rw [held_readmitting, held_waiting] at this
      rw [hws]
      simp only [List.count_nil] at this
      omega
    have hheld : 1 ≤ (held p.workers).count idx := by
      have := hset idx
      rw [count_singleton_self] at this
      omega
    have hroom := pool_room n p hinv idx hheld
    have hrep2 := ringRep_enqueue p.sched _ idx hinv.rep (by rw [hinv.cap]; omega)
    have hcont : ring_contents q.sched = ring_contents p.sched ++ [idx] := by
      rw [hs]; exact ringRep_contents _ _ hrep2
    have hcount : ∀ y, (ring_contents q.sched).count y + (held q.workers).count y =
        (ring_contents p.sched).count y + (held p.workers).count y := by
      intro y
      have := hset y
      rw [hcont, List.count_append]
      omega
    refine ⟨by rw [hs]; exact hinv.n_tasks, by rw [hs]; exact hinv.cap,
      by rw [hcont, hs]; exact hrep2, ?_, ?_,
      by rw [hws]; exact set_ne_nil _ _ _ hinv.workers_ne, ?_, ?_⟩
    · intro y; rw [hcount]; exact hinv.once y
    · intro y hy; rw [hcount]; exact hinv.bound y hy
    · intro hall
      have hmem := mem_set_of_get p.workers w (worker_pc.readmitting idx)
        worker_pc.waiting hw
      rw [← hws] at hmem
      exact absurd (hall _ hmem) (by simp)
    · intro hex
      rw [hws] at hex
      have := hinv.stopped (exited_of_mem_set _ _ _ (by simp) hex)
      rw [hs]; exact this
  | leave w =>
    obtain ⟨hw, hstop, hempty, hs, hws, _⟩ := pool_step_leave p q w h
    have hcount : ∀ y, (held q.workers).count y = (held p.workers).count y := by
      intro y
      have := held_set_count p.workers w worker_pc.waiting worker_pc.exited hw y
      rw [held_waiting, held_exited] at this
      rw [hws]
      simp only [List.count_nil] at this
      omega
    refine ⟨by rw [hs]; exact hinv.n_tasks, by rw [hs]; exact hinv.cap,
      by rw [hs]; exact hinv.rep, ?_, ?_,
      by rw [hws]; exact set_ne_nil _ _ _ hinv.workers_ne, ?_, ?_⟩
    · intro y; rw [hs, hcount]; exact hinv.once y
    · intro y hy; rw [hs, hcount]; exact hinv.bound y hy
    · intro _
      rw [hs]; exact (ringRep_empty_iff _ _ hinv.rep).1 hempty
    · intro _
      rw [hs]; exact hstop
  | raise_stop =>
    obtain ⟨hs, hws, _⟩ := pool_step_raise_stop p q h
    have hcont : ring_contents q.sched = ring_contents p.sched := by
      rw [hs]; exact ring_contents_congr _ _ rfl rfl rfl rfl
    refine ⟨by rw [hs]; exact hinv.n_tasks, by rw [hs]; exact hinv.cap,
      by rw [hcont, hs]; exact ringRep_congr _ _ _ hinv.rep rfl rfl rfl rfl, ?_, ?_,
      by rw [hws]; exact hinv.workers_ne, ?_, ?_⟩
    · intro y; rw [hcont, hws]; exact hinv.once y
    · intro y hy; rw [hcont, hws]; exact hinv.bound y hy
    · intro hall
      rw [hcont]
      apply hinv.drained
      intro x hx
      exact hall x (hws ▸ hx)
    · intro _
      rw [hs]

theorem pool_run_inv (n : Nat) (es : List pool_event) :
    ∀ p q : pool_t, PoolInv n p → pool_run p es = some q → PoolInv n q := by
  induction es with
  | nil =>
    intro p q hinv h
    simp only [pool_run] at h
    exact (Option.some.inj h) ▸ hinv
  | cons e es ih =>
    intro p q hinv h
    simp only [pool_run] at h
    cases hstep : pool_step p e with
    | none => simp [hstep] at h
    | some p1 =>
      simp only [hstep] at h
      exact ih p1 q (pool_step_inv n p p1 e hinv hstep) h

theorem pool_start (d : dag_t) (hwf : WellFormed d) (n_workers : Nat) (s0 s1 : scheduler_t)
    (hinit : sched_init (some d) n_workers = some s0) (hstart : sched_start s0 = (0, s1)) :
    ¬ HasCycle d ∧ n_workers ≠ 0 ∧ s1.n_workers = n_workers ∧ s1.dag = d ∧ s1.stop = false ∧
    (ring_contents s1).Perm (List.range d.n_tasks) ∧
    dag_toposort d =
      { code := 0, out_order := some (ring_contents s1), out_n := d.n_tasks } ∧
    s1.q_head = 0 ∧ s1.q_capacity = d.n_tasks + 1 ∧ RingRep s1 (ring_contents s1) := by
  have hnw : n_workers ≠ 0 := by
    intro h0
    simp [sched_init, h0] at hinit
  rw [sched_init_some d n_workers hnw] at hinit
  have hs0 := Option.some.inj hinit
  have hdag : s0.dag = d := by rw [← hs0]
  have hcap : s0.q_capacity = d.n_tasks + 1 := by rw [← hs0]
  have hrep : RingRep s0 [] := by
    rw [← hs0]
    exact ⟨by simp, by simp, by simp, by intro k hk; simp at hk⟩
  have hac : ¬ HasCycle d := by
    intro hcyc
    have := sched_start_cyclic d hwf hcyc s0 hdag
    rw [hstart] at this
    simp at this
  obtain ⟨out, hres, hperm, _, h2, h3, h4, h5, h6, _, _, h9⟩ :=
    sched_start_acyclic d hwf hac s0 hdag hcap hrep
  rw [hstart] at h2 h3 h4 h5 h6 h9
  simp only at h2 h3 h4 h5 h6 h9
  have hcont := ringRep_contents s1 out h2
  rw [hcont]
  refine ⟨hac, hnw, ?_, h3, ?_, hperm, hres, ?_, h5, h2⟩
  · rw [h9, ← hs0]
  · rw [h6, ← hs0]
  · rw [h4, ← hs0]

theorem pool_launch_inv (d : dag_t) (hwf : WellFormed d) (n_workers : Nat)
    (s0 s1 : scheduler_t) (hinit : sched_init (some d) n_workers = some s0)
    (hstart : sched_start s0 = (0, s1)) : PoolInv d.n_tasks (launch s1) := by
  obtain ⟨_, hnw, h1, h2, h3, hperm, _, _, hcap, hrep⟩ :=
    pool_start d hwf n_workers s0 s1 hinit hstart
  have hheld : held (launch s1).workers = [] := held_replicate_waiting _
  have hnd : (ring_contents s1).Nodup := hperm.nodup_iff.2 (List.nodup_range _)
  refine ⟨by simp [launch, h2], hcap, hrep, ?_, ?_, ?_, ?_, ?_⟩
  · intro x
    rw [hheld]
    simpa using List.nodup_iff_count_le_one.1 hnd x
  · intro x hx
    rw [hheld]
    have : x ∉ ring_contents s1 := by
      intro hin
      have := List.mem_range.1 (hperm.mem_iff.1 hin)
      omega
    simpa using List.count_eq_zero.2 this
  · simp only [launch, h1]
    intro he
    have := congrArg List.length he
    simp at this
    exact hnw this
  · intro hall
    have hmem : worker_pc.waiting ∈ (launch s1).workers := by
      simp only [launch, h1]
      exact List.mem_replicate.2 ⟨hnw, rfl⟩
    exact absurd (hall _ hmem) (by simp)
  · rintro ⟨x, hx, he⟩
    simp only [launch] at hx
    have := (List.mem_replicate.1 hx).2
    rw [this] at he
    simp at he

theorem pool_reachable_inv (d : dag_t) (hwf : WellFormed d) (n_workers : Nat) (p : pool_t)
    (h : PoolReachable d n_workers p) : PoolInv d.n_tasks p := by
  obtain ⟨s0, s1, es, hinit, hstart, hrun⟩ := h
  exact pool_run_inv d.n_tasks es _ p (pool_launch_inv d hwf n_workers s0 s1 hinit hstart) hrun

/-! ### What each event does to the buffer, the hands and the history -/

theorem pool_dequeue_effect (n : Nat) (p q : pool_t) (w : Nat) (hinv : PoolInv n p)
    (h : pool_step p (pool_event.dequeue w) = some q) :
    ∃ x rest, ring_contents p.sched = x :: rest ∧ ring_contents q.sched = rest ∧
      q.workers = p.workers.set w (worker_pc.running x) ∧
      p.workers[w]? = some worker_pc.waiting ∧
      (∀ y, (held q.workers).count y = (held p.workers).count y + [x].count y) ∧
      q.sched.dag = p.sched.dag ∧ q.log = p.log := by
  obtain ⟨hw, hne, hs, hws, hlog⟩ := pool_step_dequeue p q w h
  cases hitems : ring_contents p.sched with
  | nil => exact absurd ((ringRep_empty_iff _ _ hinv.rep).2 hitems) hne
  | cons x rest =>
    have hrep1 : RingRep p.sched (x :: rest) := hitems ▸ hinv.rep
    obtain ⟨hx, hrep2⟩ := ringRep_dequeue p.sched x rest hrep1
    refine ⟨x, rest, rfl, by rw [hs]; exact ringRep_contents _ _ hrep2, by rw [hws, hx], hw,
      ?_, by rw [hs]; rfl, hlog⟩
    intro y
    have := held_set_count p.workers w worker_pc.waiting (worker_pc.running x) hw y
    rw [held_waiting, held_running] at this
    rw [hws, hx]
    simp only [List.count_nil] at this
    omega

theorem pool_execute_effect (p q : pool_t) (w : Nat) (o : process_outcome)
    (h : pool_step p (pool_event.execute w o) = some q) :
    ∃ idx pc, p.workers[w]? = some (worker_pc.running idx) ∧
      pc = (if task_freq p.sched.dag idx > 0 then worker_pc.readmitting idx
            else worker_pc.waiting) ∧
      q.workers = p.workers.set w pc ∧ q.sched = worker_execute p.sched idx o ∧
      ring_contents q.sched = ring_contents p.sched ∧
      (∀ y, (held q.workers).count y + [idx].count y =
        (held p.workers).count y + (held [pc]).count y) ∧
      q.log = p.log ++ [(idx, o)] := by
  obtain ⟨idx, hw, hs, hws, hlog⟩ := pool_step_execute p q w o h
  obtain ⟨f1, f2, f3, f4, _, _⟩ := worker_execute_frame p.sched idx o
  rw [worker_execute_freq] at hws
  refine ⟨idx, _, hw, rfl, hws, hs, by rw [hs]; exact ring_contents_congr _ _ f1 f2 f3 f4, ?_,
    hlog⟩
  intro y
  have := held_set_count p.workers w (worker_pc.running idx)
    (if task_freq p.sched.dag idx > 0 then worker_pc.readmitting idx else worker_pc.waiting)
    hw y
  rw [held_running] at this
  rw [hws]; exact this

theorem pool_readmit_effect (n : Nat) (p q : pool_t) (w : Nat) (hinv : PoolInv n p)
    (h : pool_step p (pool_event.readmit w) = some q) :
    ∃ idx, p.workers[w]? = some (worker_pc.readmitting idx) ∧
      ring_contents q.sched = ring_contents p.sched ++ [idx] ∧
      q.workers = p.workers.set w worker_pc.waiting ∧
      (∀ y, (held q.workers).count y + [idx].count y = (held p.workers).count y) ∧
      q.sched.dag = p.sched.dag ∧ q.log = p.log := by
  obtain ⟨idx, hw, hs, hws, hlog⟩ := pool_step_readmit p q w h
  have hset : ∀ y, (held q.workers).count y + [idx].count y = (held p.workers).count y := by
    intro y
    have := held_set_count p.workers w (worker_pc.readmitting idx) worker_pc.waiting hw y
    rw [held_readmitting, held_waiting] at this
    rw [hws]
    simp only [List.count_nil] at this
    omega
  have hheld : 1 ≤ (held p.workers).count idx := by
    have := hset idx
    rw [count_singleton_self] at this
    omega
  have hroom := pool_room n p hinv idx hheld
  have hrep2 := ringRep_enqueue p.sched _ idx hinv.rep (by rw [hinv.cap]; omega)
  exact ⟨idx, hw, by rw [hs]; exact ringRep_contents _ _ hrep2, hws, hset, by rw [hs]; rfl, hlog⟩

theorem pool_leave_effect (n : Nat) (p q : pool_t) (w : Nat) (hinv : PoolInv n p)
    (h : pool_step p (pool_event.leave w) = some q) :
    p.workers[w]? = some worker_pc.waiting ∧ ring_contents p.sched = [] ∧
    q.sched = p.sched ∧ q.workers = p.workers.set w worker_pc.exited ∧
    (∀ y, (held q.workers).count y = (held p.workers).count y) ∧ q.log = p.log := by
  obtain ⟨hw, _, hempty, hs, hws, hlog⟩ := pool_step_leave p q w h
  refine ⟨hw, (ringRep_empty_iff _ _ hinv.rep).1 hempty, hs, hws, ?_, hlog⟩
  intro y
  have := held_set_count p.workers w worker_pc.waiting worker_pc.exited hw y
  rw [held_waiting, held_exited] at this
  rw [hws]
  simp only [List.count_nil] at this
  omega

theorem pool_step_freq (p q : pool_t) (e : pool_event) (h : pool_step p e = some q) (u : Nat) :
    task_freq q.sched.dag u = task_freq p.sched.dag u := by
  cases e with
  | dequeue w =>
    obtain ⟨_, _, hs, _, _⟩ := pool_step_dequeue p q w h
    rw [hs]; rfl
  | execute w o =>
    obtain ⟨idx, _, hs, _, _⟩ := pool_step_execute p q w o h
    rw [hs]; exact worker_execute_freq _ _ _ _
  | readmit w =>
    obtain ⟨idx, _, hs, _, _⟩ := pool_step_readmit p q w h
    rw [hs]; rfl
  | leave w =>
    obtain ⟨_, _, _, hs, _, _⟩ := pool_step_leave p q w h
    rw [hs]
  | raise_stop =>
    obtain ⟨hs, _, _⟩ := pool_step_raise_stop p q h
    rw [hs]

/-! ### A recurring task never leaves the pool -/

theorem pool_step_recurring (n : Nat) (p q : pool_t) (e : pool_event) (hinv : PoolInv n p)
    (h : pool_step p e = some q) (r : Nat) (hfreq : task_freq p.sched.dag r > 0)
    (hin : 1 ≤ (ring_contents p.sched).count r + (held p.workers).count r) :
    1 ≤ (ring_contents q.sched).count r + (held q.workers).count r := by
  cases e with
  | dequeue w =>
    obtain ⟨x, rest, h1, h2, _, _, h3, _, _⟩ := pool_dequeue_effect n p q w hinv h
    rw [h1, count_cons_eq] at hin
    rw [h2, h3]; omega
  | execute w o =>
    obtain ⟨idx, pc, _, hpc, _, _, h2, h3, _⟩ := pool_execute_effect p q w o h
    have := h3 r
    rw [h2]
    by_cases hr : idx = r
    · subst hr
      rw [hpc, if_pos hfreq, held_readmitting] at this
      omega
    · have h0 : [idx].count r = 0 :=
        List.count_eq_zero.2 (fun hm => hr (List.mem_singleton.1 hm).symm)
      have hpc0 : (held [pc]).count r = 0 := by
        rw [hpc]
        split
        · rw [held_readmitting]; exact h0
        · rw [held_waiting]; rfl
      omega
  | readmit w =>
    obtain ⟨idx, _, h2, _, h3, _, _⟩ := pool_readmit_effect n p q w hinv h
    have := h3 r
    rw [h2, List.count_append]; omega
  | leave w =>
    obtain ⟨_, _, hs, _, h3, _⟩ := pool_leave_effect n p q w hinv h
    rw [hs, h3]; exact hin
  | raise_stop =>
    obtain ⟨hs, hws, _⟩ := pool_step_raise_stop p q h
    have hcont : ring_contents q.sched = ring_contents p.sched := by
      rw [hs]; exact ring_contents_congr _ _ rfl rfl rfl rfl
    rw [hcont, hws]; exact hin

theorem pool_run_recurring (n : Nat) (r : Nat) (es : List pool_event) :
    ∀ p q : pool_t, PoolInv n p → pool_run p es = some q → task_freq p.sched.dag r > 0 →
      1 ≤ (ring_contents p.sched).count r + (held p.workers).count r →
      1 ≤ (ring_contents q.sched).count r + (held q.workers).count r := by
  induction es with
  | nil =>
    intro p q _ h _ hin
    simp only [pool_run] at h
    exact (Option.some.inj h) ▸ hin
  | cons e es ih =>
    intro p q hinv h hfreq hin
    simp only [pool_run] at h
    cases hstep : pool_step p e with
    | none => simp [hstep] at h
    | some p1 =>
      simp only [hstep] at h
      exact ih p1 q (pool_step_inv n p p1 e hinv hstep) h
        (by rw [pool_step_freq p p1 e hstep r]; exact hfreq)
        (pool_step_recurring n p p1 e hinv hstep r hfreq hin)

theorem recurring_blocks_exit (d : dag_t) (hwf : WellFormed d) (n_workers : Nat) (p : pool_t)
    (hreach : PoolReachable d n_workers p) (r : Nat) (hfreq : task_freq d r > 0) :
    ¬ all_exited p := by
  intro hall
  have hinv := pool_reachable_inv d hwf n_workers p hreach
  obtain ⟨s0, s1, es, hinit, hstart, hrun⟩ := hreach
  obtain ⟨_, _, _, hdag, _, hperm, _, _, _, _⟩ := pool_start d hwf n_workers s0 s1 hinit hstart
  have hr : r < d.n_tasks := by
    by_contra hge
    have hnone : d.tasks[r]? = none := by
      apply List.getElem?_eq_none
      rw [n_tasks_eq_length_tasks]; omega
    simp [task_freq, hnone] at hfreq
  have h0 : 1 ≤ (ring_contents (launch s1).sched).count r +
      (held (launch s1).workers).count r := by
    have : r ∈ ring_contents s1 := hperm.mem_iff.2 (List.mem_range.2 hr)
    have := List.count_pos_iff.2 this
    simp only [launch]; omega
  have h1 := pool_run_recurring d.n_tasks r es _ p
    (pool_launch_inv d hwf n_workers s0 s1 hinit hstart) hrun
    (by simp only [launch]; rw [hdag]; exact hfreq) h0
  rw [hinv.drained hall, held_of_all_exited p.workers hall] at h1
  simp at h1

/-! ### Graphs without recurring tasks: every task runs once -/

theorem status_of_code_execute (s : scheduler_t) (idx : Nat) (o : process_outcome)
    (h : idx < s.dag.n_tasks) :
    status_of_code (execute_task s idx o) =
      (if o = process_outcome.exited 0 then task_status_t.COMPLETED
       else task_status_t.FAILED) := by
  unfold status_of_code
  by_cases ho : o = process_outcome.exited 0
  · rw [if_pos ho, if_pos ((execute_task_eq_zero_iff s idx o).2 ⟨h, ho⟩)]
  · rw [if_neg ho, if_neg (fun hz => ho ((execute_task_eq_zero_iff s idx o).1 hz).2)]

theorem count_map_fst_append (l : List (Nat × process_outcome)) (idx : Nat)
    (o : process_outcome) (y : Nat) :
    ((l ++ [(idx, o)]).map Prod.fst).count y = (l.map Prod.fst).count y + [idx].count y := by
  rw [List.map_append, List.count_append]; rfl

theorem pool_step_once (n : Nat) (p q : pool_t) (e : pool_event) (hinv : PoolInv n p)
    (hr : RunOnceInv n p) (h : pool_step p e = some q) : RunOnceInv n q := by
  have hfreq : ∀ u, task_freq q.sched.dag u = 0 := by
    intro u; rw [pool_step_freq p q e h u]; exact hr.no_freq u
  cases e with
  | dequeue w =>
    obtain ⟨x, rest, h1, h2, hws, hw, h3, hdag, hlog⟩ := pool_dequeue_effect n p q w hinv h
    refine ⟨hfreq, ?_, ?_, ?_, ?_⟩
    · intro y hy
      have := hr.each_once y hy
      rw [h1, count_cons_eq] at this
      rw [h2, h3, hlog]; omega
    · intro i o hio
      rw [hlog] at hio
      rw [hdag]; exact hr.status i o hio
    · intro v hv i
      rw [hws] at hv
      rcases List.mem_or_eq_of_mem_set hv with h4 | h4
      · exact hr.no_readmit v h4 i
      · rw [h4]; simp
    · intro hex
      rw [hws] at hex
      have := hr.empty_after_exit (exited_of_mem_set _ _ _ (by simp) hex)
      rw [h1] at this
      simp at this
  | execute w o =>
    obtain ⟨idx, pc, hw, hpc, hws, hs, hcont, hcount, hlog⟩ := pool_execute_effect p q w o h
    have hpc1 : pc = worker_pc.waiting := by
      rw [hpc, if_neg (by rw [hr.no_freq idx]; decide)]
    rw [hpc1] at hws hcount
    have hheld : 1 ≤ (held p.workers).count idx := by
      have := hcount idx
      rw [count_singleton_self, held_waiting] at this
      simp only [List.count_nil] at this
      omega
    have hidx : idx < n := by
      by_contra hge
      have := hinv.bound idx (Nat.le_of_not_lt hge)
      omega
    have hnew : idx ∉ p.log.map Prod.fst := by
      have := hr.each_once idx hidx
      exact List.count_eq_zero.1 (by omega)
    refine ⟨hfreq, ?_, ?_, ?_, ?_⟩
    · intro y hy
      have := hr.each_once y hy
      have := hcount y
      rw [held_waiting] at this
      simp only [List.count_nil] at this
      rw [hcont, hlog, count_map_fst_append]; omega
    · intro i o1 hio
      rw [hlog] at hio
      rcases List.mem_append.1 hio with h4 | h4
      · obtain ⟨t, ht, hst⟩ := hr.status i o1 h4
        have hne : i ≠ idx := by
          intro he
          exact hnew (he ▸ List.mem_map.2 ⟨(i, o1), h4, rfl⟩)
        exact ⟨t, by rw [hs, worker_execute_other _ _ _ _ hne]; exact ht, hst⟩
      · have he : (i, o1) = (idx, o) := by simpa using h4
        obtain ⟨rfl, rfl⟩ := Prod.mk.inj he
        obtain ⟨t, ht⟩ := task_exists_of_lt p.sched.dag i (by rw [hinv.n_tasks]; exact hidx)
        have hf : ¬ 0 < t.freq := by
          have := hr.no_freq i
          rw [task_freq_of_task _ i t ht] at this
          omega
        refine ⟨_, by rw [hs]; exact (worker_execute_task p.sched i o1 t ht).2 hf, ?_⟩
        exact status_of_code_execute p.sched i o1 (by rw [hinv.n_tasks]; exact hidx)
    · intro v hv i
      rw [hws] at hv
      rcases List.mem_or_eq_of_mem_set hv with h4 | h4
      · exact hr.no_readmit v h4 i
      · rw [h4]; simp
    · intro hex
      rw [hws] at hex
      rw [hcont]
      exact hr.empty_after_exit (exited_of_mem_set _ _ _ (by simp) hex)
  | readmit w =>
    obtain ⟨idx, hw, _, _, _⟩ := pool_step_readmit p q w h
    exact absurd rfl (hr.no_readmit _ (List.getElem?_mem hw) idx)
  | leave w =>
    obtain ⟨hw, hempty, hs, hws, hcount, hlog⟩ := pool_leave_effect n p q w hinv h
    refine ⟨hfreq, ?_, ?_, ?_, ?_⟩
    · intro y hy
      rw [hs, hcount, hlog]; exact hr.each_once y hy
    · intro i o hio
      rw [hlog] at hio
      rw [hs]; exact hr.status i o hio
    · intro v hv i
      rw [hws] at hv
      rcases List.mem_or_eq_of_mem_set hv with h4 | h4
      · exact hr.no_readmit v h4 i
      · rw [h4]; simp
    · intro _
      rw [hs]; exact hempty
  | raise_stop =>
    obtain ⟨hs, hws, hlog⟩ := pool_step_raise_stop p q h
    have hcont : ring_contents q.sched = ring_contents p.sched := by
      rw [hs]; exact ring_contents_congr _ _ rfl rfl rfl rfl
    have hdag : q.sched.dag = p.sched.dag := by rw [hs]
    refine ⟨hfreq, ?_, ?_, ?_, ?_⟩
    · intro y hy
      rw [hcont, hws, hlog]; exact hr.each_once y hy
    · intro i o hio
      rw [hlog] at hio
      rw [hdag]; exact hr.status i o hio
    · intro v hv i
      rw [hws] at hv
      exact hr.no_readmit v hv i
    · intro hex
      rw [hws] at hex
      rw [hcont]; exact hr.empty_after_exit hex

theorem pool_run_once (n : Nat) (es : List pool_event) :
    ∀ p q : pool_t, PoolInv n p → RunOnceInv n p → pool_run p es = some q →
      RunOnceInv n q := by
  induction es with
  | nil =>
    intro p q _ hr h
    simp only [pool_run] at h
    exact (Option.some.inj h) ▸ hr
  | cons e es ih =>
    intro p q hinv hr h
    simp only [pool_run] at h
    cases hstep : pool_step p e with
    | none => simp [hstep] at h
    | some p1 =>
      simp only [hstep] at h
      exact ih p1 q (pool_step_inv n p p1 e hinv hstep)
        (pool_step_once n p p1 e hinv hr hstep) h

theorem task_freq_zero_of_all (d : dag_t) (hfreq : ∀ t ∈ d.tasks, t.freq = 0) (u : Nat) :
    task_freq d u = 0 := by
  unfold task_freq
  rw [List.get?_eq_getElem?]
  cases ht : d.tasks[u]? with
  | none => rfl
  | some t => exact hfreq t (List.getElem?_mem ht)

theorem pool_launch_once (d : dag_t) (hwf : WellFormed d) (hfreq : ∀ t ∈ d.tasks, t.freq = 0)
    (n_workers : Nat) (s0 s1 : scheduler_t)
    (hinit : sched_init (some d) n_workers = some s0) (hstart : sched_start s0 = (0, s1)) :
    RunOnceInv d.n_tasks (launch s1) := by
  obtain ⟨_, _, _, hdag, _, hperm, _, _, _, _⟩ := pool_start d hwf n_workers s0 s1 hinit hstart
  have hheld : held (launch s1).workers = [] := held_replicate_waiting _
  refine ⟨?_, ?_, ?_, ?_, ?_⟩
  · intro u
    simp only [launch]
    rw [hdag]; exact task_freq_zero_of_all d hfreq u
  · intro x hx
    rw [hheld]
    have h1 : (ring_contents s1).count x = 1 :=
      List.count_eq_one_of_mem (hperm.nodup_iff.2 (List.nodup_range _))
        (hperm.mem_iff.2 (List.mem_range.2 hx))
    simp only [launch, List.map_nil, List.count_nil]
    omega
  · intro i o hio
    simp [launch] at hio
  · intro v hv i
    simp only [launch] at hv
    rw [(List.mem_replicate.1 hv).2]; simp
  · rintro ⟨x, hx, he⟩
    simp only [launch] at hx
    rw [(List.mem_replicate.1 hx).2] at he
    simp at he

theorem pool_all_exited_once (d : dag_t) (hwf : WellFormed d)
    (hfreq : ∀ t ∈ d.tasks, t.freq = 0) (n_workers : Nat) (p : pool_t)
    (hreach : PoolReachable d n_workers p) (hall : all_exited p) :
    p.sched.stop = true ∧ ring_contents p.sched = [] ∧
    (p.log.map Prod.fst).Perm (List.range d.n_tasks) ∧
    ∀ idx, idx < d.n_tasks →
      (p.log.map Prod.fst).count idx = 1 ∧
      ∃ o t, (idx, o) ∈ p.log ∧ p.sched.dag.tasks[idx]? = some t ∧
        t.status = (if o = process_outcome.exited 0 then task_status_t.COMPLETED
                    else task_status_t.FAILED) ∧
        t.status ≠ task_status_t.PENDING := by
  have hinv := pool_reachable_inv d hwf n_workers p hreach
  obtain ⟨s0, s1, es, hinit, hstart, hrun⟩ := hreach
  have hr := pool_run_once d.n_tasks es _ p
    (pool_launch_inv d hwf n_workers s0 s1 hinit hstart)
    (pool_launch_once d hwf hfreq n_workers s0 s1 hinit hstart) hrun
  have hempty := hinv.drained hall
  have hheld := held_of_all_exited p.workers hall
  have hex : ∃ w ∈ p.workers, w = worker_pc.exited := by
    cases hws : p.workers with
    | nil => exact absurd hws hinv.workers_ne
    | cons a rest =>
      exact ⟨a, List.mem_cons_self _ _, hall a (by rw [hws]; exact List.mem_cons_self _ _)⟩
  have hcount : ∀ idx, idx < d.n_tasks → (p.log.map Prod.fst).count idx = 1 := by
    intro idx hidx
    have := hr.each_once idx hidx
    rw [hempty, hheld] at this
    simpa using this
  have hbound : ∀ i ∈ p.log.map Prod.fst, i < d.n_tasks := by
    intro i hi
    obtain ⟨⟨i1, o⟩, hio, rfl⟩ := List.mem_map.1 hi
    obtain ⟨t, ht, _⟩ := hr.status i1 o hio
    have := (List.getElem?_eq_some_iff.1 ht).1
    rw [n_tasks_eq_length_tasks, hinv.n_tasks] at this
    exact this
  refine ⟨hinv.stopped hex, hempty, ?_, ?_⟩
  · apply List.perm_iff_count.2
    intro x
    by_cases hx : x < d.n_tasks
    · rw [hcount x hx]
      exact (List.count_eq_one_of_mem (List.nodup_range _) (List.mem_range.2 hx)).symm
    · rw [List.count_eq_zero.2 (fun hin => hx (hbound x hin)),
        List.count_eq_zero.2 (fun hin => hx (List.mem_range.1 hin))]
  · intro idx hidx
    refine ⟨hcount idx hidx, ?_⟩
    have hmem : idx ∈ p.log.map Prod.fst :=
      List.count_pos_iff.1 (by rw [hcount idx hidx]; decide)
    obtain ⟨⟨i1, o⟩, hio, hfst⟩ := List.mem_map.1 hmem
    simp only at hfst
    subst hfst
    obtain ⟨t, ht, hst⟩ := hr.status i1 o hio
    refine ⟨o, t, hio, ht, hst, ?_⟩
    rw [hst]
    split <;> simp

/-! ## The claims on bulk insertion and on the invariants of reachable graphs -/

/-- Claim C11. For every list of tasks with pairwise distinct ids, of any length (longer
than the initial capacity 16 included), added to a fresh graph with `dag_add_task`, every
call returns 0, and afterwards `dag_find_index` of the id of the `k`-th task returns `k`:
the tasks are stored in the order of insertion and the capacity has grown to hold them. -/
theorem add_tasks_grows (ts : List task_t) (hnd : (ts.map task_t.id).Nodup) :
    (∀ code ∈ (add_tasks dag_init ts).1, code = 0) ∧
    (add_tasks dag_init ts).1.length = ts.length ∧
    (add_tasks dag_init ts).2.tasks = ts ∧
    (∀ (k : Nat) (t : task_t), ts[k]? = some t →
      dag_find_index (add_tasks dag_init ts).2 t.id = (k : Int)) ∧
    (add_tasks dag_init ts).2.n_tasks = ts.length ∧
    ts.length ≤ (add_tasks dag_init ts).2.capacity := by
  have h := add_tasks_spec ts dag_init (by simpa [dag_init, dag_t.tasks] using hnd)
    (by simp [dag_init, dag_t.n_tasks]) (by simp [dag_init, DAG_INITIAL_CAPACITY])
  obtain ⟨h1, h2, h3, h4, _⟩ := h
  have htasks : (add_tasks dag_init ts).2.tasks = ts := by
    rw [h3]; simp [dag_init, dag_t.tasks]
  have hn : (add_tasks dag_init ts).2.n_tasks = ts.length := by
    rw [← n_tasks_eq_length_tasks, htasks]
  refine ⟨h1, h2, htasks, ?_, hn, by rw [← hn]; exact h4⟩
  intro k t hk
  exact dag_find_index_of_nodup _ (by rw [htasks]; exact hnd) k t (by rw [htasks]; exact hk)

theorem add_tasks_grows_witness :
    (seventeen_tasks.map task_t.id).Nodup ∧
    (∀ code ∈ (add_tasks dag_init seventeen_tasks).1, code = 0) ∧
    (add_tasks dag_init seventeen_tasks).1.length = seventeen_tasks.length ∧
    (add_tasks dag_init seventeen_tasks).2.tasks = seventeen_tasks ∧
    (∀ (k : Nat) (t : task_t), seventeen_tasks[k]? = some t →
      dag_find_index (add_tasks dag_init seventeen_tasks).2 t.id = (k : Int)) ∧
    (add_tasks dag_init seventeen_tasks).2.n_tasks = seventeen_tasks.length ∧
    seventeen_tasks.length ≤ (add_tasks dag_init seventeen_tasks).2.capacity :=
  ⟨by decide, add_tasks_grows seventeen_tasks (by decide)⟩

/-- Claim C12. Uniqueness of task ids is an invariant: in every graph reachable from
`dag_init` by calls of `dag_add_task` and `dag_add_dep`, two indices that hold tasks with
equal ids are the same index. -/
theorem reachable_ids_unique (d : dag_t) (h : Reachable d) :
    ∀ (i j : Nat) (t1 t2 : task_t), d.tasks[i]? = some t1 → d.tasks[j]? = some t2 →
      t1.id = t2.id → i = j := by
  intro i j t1 t2 h1 h2 hid
  have hnd := reachable_ids_nodup d h
  have a := dag_find_index_of_nodup d hnd i t1 h1
  have b := dag_find_index_of_nodup d hnd j t2 h2
  rw [hid, b] at a
  exact_mod_cast a.symm

theorem reachable_ids_unique_witness :
    Reachable test_dag ∧
    ∀ (i j : Nat) (t1 t2 : task_t), test_dag.tasks[i]? = some t1 →
      test_dag.tasks[j]? = some t2 → t1.id = t2.id → i = j :=
  ⟨Reachable.add_dep _ "A" "B" (Reachable.add_task _ (make_task "B")
      (Reachable.add_task _ (make_task "A") Reachable.init)),
   reachable_ids_unique test_dag (Reachable.add_dep _ "A" "B"
      (Reachable.add_task _ (make_task "B")
        (Reachable.add_task _ (make_task "A") Reachable.init)))⟩

/-- Claim C13. Adjacency well-formedness is an invariant: in every graph reachable from
`dag_init` by calls of `dag_add_task` and `dag_add_dep`, failing and rolled-back calls
included, every successor list holds only indices below `n_tasks` and holds no index
twice. -/
theorem reachable_adjacency_wellformed (d : dag_t) (h : Reachable d) :
    ∀ u : Nat, (∀ v ∈ d.deps u, v < d.n_tasks) ∧ (d.deps u).Nodup := by
  intro u
  refine ⟨?_, reachable_deps_nodup d h u⟩
  intro v hv
  by_cases hu : u < d.n_tasks
  · exact (reachable_wellFormed_acyclic d h).1 u v ⟨hu, hv⟩
  · rw [deps_out_of_range d u (Nat.le_of_not_lt hu)] at hv
    simp at hv

theorem reachable_adjacency_wellformed_witness :
    Reachable (dag_add_dep test_dag "B" "A").2 ∧
    ∀ u : Nat, (∀ v ∈ (dag_add_dep test_dag "B" "A").2.deps u,
        v < (dag_add_dep test_dag "B" "A").2.n_tasks) ∧
      ((dag_add_dep test_dag "B" "A").2.deps u).Nodup :=
  ⟨Reachable.add_dep _ "B" "A" (Reachable.add_dep _ "A" "B"
      (Reachable.add_task _ (make_task "B")
        (Reachable.add_task _ (make_task "A") Reachable.init))),
   reachable_adjacency_wellformed _ (Reachable.add_dep _ "B" "A" (Reachable.add_dep _ "A" "B"
      (Reachable.add_task _ (make_task "B")
        (Reachable.add_task _ (make_task "A") Reachable.init))))⟩

/-! ## The claims on the scheduler -/

theorem worker_iteration_dag (s : scheduler_t) (idx : Nat) (o : process_outcome) :
    (worker_iteration s idx o).dag = (worker_execute s idx o).dag := by
  unfold worker_iteration
  simp only
  split <;> rfl

theorem worker_iteration_queue (s : scheduler_t) (idx : Nat) (o : process_outcome) :
    (task_freq s.dag idx > 0 →
      (worker_iteration s idx o).queue = array_set s.queue s.q_tail idx ∧
      (worker_iteration s idx o).q_tail = (s.q_tail + 1) % s.q_capacity ∧
      (worker_iteration s idx o).q_head = s.q_head ∧
      (worker_iteration s idx o).q_capacity = s.q_capacity) ∧
    (¬ task_freq s.dag idx > 0 →
      (worker_iteration s idx o).queue = s.queue ∧
      (worker_iteration s idx o).q_tail = s.q_tail ∧
      (worker_iteration s idx o).q_head = s.q_head ∧
      (worker_iteration s idx o).q_capacity = s.q_capacity) := by
  obtain ⟨f1, f2, f3, f4, _, _⟩ := worker_execute_frame s idx o
  have hf := worker_execute_freq s idx idx o
  constructor
  · intro hpos
    have hpos1 : task_freq (worker_execute s idx o).dag idx > 0 := by rw [hf]; exact hpos
    simp [worker_iteration, if_pos hpos1, enqueue, f1, f2, f3, f4]
  · intro hnot
    have hnot1 : ¬ task_freq (worker_execute s idx o).dag idx > 0 := by rw [hf]; exact hnot
    simp only [worker_iteration, if_neg hnot1]
    exact ⟨f1, f3, f2, f4⟩

/-- Claim C14. For a task index `idx` a worker has dequeued and every outcome of running its
command, the iteration leaves the status of that task COMPLETED if and only if the process
was spawned, awaited and exited with status 0, and FAILED in every other case; every other
task is left as it was.  For an index outside the graph `execute_task` returns -1, so the
worker takes its FAILED branch. -/
theorem worker_records_outcome (s : scheduler_t) (idx : Nat) (o : process_outcome)
    (t : task_t) (ht : s.dag.tasks[idx]? = some t) :
    (∃ t1, (worker_iteration s idx o).dag.tasks[idx]? = some t1 ∧
      (t1.status = task_status_t.COMPLETED ↔ o = process_outcome.exited 0) ∧
      (o ≠ process_outcome.exited 0 → t1.status = task_status_t.FAILED) ∧
      t1.id = t.id ∧ t1.cmd = t.cmd ∧ t1.freq = t.freq) ∧
    (∀ u, u ≠ idx → (worker_iteration s idx o).dag.tasks[u]? = s.dag.tasks[u]?) ∧
    (∀ i o1, s.dag.n_tasks ≤ i →
      execute_task s i o1 = -1 ∧
      status_of_code (execute_task s i o1) = task_status_t.FAILED) := by
  have hidx : idx < s.dag.n_tasks := by
    have := (List.getElem?_eq_some_iff.1 ht).1
    rw [n_tasks_eq_length_tasks] at this; exact this
  have hst := status_of_code_execute s idx o hidx
  refine ⟨?_, ?_, ?_⟩
  · rw [worker_iteration_dag]
    have h := worker_execute_task s idx o t ht
    by_cases hpos : 0 < t.freq
    · refine ⟨_, h.1 hpos, ?_, ?_, rfl, rfl, rfl⟩
      · simp only [hst]
        by_cases ho : o = process_outcome.exited 0 <;> simp [ho]
      · intro ho
        simp only [hst, if_neg ho]
    · refine ⟨_, h.2 hpos, ?_, ?_, rfl, rfl, rfl⟩
      · simp only [hst]
        by_cases ho : o = process_outcome.exited 0 <;> simp [ho]
      · intro ho
        simp only [hst, if_neg ho]
  · intro u hu
    rw [worker_iteration_dag]
    exact worker_execute_other s idx u o hu
  · intro i o1 hi
    have h1 : execute_task s i o1 = -1 := by
      unfold execute_task
      rw [if_pos hi]
    rw [h1]
    exact ⟨rfl, rfl⟩

theorem worker_records_outcome_witness :
    two_task_started.dag.tasks[1]? = some (make_sched_task "T1" "false" 0) ∧
    ((∃ t1, (worker_iteration two_task_started 1
          (process_outcome.exited 1)).dag.tasks[1]? = some t1 ∧
      (t1.status = task_status_t.COMPLETED ↔
        process_outcome.exited 1 = process_outcome.exited 0) ∧
      (process_outcome.exited 1 ≠ process_outcome.exited 0 →
        t1.status = task_status_t.FAILED) ∧
      t1.id = (make_sched_task "T1" "false" 0).id ∧
      t1.cmd = (make_sched_task "T1" "false" 0).cmd ∧
      t1.freq = (make_sched_task "T1" "false" 0).freq) ∧
    (∀ u, u ≠ 1 →
      (worker_iteration two_task_started 1 (process_outcome.exited 1)).dag.tasks[u]? =
        two_task_started.dag.tasks[u]?) ∧
    (∀ i o1, two_task_started.dag.n_tasks ≤ i →
      execute_task two_task_started i o1 = -1 ∧
      status_of_code (execute_task two_task_started i o1) = task_status_t.FAILED)) :=
  ⟨by decide,
   worker_records_outcome two_task_started 1 (process_outcome.exited 1)
     (make_sched_task "T1" "false" 0) (by decide)⟩

/-- Claim C15, amended. In a worker iteration that executes the task index `idx`: when the
task's `freq` is positive, its `time` becomes the sum `time + freq` as a `time_t`, which is
`time` plus exactly `freq` whenever `time` is a `time_t` and the sum is at most the largest
`time_t`; and `idx` is written at `q_tail`, which advances by one cell, so that the ready
queue is the former one with `idx` appended once, provided the buffer has a free cell; when
`freq` is 0, `time` and the ready queue are unchanged.  In every reachable state of the pool
the buffer has that free cell: a re-admission appends its index to the ready queue. -/
theorem worker_recurrence (s : scheduler_t) (idx : Nat) (o : process_outcome) (t : task_t)
    (ht : s.dag.tasks[idx]? = some t) :
    (0 < t.freq →
      (∃ t1, (worker_iteration s idx o).dag.tasks[idx]? = some t1 ∧
        t1.time = time_wrap (t.time + t.freq) ∧
        (TIME_MIN ≤ t.time → t.time + t.freq ≤ TIME_MAX → t1.time = t.time + t.freq)) ∧
      (worker_iteration s idx o).queue = array_set s.queue s.q_tail idx ∧
      (worker_iteration s idx o).q_tail = (s.q_tail + 1) % s.q_capacity ∧
      (worker_iteration s idx o).q_head = s.q_head ∧
      ∀ items, RingRep s items → items.length + 1 < s.q_capacity →
        ring_contents (worker_iteration s idx o) = items ++ [idx]) ∧
    (t.freq = 0 →
      (∃ t1, (worker_iteration s idx o).dag.tasks[idx]? = some t1 ∧ t1.time = t.time) ∧
      (worker_iteration s idx o).queue = s.queue ∧
      (worker_iteration s idx o).q_tail = s.q_tail ∧
      (worker_iteration s idx o).q_head = s.q_head ∧
      ring_contents (worker_iteration s idx o) = ring_contents s) ∧
    (∀ (d : dag_t) (n_workers : Nat) (p q : pool_t) (w : Nat), WellFormed d →
      PoolReachable d n_workers p → pool_step p (pool_event.readmit w) = some q →
      ∃ i, p.workers[w]? = some (worker_pc.readmitting i) ∧
        ring_contents q.sched = ring_contents p.sched ++ [i]) := by
  have hf : task_freq s.dag idx = t.freq := task_freq_of_task s.dag idx t ht
  have h := worker_execute_task s idx o t ht
  have hq := worker_iteration_queue s idx o
  refine ⟨?_, ?_, ?_⟩
  · intro hpos
    obtain ⟨q1, q2, q3, q4⟩ := hq.1 (by rw [hf]; exact hpos)
    refine ⟨⟨{ t with status := status_of_code (execute_task s idx o),
                      time := time_wrap (t.time + t.freq) },
        by rw [worker_iteration_dag]; exact h.1 hpos, rfl,
        fun hlo hhi => time_wrap_of_range _ (by omega) hhi⟩, q1, q2, q3, ?_⟩
    intro items hrep hroom
    have hrep2 := ringRep_enqueue s items idx hrep hroom
    exact ringRep_contents _ _ (ringRep_congr (enqueue s idx) _ _ hrep2 q1 q3 q2 q4)
  · intro hz
    have hnot : ¬ 0 < t.freq := by omega
    obtain ⟨q1, q2, q3, q4⟩ := hq.2 (by rw [hf]; exact hnot)
    exact ⟨⟨{ t with status := status_of_code (execute_task s idx o) },
        by rw [worker_iteration_dag]; exact h.2 hnot, rfl⟩, q1, q2, q3,
      ring_contents_congr _ _ q1 q3 q2 q4⟩
  · intro d n_workers p q w hwf hreach hstep
    have hinv := pool_reachable_inv d hwf n_workers p hreach
    obtain ⟨i, hw, hcont, _⟩ := pool_readmit_effect d.n_tasks p q w hinv hstep
    exact ⟨i, hw, hcont⟩

theorem worker_recurrence_witness :
    recurring_started.dag.tasks[0]? = some (make_sched_task "R" "true" 1) ∧
    0 < (make_sched_task "R" "true" 1).freq ∧
    TIME_MIN ≤ (make_sched_task "R" "true" 1).time ∧
    (make_sched_task "R" "true" 1).time + (make_sched_task "R" "true" 1).freq ≤ TIME_MAX ∧
    ∃ t1, (worker_iteration (dequeue recurring_started) 0
        (process_outcome.exited 0)).dag.tasks[0]? = some t1 ∧
      t1.time = (make_sched_task "R" "true" 1).time + (make_sched_task "R" "true" 1).freq :=
  ⟨by decide, by decide, by decide, by decide,
   match ((worker_recurrence (dequeue recurring_started) 0 (process_outcome.exited 0)
      (make_sched_task "R" "true" 1) (by decide)).1 (by decide)).1 with
   | ⟨t1, h1, _, h3⟩ => ⟨t1, h1, h3 (by decide) (by decide)⟩⟩

/-- Claim C15 as it is written fails at the end of the range of `time_t`: for the task
`R` with `time = 9223372036854775807` and `freq = 1`, started with one worker and dequeued,
the iteration leaves `time = -9223372036854775808`, which is not `time` plus `freq`. -/
theorem worker_recurrence_time_overflow :
    sched_init (some overflow_dag) 1 = some overflow_sched ∧
    sched_start overflow_sched = (0, overflow_started) ∧
    ∃ t t1, (dequeue overflow_started).dag.tasks[0]? = some t ∧
      t.time = 9223372036854775807 ∧ t.freq = 1 ∧
      (worker_iteration (dequeue overflow_started) 0
        (process_outcome.exited 0)).dag.tasks[0]? = some t1 ∧
      t1.time = -9223372036854775808 ∧ t1.time ≠ t.time + t.freq :=
  ⟨rfl, Prod.ext (by decide) rfl,
   { id := "R", cmd := "true", time := TIME_MAX, freq := 1,
     status := task_status_t.PENDING },
   { id := "R", cmd := "true", time := TIME_MIN, freq := 1,
     status := task_status_t.COMPLETED },
   by decide, by decide, by decide, by decide, by decide, by decide⟩

/-- Claim C16. For a well-formed acyclic graph of `n` tasks and a scheduler that `sched_init`
has just created for it, `sched_start` returns 0 and leaves in the ready queue exactly `n`
entries which, read from `q_head` to `q_tail`, are the order `dag_toposort` returns for the
graph; they occupy the cells `0 .. n-1`, none overwritten. -/
theorem sched_start_seeds_queue (d : dag_t) (hwf : WellFormed d) (hac : ¬ HasCycle d)
    (n_workers : Nat) (hnw : n_workers ≠ 0) :
    ∃ (s0 : scheduler_t) (out : List Nat),
      sched_init (some d) n_workers = some s0 ∧
      dag_toposort d = { code := 0, out_order := some out, out_n := d.n_tasks } ∧
      (sched_start s0).1 = 0 ∧
      ring_contents (sched_start s0).2 = out ∧
      ring_count (sched_start s0).2 = d.n_tasks ∧
      out.Perm (List.range d.n_tasks) ∧
      (sched_start s0).2.q_head = 0 ∧ (sched_start s0).2.q_tail = d.n_tasks ∧
      ∀ k : Nat, k < d.n_tasks → out[k]? = some ((sched_start s0).2.queue k) := by
  have hinit := sched_init_some d n_workers hnw
  refine ⟨_, ?_, hinit, ?_⟩
  · exact ring_contents (sched_start
      { dag := d, order := none, n_order := 0, n_workers := n_workers, queue := fun _ => 0,
        q_head := 0, q_tail := 0, q_capacity := d.n_tasks + 1, stop := false }).2
  · obtain ⟨out, hres, hperm, h1, h2, _, h4, h5, _, _, _, _⟩ :=
      sched_start_acyclic d hwf hac
        { dag := d, order := none, n_order := 0, n_workers := n_workers, queue := fun _ => 0,
          q_head := 0, q_tail := 0, q_capacity := d.n_tasks + 1, stop := false }
        rfl rfl ⟨by simp, by simp, by simp, by intro k hk; simp at hk⟩
    have hcont := ringRep_contents _ _ h2
    have hlen : out.length = d.n_tasks := by rw [hperm.length_eq, List.length_range]
    rw [hcont]
    refine ⟨hres, h1, rfl, ?_, hperm, h4, ?_, ?_⟩
    · rw [ringRep_count _ _ h2, hlen]
    · rw [h2.2.2.1, h4, h5, hlen, Nat.zero_add]
      exact Nat.mod_eq_of_lt (by omega)
    · intro k hk
      have := h2.2.2.2 k (by rw [hlen]; exact hk)
      rw [h4, h5, Nat.zero_add, Nat.mod_eq_of_lt (by omega)] at this
      exact this

theorem sched_start_seeds_queue_witness :
    WellFormed two_task_dag ∧ ¬ HasCycle two_task_dag ∧ (2 : Nat) ≠ 0 ∧
    ∃ (s0 : scheduler_t) (out : List Nat),
      sched_init (some two_task_dag) 2 = some s0 ∧
      dag_toposort two_task_dag =
        { code := 0, out_order := some out, out_n := two_task_dag.n_tasks } ∧
      (sched_start s0).1 = 0 ∧
      ring_contents (sched_start s0).2 = out ∧
      ring_count (sched_start s0).2 = two_task_dag.n_tasks ∧
      out.Perm (List.range two_task_dag.n_tasks) ∧
      (sched_start s0).2.q_head = 0 ∧ (sched_start s0).2.q_tail = two_task_dag.n_tasks ∧
      ∀ k : Nat, k < two_task_dag.n_tasks → out[k]? = some ((sched_start s0).2.queue k) :=
  ⟨wellFormed_of_slots two_task_dag (by decide),
   not_hasCycle_of_detect two_task_dag (wellFormed_of_slots two_task_dag (by decide))
     (by decide),
   by decide,
   sched_start_seeds_queue two_task_dag (wellFormed_of_slots two_task_dag (by decide))
     (not_hasCycle_of_detect two_task_dag (wellFormed_of_slots two_task_dag (by decide))
       (by decide)) 2 (by decide)⟩

/-- Claim C17. With allocation and the initialisation of the mutex and condition variable
succeeding, `sched_init` returns `NULL` if and only if the graph pointer is `NULL` or
`n_workers` is 0; a scheduler it returns has an empty ready queue (`q_head = q_tail = 0`),
the stop flag false, no cached order, and a queue capacity of the task count plus one. -/
theorem sched_init_spec (dag : Option dag_t) (n_workers : Nat) :
    (sched_init dag n_workers = none ↔ dag = none ∨ n_workers = 0) ∧
    ∀ (d : dag_t) (s : scheduler_t), dag = some d → sched_init dag n_workers = some s →
      s.q_head = 0 ∧ s.q_tail = 0 ∧ ring_contents s = [] ∧ s.stop = false ∧
      s.order = none ∧ s.q_capacity = d.n_tasks + 1 ∧ s.dag = d ∧
      s.n_workers = n_workers := by
  constructor
  · cases dag with
    | none => simp [sched_init]
    | some d =>
      by_cases h : n_workers = 0
      · simp [sched_init, h]
      · simp [sched_init, h]
  · intro d s hd hs
    rw [hd] at hs
    have hnw : n_workers ≠ 0 := by
      intro h0
      simp [sched_init, h0] at hs
    rw [sched_init_some d n_workers hnw] at hs
    have := Option.some.inj hs
    subst this
    refine ⟨rfl, rfl, ?_, rfl, rfl, rfl, rfl, rfl⟩
    simp [ring_contents, ring_count]

theorem sched_init_spec_witness :
    sched_init none 1 = none ∧ sched_init (some dag_init) 0 = none ∧
    two_task_sched.q_capacity = two_task_dag.n_tasks + 1 :=
  ⟨(sched_init_spec none 1).1.2 (Or.inl rfl),
   (sched_init_spec (some dag_init) 0).1.2 (Or.inr rfl),
   ((sched_init_spec (some two_task_dag) 2).2 two_task_dag two_task_sched rfl rfl).2.2.2.2.2.1⟩

theorem held_count_of_get (ws : List worker_pc) (w idx : Nat)
    (h : ws[w]? = some (worker_pc.running idx) ∨ ws[w]? = some (worker_pc.readmitting idx)) :
    (held (ws.set w worker_pc.waiting)).count idx + 1 = (held ws).count idx := by
  rcases h with h | h
  · have := held_set_count ws w _ worker_pc.waiting h idx
    rw [held_running, held_waiting, count_singleton_self] at this
    simpa using this
  · have := held_set_count ws w _ worker_pc.waiting h idx
    rw [held_readmitting, held_waiting, count_singleton_self] at this
    simpa using this

theorem held_count_two (ws : List worker_pc) (w1 w2 idx : Nat) (hne : w1 ≠ w2)
    (h1 : ws[w1]? = some (worker_pc.running idx) ∨
      ws[w1]? = some (worker_pc.readmitting idx))
    (h2 : ws[w2]? = some (worker_pc.running idx) ∨
      ws[w2]? = some (worker_pc.readmitting idx)) :
    2 ≤ (held ws).count idx := by
  have a := held_count_of_get ws w1 idx h1
  have hget : (ws.set w1 worker_pc.waiting)[w2]? = ws[w2]? := by
    rw [List.getElem?_set_ne hne]
  have b := held_count_of_get (ws.set w1 worker_pc.waiting) w2 idx (by rw [hget]; exact h2)
  omega

theorem worker_leaves_on_empty_queue (p : pool_t) (w : Nat)
    (hw : p.workers[w]? = some worker_pc.waiting) (hstop : p.sched.stop = true)
    (hempty : p.sched.q_head = p.sched.q_tail) :
    pool_step p (pool_event.leave w) =
      some { p with workers := p.workers.set w worker_pc.exited } := by
  simp [pool_step, hw, hstop, hempty]

/-- Claim C18. For a well-formed graph whose tasks all have `freq` 0, on which `sched_init`
and `sched_start` have succeeded (so the graph is acyclic and there is at least one worker),
in every state of the pool in which all workers have left their loop: the stop flag is set
and the ready queue is empty; the executions performed are one per task; and the status of
every task is COMPLETED if its run exited with status 0 and FAILED otherwise, never
PENDING. -/
theorem all_tasks_run_once (d : dag_t) (hwf : WellFormed d)
    (hfreq : ∀ t ∈ d.tasks, t.freq = 0) (n_workers : Nat) (p : pool_t)
    (hreach : PoolReachable d n_workers p) (hall : all_exited p) :
    p.sched.stop = true ∧ ring_contents p.sched = [] ∧
    (p.log.map Prod.fst).Perm (List.range d.n_tasks) ∧
    ∀ idx, idx < d.n_tasks →
      (p.log.map Prod.fst).count idx = 1 ∧
      ∃ o t, (idx, o) ∈ p.log ∧ p.sched.dag.tasks[idx]? = some t ∧
        t.status = (if o = process_outcome.exited 0 then task_status_t.COMPLETED
                    else task_status_t.FAILED) ∧
        t.status ≠ task_status_t.PENDING :=
  pool_all_exited_once d hwf hfreq n_workers p hreach hall

theorem all_tasks_run_once_witness :
    WellFormed two_task_dag ∧ (∀ t ∈ two_task_dag.tasks, t.freq = 0) ∧
    PoolReachable two_task_dag 2 two_task_done ∧ all_exited two_task_done ∧
    two_task_done.sched.dag.tasks.map task_t.status =
      [task_status_t.COMPLETED, task_status_t.FAILED] ∧
    (two_task_done.sched.stop = true ∧ ring_contents two_task_done.sched = [] ∧
    (two_task_done.log.map Prod.fst).Perm (List.range two_task_dag.n_tasks) ∧
    ∀ idx, idx < two_task_dag.n_tasks →
      (two_task_done.log.map Prod.fst).count idx = 1 ∧
      ∃ o t, (idx, o) ∈ two_task_done.log ∧ two_task_done.sched.dag.tasks[idx]? = some t ∧
        t.status = (if o = process_outcome.exited 0 then task_status_t.COMPLETED
                    else task_status_t.FAILED) ∧
        t.status ≠ task_status_t.PENDING) :=
  ⟨wellFormed_of_slots two_task_dag (by decide), by decide,
   ⟨two_task_sched, two_task_started, two_task_events, rfl, Prod.ext (by decide) rfl, rfl⟩,
   (by decide : ∀ w ∈ two_task_done.workers, w = worker_pc.exited),
   by decide,
   all_tasks_run_once two_task_dag (wellFormed_of_slots two_task_dag (by decide))
     (by decide) 2 two_task_done
     ⟨two_task_sched, two_task_started, two_task_events, rfl, Prod.ext (by decide) rfl, rfl⟩
     (by decide : ∀ w ∈ two_task_done.workers, w = worker_pc.exited)⟩

/-- Claim C19, where the code departs from it.  When the graph has a recurring task
(`freq > 0`), in no state of the pool, before or after the stop flag is raised, have all
workers left their loop: the index of the recurring task is always in the ready queue or in
the hands of a worker, and a worker leaves only on an empty queue.  So `sched_stop`, which
waits for every worker, does not return. -/
theorem recurring_task_blocks_stop (d : dag_t) (hwf : WellFormed d) (n_workers : Nat)
    (p : pool_t) (hreach : PoolReachable d n_workers p) (r : Nat)
    (hfreq : task_freq d r > 0) :
    ¬ all_exited p ∧
    1 ≤ (ring_contents p.sched).count r + (held p.workers).count r := by
  refine ⟨recurring_blocks_exit d hwf n_workers p hreach r hfreq, ?_⟩
  obtain ⟨s0, s1, es, hinit, hstart, hrun⟩ := hreach
  obtain ⟨_, _, _, hdag, _, hperm, _, _, _, _⟩ := pool_start d hwf n_workers s0 s1 hinit hstart
  have hr : r < d.n_tasks := by
    by_contra hge
    have hnone : d.tasks[r]? = none := by
      apply List.getElem?_eq_none
      rw [n_tasks_eq_length_tasks]; omega
    simp [task_freq, hnone] at hfreq
  have h0 : 1 ≤ (ring_contents (launch s1).sched).count r +
      (held (launch s1).workers).count r := by
    have : r ∈ ring_contents s1 := hperm.mem_iff.2 (List.mem_range.2 hr)
    have := List.count_pos_iff.2 this
    simp only [launch]; omega
  exact pool_run_recurring d.n_tasks r es _ p
    (pool_launch_inv d hwf n_workers s0 s1 hinit hstart) hrun
    (by simp only [launch]; rw [hdag]; exact hfreq) h0

theorem recurring_task_blocks_stop_witness :
    WellFormed recurring_dag ∧ PoolReachable recurring_dag 1 recurring_stopping ∧
    task_freq recurring_dag 0 > 0 ∧ recurring_stopping.sched.stop = true ∧
    ring_contents recurring_stopping.sched = [0] ∧
    (¬ all_exited recurring_stopping ∧
      1 ≤ (ring_contents recurring_stopping.sched).count 0 +
        (held recurring_stopping.workers).count 0) :=
  ⟨wellFormed_of_slots recurring_dag (by decide),
   ⟨recurring_sched, recurring_started, recurring_events, rfl, Prod.ext (by decide) rfl, rfl⟩,
   by decide, by decide, by decide,
   recurring_task_blocks_stop recurring_dag (wellFormed_of_slots recurring_dag (by decide)) 1
     recurring_stopping
     ⟨recurring_sched, recurring_started, recurring_events, rfl, Prod.ext (by decide) rfl, rfl⟩
     0 (by decide)⟩

/-- Claim C20. Single ownership of task indices: in every state of the pool reachable after
a successful `sched_start` on a freshly created scheduler, no index occurs twice in the
ready queue and the hands of the workers taken together, only task indices occur there, and
no two workers hold the same index, re-admission included. -/
theorem single_ownership (d : dag_t) (hwf : WellFormed d) (n_workers : Nat) (p : pool_t)
    (hreach : PoolReachable d n_workers p) :
    (ring_contents p.sched ++ held p.workers).Nodup ∧
    (∀ x ∈ ring_contents p.sched ++ held p.workers, x < d.n_tasks) ∧
    ∀ w1 w2 idx : Nat,
      (p.workers[w1]? = some (worker_pc.running idx) ∨
        p.workers[w1]? = some (worker_pc.readmitting idx)) →
      (p.workers[w2]? = some (worker_pc.running idx) ∨
        p.workers[w2]? = some (worker_pc.readmitting idx)) → w1 = w2 := by
  have hinv := pool_reachable_inv d hwf n_workers p hreach
  refine ⟨?_, ?_, ?_⟩
  · apply List.nodup_iff_count_le_one.2
    intro x
    rw [List.count_append]; exact hinv.once x
  · intro x hx
    by_contra hge
    have h0 := hinv.bound x (Nat.le_of_not_lt hge)
    have hpos := List.count_pos_iff.2 hx
    rw [List.count_append] at hpos
    omega
  · intro w1 w2 idx h1 h2
    by_contra hne
    have h3 := held_count_two p.workers w1 w2 idx hne h1 h2
    have h4 := hinv.once idx
    omega

theorem single_ownership_witness :
    WellFormed two_task_dag ∧ PoolReachable two_task_dag 2 two_task_busy ∧
    ring_contents two_task_busy.sched = [1] ∧ held two_task_busy.workers = [0] ∧
    ((ring_contents two_task_busy.sched ++ held two_task_busy.workers).Nodup ∧
    (∀ x ∈ ring_contents two_task_busy.sched ++ held two_task_busy.workers,
      x < two_task_dag.n_tasks) ∧
    ∀ w1 w2 idx : Nat,
      (two_task_busy.workers[w1]? = some (worker_pc.running idx) ∨
        two_task_busy.workers[w1]? = some (worker_pc.readmitting idx)) →
      (two_task_busy.workers[w2]? = some (worker_pc.running idx) ∨
        two_task_busy.workers[w2]? = some (worker_pc.readmitting idx)) → w1 = w2) :=
  ⟨wellFormed_of_slots two_task_dag (by decide),
   ⟨two_task_sched, two_task_started, [pool_event.dequeue 0], rfl,
     Prod.ext (by decide) rfl, rfl⟩,
   by decide, by decide,
   single_ownership two_task_dag (wellFormed_of_slots two_task_dag (by decide)) 2
     two_task_busy
     ⟨two_task_sched, two_task_started, [pool_event.dequeue 0], rfl,
       Prod.ext (by decide) rfl, rfl⟩⟩

/-! ## The order produced by the topological sort -/

theorem transGen_increasing (d : dag_t) (h : ∀ u v, Edge d u v → u < v) (a b : Nat)
    (p : Relation.TransGen (Edge d) a b) : a < b := by
  induction p with
  | single hab => exact h _ _ hab
  | tail _ hbc ih => exact Nat.lt_trans ih (h _ _ hbc)

theorem not_hasCycle_of_increasing (d : dag_t) (h : ∀ u v, Edge d u v → u < v) :
    ¬ HasCycle d := by
  rintro ⟨u, hu⟩
  exact Nat.lt_irrefl u (transGen_increasing d h u u hu)

theorem edge_of_chain (d : dag_t) (h : IsChain d) (u v : Nat) :
    Edge d u v ↔ v = u + 1 ∧ u + 1 < d.n_tasks := by
  constructor
  · rintro ⟨hu, hv⟩
    rw [h u hu] at hv
    by_cases hlt : u + 1 < d.n_tasks
    · rw [if_pos hlt] at hv
      exact ⟨List.mem_singleton.1 hv, hlt⟩
    · rw [if_neg hlt] at hv
      simp at hv
  · rintro ⟨hv, hlt⟩
    refine ⟨by omega, ?_⟩
    rw [h u (by omega), if_pos hlt, hv]
    simp

theorem wellFormed_of_chain (d : dag_t) (h : IsChain d) : WellFormed d := by
  intro u v huv
  obtain ⟨hv, hlt⟩ := (edge_of_chain d h u v).1 huv
  omega

theorem not_hasCycle_of_chain (d : dag_t) (h : IsChain d) : ¬ HasCycle d :=
  not_hasCycle_of_increasing d (fun u v huv => by
    obtain ⟨hv, _⟩ := (edge_of_chain d h u v).1 huv
    omega)

theorem getElem?_inj_of_nodup (l : List Nat) (hnd : l.Nodup) (a b v : Nat)
    (ha : l[a]? = some v) (hb : l[b]? = some v) : a = b := by
  obtain ⟨a1, a2⟩ := List.getElem?_eq_some_iff.1 ha
  obtain ⟨b1, b2⟩ := List.getElem?_eq_some_iff.1 hb
  exact (List.Nodup.getElem_inj_iff hnd).1 (a2.trans b2.symm)

theorem eq_range_of_consecutive (out : List Nat) (n : Nat)
    (hperm : out.Perm (List.range n))
    (hord : ∀ i, i + 1 < n →
      ∃ a b : Nat, a < b ∧ out[a]? = some i ∧ out[b]? = some (i + 1)) :
    out = List.range n := by
  have hnd : out.Nodup := hperm.nodup_iff.2 (List.nodup_range _)
  have hlen : out.length = n := by rw [hperm.length_eq, List.length_range]
  have hlow : ∀ i, i < n → ∀ a : Nat, out[a]? = some i → i ≤ a := by
    intro i
    induction i with
    | zero => intro _ a _; exact Nat.zero_le a
    | succ i ih =>
      intro hi b hb
      obtain ⟨a1, b1, hab, ha1, hb1⟩ := hord i hi
      have := getElem?_inj_of_nodup out hnd b b1 _ hb hb1
      have := ih (by omega) a1 ha1
      omega
  have hhigh : ∀ k i, i + k + 1 = n → ∀ a : Nat, out[a]? = some i → a + k + 1 ≤ n := by
    intro k
    induction k with
    | zero =>
      intro i _ a ha
      have := (List.getElem?_eq_some_iff.1 ha).1
      omega
    | succ k ih =>
      intro i hi a ha
      obtain ⟨a1, b1, hab, ha1, hb1⟩ := hord i (by omega)
      have := getElem?_inj_of_nodup out hnd a a1 _ ha ha1
      have := ih (i + 1) (by omega) b1 hb1
      omega
  have hpos : ∀ i, i < n → out[i]? = some i := by
    intro i hi
    have hmem : i ∈ out := hperm.mem_iff.2 (List.mem_range.2 hi)
    obtain ⟨a, ha⟩ := List.mem_iff_getElem?.1 hmem
    have h1 := hlow i hi a ha
    have h2 := hhigh (n - 1 - i) i (by omega) a ha
    have : a = i := by omega
    rw [← this]
    rw [this] at ha ⊢
    exact ha
  apply List.ext_getElem?
  intro k
  by_cases hk : k < n
  · rw [hpos k hk, List.getElem?_range hk]
  · rw [List.getElem?_eq_none (by omega), List.getElem?_eq_none (by simp; omega)]

theorem release_successors_extends (l : List Nat) :
    ∀ (indegree : Nat → Nat) (queue : List Nat),
      ∃ fresh, (release_successors l (indegree, queue)).2 = queue ++ fresh := by
  induction l with
  | nil => intro indegree queue; exact ⟨[], by simp [release_successors]⟩
  | cons v rest ih =>
    intro indegree queue
    simp only [release_successors]
    split
    · obtain ⟨fresh, hf⟩ := ih (array_set indegree v (size_dec (indegree v))) (queue ++ [v])
      exact ⟨v :: fresh, by rw [hf]; simp⟩
    · exact ih _ queue

theorem kahn_loop_queue_extends (d : dag_t) :
    ∀ (fuel : Nat) (s : kahn_state), ∃ rest, (kahn_loop d fuel s).queue = s.queue ++ rest := by
  intro fuel
  induction fuel with
  | zero => intro s; exact ⟨[], by simp [kahn_loop]⟩
  | succ fuel ih =>
    intro s
    by_cases hlt : s.qh < s.queue.length
    · simp only [kahn_loop, if_pos hlt]
      obtain ⟨fresh, hf⟩ := release_successors_extends
        (d.deps (s.queue.getD s.qh 0)) s.indegree s.queue
      obtain ⟨rest, hr⟩ := ih
        { indegree := (release_successors (d.deps (s.queue.getD s.qh 0))
            (s.indegree, s.queue)).1
          queue := (release_successors (d.deps (s.queue.getD s.qh 0))
            (s.indegree, s.queue)).2
          qh := s.qh + 1
          out_order := s.out_order ++ [s.queue.getD s.qh 0] }
      exact ⟨fresh ++ rest, by rw [hr]; simp only; rw [hf, List.append_assoc]⟩
    · exact ⟨[], by simp [kahn_loop, hlt]⟩

theorem initial_indegree_eq (d : dag_t) (v : Nat) :
    initial_indegree d v = pending_in d [] v := by
  unfold initial_indegree
  rw [count_indegree_spec, pending_in_nil]; omega

theorem initial_indegree_zero_iff (d : dag_t) (v : Nat) :
    initial_indegree d v = 0 ↔ ¬ ∃ x, Edge d x v := by
  rw [initial_indegree_eq]
  constructor
  · rintro h ⟨x, hx⟩
    have := pending_in_eq_zero d [] v x h hx
    simp at this
  · intro h
    by_contra hne
    obtain ⟨x, hx, _⟩ := pending_in_pos d [] v hne
    exact h ⟨x, hx⟩

theorem dag_toposort_seed (d : dag_t) (hwf : WellFormed d) (hac : ¬ HasCycle d) :
    ∃ rest : List Nat,
      dag_toposort d =
        { code := 0
          out_order := some ((List.range d.n_tasks).filter
            (fun v => decide (initial_indegree d v = 0)) ++ rest)
          out_n := d.n_tasks } ∧
      ((List.range d.n_tasks).filter (fun v => decide (initial_indegree d v = 0)) ++
        rest).Perm (List.range d.n_tasks) := by
  have h := kahn_loop_spec d hwf d.n_tasks (kahn_init d) (kahn_init_inv d)
    (by simp [kahn_init])
  have hperm := kahn_final_acyclic d _ h.1 h.2 hac
  have hout : (kahn_loop d d.n_tasks (kahn_init d)).out_order =
      (kahn_loop d d.n_tasks (kahn_init d)).queue := by
    rw [h.1.out_eq, h.2, List.take_length]
  obtain ⟨rest, hrest⟩ := kahn_loop_queue_extends d d.n_tasks (kahn_init d)
  have hseed : (kahn_init d).queue =
      (List.range d.n_tasks).filter (fun v => decide (initial_indegree d v = 0)) := by
    simp only [kahn_init, initial_indegree]
    rw [seed_queue_spec]; simp
  rw [hseed] at hrest
  rw [hout, hrest] at hperm
  refine ⟨rest, ?_, hperm⟩
  have hlen : ¬ (kahn_loop d d.n_tasks (kahn_init d)).out_order.length < d.n_tasks := by
    rw [hout, hrest, hperm.length_eq, List.length_range]; omega
  simp only [dag_toposort, if_neg hlen]
  rw [hout, hrest]

/-- Claim C21. For every graph of `n >= 1` tasks whose edges are exactly `i -> i+1` (a chain
in insertion order), `dag_toposort` returns 0 with `*out_n = n` and `*out_order` exactly
`[0, 1, ..., n-1]`. -/
theorem toposort_of_chain (d : dag_t) (_hn : 1 ≤ d.n_tasks) (hchain : IsChain d) :
    dag_toposort d =
      { code := 0, out_order := some (List.range d.n_tasks), out_n := d.n_tasks } := by
  obtain ⟨out, hres, hperm, hord⟩ :=
    dag_toposort_acyclic d (wellFormed_of_chain d hchain) (not_hasCycle_of_chain d hchain)
  have : out = List.range d.n_tasks := by
    apply eq_range_of_consecutive out d.n_tasks hperm
    intro i hi
    exact hord i (i + 1) ((edge_of_chain d hchain i (i + 1)).2 ⟨rfl, hi⟩)
  rw [hres, this]

theorem toposort_of_chain_witness :
    1 ≤ chain_dag.n_tasks ∧ IsChain chain_dag ∧
    dag_toposort chain_dag =
      { code := 0, out_order := some (List.range chain_dag.n_tasks),
        out_n := chain_dag.n_tasks } :=
  ⟨by decide,
   (by decide : ∀ u, u < chain_dag.n_tasks →
      chain_dag.deps u = if u + 1 < chain_dag.n_tasks then [u + 1] else []),
   toposort_of_chain chain_dag (by decide)
     (by decide : ∀ u, u < chain_dag.n_tasks →
        chain_dag.deps u = if u + 1 < chain_dag.n_tasks then [u + 1] else [])⟩

/-- Claim C22. For every well-formed acyclic graph the output of `dag_toposort` begins with
the tasks of indegree 0, that is the tasks without predecessor, in ascending index order;
every task after them has a predecessor; for a graph without edges the output is exactly
`[0, 1, ..., n_tasks-1]`. -/
theorem toposort_starts_with_sources (d : dag_t) (hwf : WellFormed d) (hac : ¬ HasCycle d) :
    ∃ rest : List Nat,
      dag_toposort d =
        { code := 0
          out_order := some ((List.range d.n_tasks).filter
            (fun v => decide (initial_indegree d v = 0)) ++ rest)
          out_n := d.n_tasks } ∧
      ((List.range d.n_tasks).filter
        (fun v => decide (initial_indegree d v = 0))).Pairwise (· < ·) ∧
      (∀ v, v < d.n_tasks →
        (v ∈ (List.range d.n_tasks).filter (fun v => decide (initial_indegree d v = 0)) ↔
          ¬ ∃ x, Edge d x v)) ∧
      (∀ v ∈ rest, ∃ x, Edge d x v) ∧
      ((∀ u, d.deps u = []) → rest = [] ∧
        dag_toposort d =
          { code := 0, out_order := some (List.range d.n_tasks), out_n := d.n_tasks }) := by
  obtain ⟨rest, hres, hperm⟩ := dag_toposort_seed d hwf hac
  have hnd := hperm.nodup_iff.2 (List.nodup_range _)
  have hmem : ∀ v, v < d.n_tasks →
      (v ∈ (List.range d.n_tasks).filter (fun v => decide (initial_indegree d v = 0)) ↔
        ¬ ∃ x, Edge d x v) := by
    intro v hv
    rw [List.mem_filter, List.mem_range, decide_eq_true_iff, initial_indegree_zero_iff]
    exact ⟨fun h => h.2, fun h => ⟨hv, h⟩⟩
  refine ⟨rest, hres, (List.pairwise_lt_range _).filter _, hmem, ?_, ?_⟩
  · intro v hv
    have hvn : v < d.n_tasks :=
      List.mem_range.1 (hperm.mem_iff.1 (List.mem_append_right _ hv))
    by_contra hno
    have hin := (hmem v hvn).2 hno
    exact (List.nodup_append.1 hnd).2.2 hin hv
  · intro hempty
    have hall : (List.range d.n_tasks).filter (fun v => decide (initial_indegree d v = 0)) =
        List.range d.n_tasks := by
      apply List.filter_eq_self.2
      intro v _
      rw [decide_eq_true_iff, initial_indegree_zero_iff]
      rintro ⟨x, hx⟩
      have := hx.2
      rw [hempty x] at this
      simp at this
    have hlen := hperm.length_eq
    rw [hall, List.length_append] at hlen
    have hrest : rest = [] := List.length_eq_zero.1 (by omega)
    refine ⟨hrest, ?_⟩
    rw [hres, hall, hrest, List.append_nil]

theorem toposort_starts_with_sources_witness :
    WellFormed fan_in_dag ∧ ¬ HasCycle fan_in_dag ∧
    (List.range fan_in_dag.n_tasks).filter
      (fun v => decide (initial_indegree fan_in_dag v = 0)) = [0, 2, 3] ∧
    ∃ rest : List Nat,
      dag_toposort fan_in_dag =
        { code := 0
          out_order := some ((List.range fan_in_dag.n_tasks).filter
            (fun v => decide (initial_indegree fan_in_dag v = 0)) ++ rest)
          out_n := fan_in_dag.n_tasks } ∧
      ((List.range fan_in_dag.n_tasks).filter
        (fun v => decide (initial_indegree fan_in_dag v = 0))).Pairwise (· < ·) ∧
      (∀ v, v < fan_in_dag.n_tasks →
        (v ∈ (List.range fan_in_dag.n_tasks).filter
            (fun v => decide (initial_indegree fan_in_dag v = 0)) ↔
          ¬ ∃ x, Edge fan_in_dag x v)) ∧
      (∀ v ∈ rest, ∃ x, Edge fan_in_dag x v) ∧
      ((∀ u, fan_in_dag.deps u = []) → rest = [] ∧
        dag_toposort fan_in_dag =
          { code := 0, out_order := some (List.range fan_in_dag.n_tasks),
            out_n := fan_in_dag.n_tasks }) :=
  ⟨wellFormed_of_slots fan_in_dag (by decide),
   not_hasCycle_of_detect fan_in_dag (wellFormed_of_slots fan_in_dag (by decide)) (by decide),
   by decide,
   toposort_starts_with_sources fan_in_dag (wellFormed_of_slots fan_in_dag (by decide))
     (not_hasCycle_of_detect fan_in_dag (wellFormed_of_slots fan_in_dag (by decide))
       (by decide))⟩

/-! ## The ring buffer as a first-in first-out list -/

theorem ring_apply_put (s : scheduler_t) (items : List Nat) (x : Nat) (h : RingRep s items)
    (hroom : items.length + 1 < s.q_capacity) :
    ring_apply s (queue_op.put x) = some (enqueue s x, none) ∧
      RingRep (enqueue s x) (items ++ [x]) ∧ (enqueue s x).q_capacity = s.q_capacity :=
  ⟨rfl, ringRep_enqueue s items x h hroom, rfl⟩

theorem ring_apply_take_cons (s : scheduler_t) (x : Nat) (items : List Nat)
    (h : RingRep s (x :: items)) :
    ring_apply s queue_op.take = some (dequeue s, some x) ∧ RingRep (dequeue s) items ∧
      (dequeue s).q_capacity = s.q_capacity := by
  have hne : s.q_head ≠ s.q_tail := fun he => by
    have := (ringRep_empty_iff s _ h).1 he
    simp at this
  obtain ⟨hx, hrep⟩ := ringRep_dequeue s x items h
  refine ⟨?_, hrep, rfl⟩
  simp only [ring_apply, if_pos hne, hx]

theorem ring_apply_take_nil (s : scheduler_t) (h : RingRep s []) :
    ring_apply s queue_op.take = none := by
  have he : s.q_head = s.q_tail := (ringRep_empty_iff s [] h).2 rfl
  simp [ring_apply, he]

theorem ring_run_refines (ops : List queue_op) :
    ∀ (s : scheduler_t) (items : List Nat), RingRep s items →
      fifo_bounded s.q_capacity items ops = true →
      (∀ (rest outs : List Nat), fifo_run items ops = some (rest, outs) →
        ∃ s1, ring_run s ops = some (s1, outs) ∧ RingRep s1 rest ∧
          items ++ values_put ops = outs ++ rest) ∧
      (fifo_run items ops = none → ring_run s ops = none) := by
  induction ops with
  | nil =>
    intro s items hrep _
    refine ⟨?_, fun h => by simp [fifo_run] at h⟩
    intro rest outs h
    simp only [fifo_run, Option.some.injEq, Prod.mk.injEq] at h
    obtain ⟨h1, h2⟩ := h
    subst h1; subst h2
    exact ⟨s, rfl, hrep, by simp [values_put]⟩
  | cons op ops ih =>
    intro s items hrep hb
    cases op with
    | put x =>
      simp only [fifo_bounded, fifo_apply, Bool.and_eq_true, decide_eq_true_eq] at hb
      have hroom : items.length + 1 < s.q_capacity := by
        cases ops with
        | nil =>
          have := hb.2
          simp only [fifo_bounded, decide_eq_true_eq, List.length_append,
            List.length_singleton] at this
          exact this
        | cons op1 ops1 =>
          have := hb.2
          simp only [fifo_bounded, Bool.and_eq_true, decide_eq_true_eq, List.length_append,
            List.length_singleton] at this
          exact this.1
      obtain ⟨hap, hrep1, hcap⟩ := ring_apply_put s items x hrep hroom
      obtain ⟨ih1, ih2⟩ := ih (enqueue s x) (items ++ [x]) hrep1 (by rw [hcap]; exact hb.2)
      constructor
      · intro rest outs h
        simp only [fifo_run, fifo_apply] at h
        cases hrun : fifo_run (items ++ [x]) ops with
        | none => rw [hrun] at h; simp at h
        | some r =>
          obtain ⟨rest1, outs1⟩ := r
          rw [hrun] at h
          simp only [Option.toList, List.nil_append, Option.some.injEq, Prod.mk.injEq] at h
          obtain ⟨h1, h2⟩ := h
          subst h1; subst h2
          obtain ⟨s1, hs1, hrep2, heq⟩ := ih1 rest1 outs1 hrun
          refine ⟨s1, ?_, hrep2, ?_⟩
          · simp only [ring_run, hap, hs1, Option.toList, List.nil_append]
          · simp only [values_put]
            rw [← heq]; simp
      · intro h
        simp only [fifo_run, fifo_apply] at h
        cases hrun : fifo_run (items ++ [x]) ops with
        | none => simp only [ring_run, hap, ih2 hrun]
        | some r => rw [hrun] at h; simp at h
    | take =>
      cases items with
      | nil =>
        have hap := ring_apply_take_nil s hrep
        constructor
        · intro rest outs h
          simp [fifo_run, fifo_apply] at h
        · intro _
          simp only [ring_run, hap]
      | cons x items =>
        simp only [fifo_bounded, fifo_apply, Bool.and_eq_true, decide_eq_true_eq] at hb
        obtain ⟨hap, hrep1, hcap⟩ := ring_apply_take_cons s x items hrep
        obtain ⟨ih1, ih2⟩ := ih (dequeue s) items hrep1 (by rw [hcap]; exact hb.2)
        constructor
        · intro rest outs h
          simp only [fifo_run, fifo_apply] at h
          cases hrun : fifo_run items ops with
          | none => rw [hrun] at h; simp at h
          | some r =>
            obtain ⟨rest1, outs1⟩ := r
            rw [hrun] at h
            simp only [Option.toList, List.singleton_append, Option.some.injEq,
              Prod.mk.injEq] at h
            obtain ⟨h1, h2⟩ := h
            subst h1; subst h2
            obtain ⟨s1, hs1, hrep2, heq⟩ := ih1 rest1 outs1 hrun
            refine ⟨s1, ?_, hrep2, ?_⟩
            · simp only [ring_run, hap, hs1, Option.toList, List.singleton_append]
            · simp only [values_put, List.cons_append]
              rw [heq]
        · intro h
          simp only [fifo_run, fifo_apply] at h
          cases hrun : fifo_run items ops with
          | none => simp only [ring_run, hap, ih2 hrun]
          | some r => rw [hrun] at h; simp at h

/-- Claim C23. The ring buffer of the scheduler refines a first-in first-out list: from a
buffer that represents the list `items`, along every sequence of enqueue and dequeue
operations during which the number of stored items stays below `q_capacity`, the buffer
yields the same dequeued values as the list and fails where the list is empty, it represents
the list that is left, `q_head = q_tail` holds exactly when that list is empty, and the
items present at the start followed by the values enqueued are the values dequeued followed
by the items that are left, in the same order. -/
theorem ring_buffer_refines_fifo (s : scheduler_t) (items : List Nat) (ops : List queue_op)
    (hrep : RingRep s items) (hbound : fifo_bounded s.q_capacity items ops = true) :
    (∀ (rest outs : List Nat), fifo_run items ops = some (rest, outs) →
      ∃ s1, ring_run s ops = some (s1, outs) ∧ RingRep s1 rest ∧
        (s1.q_head = s1.q_tail ↔ rest = []) ∧
        items ++ values_put ops = outs ++ rest) ∧
    (fifo_run items ops = none → ring_run s ops = none) := by
  obtain ⟨h1, h2⟩ := ring_run_refines ops s items hrep hbound
  refine ⟨?_, h2⟩
  intro rest outs h
  obtain ⟨s1, hs1, hrep1, heq⟩ := h1 rest outs h
  exact ⟨s1, hs1, hrep1, ringRep_empty_iff s1 rest hrep1, heq⟩

theorem ring_buffer_refines_fifo_witness :
    RingRep two_task_sched [] ∧
    fifo_bounded two_task_sched.q_capacity [] sample_ops = true ∧
    fifo_run [] sample_ops = some ([3], [0, 1, 2]) ∧
    (∀ (rest outs : List Nat), fifo_run [] sample_ops = some (rest, outs) →
      ∃ s1, ring_run two_task_sched sample_ops = some (s1, outs) ∧ RingRep s1 rest ∧
        (s1.q_head = s1.q_tail ↔ rest = []) ∧
        [] ++ values_put sample_ops = outs ++ rest) ∧
    (fifo_run [] sample_ops = none → ring_run two_task_sched sample_ops = none) :=
  ⟨⟨by decide, by decide, by decide, fun k hk => absurd hk (Nat.not_lt_zero k)⟩,
   by decide, by decide,
   ring_buffer_refines_fifo two_task_sched [] sample_ops
     ⟨by decide, by decide, by decide, fun k hk => absurd hk (Nat.not_lt_zero k)⟩
     (by decide)⟩

/-! ## A pool with a single worker -/

theorem singleton_of_get (ws : List worker_pc) (w : Nat) (a : worker_pc)
    (hlen : ws.length = 1) (h : ws[w]? = some a) : w = 0 ∧ ws = [a] := by
  match ws, hlen with
  | [b], _ =>
    have hw : w < 1 := (List.getElem?_eq_some_iff.1 h).1
    have h0 : w = 0 := by omega
    subst h0
    simp only [List.getElem?_cons_zero, Option.some.injEq] at h
    exact ⟨rfl, by rw [h]⟩

theorem held_length_le (ws : List worker_pc) : (held ws).length ≤ ws.length := by
  induction ws with
  | nil => simp [held]
  | cons a rest ih =>
    rw [held_cons, List.length_append, List.length_cons]
    have : (held [a]).length ≤ 1 := by cases a <;> simp [held]
    omega

theorem eq_singleton_of_mem (l : List Nat) (v : Nat) (hl : l.length ≤ 1) (hv : v ∈ l) :
    l = [v] := by
  match l, hl, hv with
  | [a], _, hm => rw [List.mem_singleton.1 hm]

theorem pool_step_serial (n : Nat) (out : List Nat) (p q : pool_t) (e : pool_event)
    (hinv : PoolInv n p) (hr : RunOnceInv n p) (hs : SerialInv out p)
    (h : pool_step p e = some q) : SerialInv out q := by
  obtain ⟨hlen, hout⟩ := hs
  cases e with
  | dequeue w =>
    obtain ⟨x, rest, h1, h2, hws, hw, _, _, hlog⟩ := pool_dequeue_effect n p q w hinv h
    obtain ⟨h0, hp⟩ := singleton_of_get p.workers w _ hlen hw
    refine ⟨by rw [hws, List.length_set]; exact hlen, ?_⟩
    rw [hp, h1] at hout
    rw [hws, hp, h0, h2, hlog, ← hout]
    simp [held]
  | execute w o =>
    obtain ⟨idx, pc, hw, hpc, hws, _, hcont, _, hlog⟩ := pool_execute_effect p q w o h
    obtain ⟨h0, hp⟩ := singleton_of_get p.workers w _ hlen hw
    have hwait : pc = worker_pc.waiting := by
      rw [hpc, hr.no_freq idx]; simp
    refine ⟨by rw [hws, List.length_set]; exact hlen, ?_⟩
    rw [hp] at hout
    rw [hws, hp, h0, hwait, hcont, hlog, ← hout]
    simp [held]
  | readmit w =>
    obtain ⟨idx, hw, _⟩ := pool_step_readmit p q w h
    exact absurd rfl (hr.no_readmit _ (List.getElem?_mem hw) idx)
  | leave w =>
    obtain ⟨hw, _, hsch, hws, _, hlog⟩ := pool_leave_effect n p q w hinv h
    obtain ⟨h0, hp⟩ := singleton_of_get p.workers w _ hlen hw
    refine ⟨by rw [hws, List.length_set]; exact hlen, ?_⟩
    rw [hp] at hout
    rw [hws, hp, h0, hsch, hlog, ← hout]
    simp [held]
  | raise_stop =>
    obtain ⟨hsch, hws, hlog⟩ := pool_step_raise_stop p q h
    refine ⟨by rw [hws]; exact hlen, ?_⟩
    have hcont : ring_contents q.sched = ring_contents p.sched := by
      rw [hsch]; exact ring_contents_congr _ _ rfl rfl rfl rfl
    rw [hws, hcont, hlog]; exact hout

theorem pool_run_serial (n : Nat) (out : List Nat) (es : List pool_event) :
    ∀ p q : pool_t, PoolInv n p → RunOnceInv n p → SerialInv out p →
      pool_run p es = some q → SerialInv out q := by
  induction es with
  | nil =>
    intro p q _ _ hs h
    simp only [pool_run] at h
    exact (Option.some.inj h) ▸ hs
  | cons e es ih =>
    intro p q hinv hr hs h
    simp only [pool_run] at h
    cases hstep : pool_step p e with
    | none => simp [hstep] at h
    | some p1 =>
      simp only [hstep] at h
      exact ih p1 q (pool_step_inv n p p1 e hinv hstep)
        (pool_step_once n p p1 e hinv hr hstep)
        (pool_step_serial n out p p1 e hinv hr hs hstep) h

theorem pool_launch_serial (s : scheduler_t) (h : s.n_workers = 1) :
    SerialInv (ring_contents s) (launch s) := by
  refine ⟨by simp [launch, h], ?_⟩
  have hheld : held (launch s).workers = [] := held_replicate_waiting _
  rw [hheld]
  simp [launch]

theorem getElem?_prefix_of_lt (l m : List Nat) (i j : Nat) (u : Nat) (hij : i < j)
    (hj : j ≤ l.length) (hu : (l ++ m)[i]? = some u) : l[i]? = some u := by
  rw [List.getElem?_append_left (by omega)] at hu
  exact hu

theorem serial_order (d : dag_t) (out : List Nat) (p : pool_t)
    (hnd : out.Nodup)
    (hord : ∀ u v, Edge d u v →
      ∃ i j : Nat, i < j ∧ out[i]? = some u ∧ out[j]? = some v)
    (hs : SerialInv out p) :
    (∀ u v, Edge d u v → v ∈ held p.workers → u ∈ p.log.map Prod.fst) ∧
    (∀ u v, Edge d u v → ∀ j : Nat, (p.log.map Prod.fst)[j]? = some v →
      ∃ i : Nat, i < j ∧ (p.log.map Prod.fst)[i]? = some u) := by
  obtain ⟨hlen, hout⟩ := hs
  constructor
  · intro u v huv hv
    have hh : held p.workers = [v] :=
      eq_singleton_of_mem _ v (hlen ▸ held_length_le p.workers) hv
    obtain ⟨i, j, hij, hi, hj⟩ := hord u v huv
    rw [← hout, hh, List.append_assoc] at hi hj
    have hpos : (p.log.map Prod.fst ++ ([v] ++ ring_contents p.sched))[
        (p.log.map Prod.fst).length]? = some v := by
      rw [List.getElem?_append_right (Nat.le_refl _), Nat.sub_self]; simp
    have hjeq := getElem?_inj_of_nodup _ (by rw [← List.append_assoc, ← hh, hout]; exact hnd)
      j _ v hj hpos
    exact List.getElem?_mem (getElem?_prefix_of_lt _ _ i j u hij (by omega) hi)
  · intro u v huv j hjv
    obtain ⟨i, j1, hij, hi, hj⟩ := hord u v huv
    rw [← hout, List.append_assoc] at hi hj
    have hjlt : j < (p.log.map Prod.fst).length := (List.getElem?_eq_some_iff.1 hjv).1
    have hpos : (p.log.map Prod.fst ++ (held p.workers ++ ring_contents p.sched))[j]? =
        some v := by
      rw [List.getElem?_append_left hjlt]; exact hjv
    have hjeq := getElem?_inj_of_nodup _ (by rw [← List.append_assoc, hout]; exact hnd)
      j1 j v hj hpos
    exact ⟨i, by omega, getElem?_prefix_of_lt _ _ i j1 u hij (by omega) hi⟩

theorem pool_reachable_serial (d : dag_t) (hwf : WellFormed d)
    (hfreq : ∀ t ∈ d.tasks, t.freq = 0) (p : pool_t) (hreach : PoolReachable d 1 p) :
    ∃ out : List Nat,
      dag_toposort d = { code := 0, out_order := some out, out_n := d.n_tasks } ∧
      out.Nodup ∧
      (∀ u v, Edge d u v → ∃ i j : Nat, i < j ∧ out[i]? = some u ∧ out[j]? = some v) ∧
      SerialInv out p ∧ PoolInv d.n_tasks p ∧ RunOnceInv d.n_tasks p := by
  have hinv := pool_reachable_inv d hwf 1 p hreach
  obtain ⟨s0, s1, es, hinit, hstart, hrun⟩ := hreach
  obtain ⟨hac, _, hnw, _, _, hperm, htopo, _, _, _⟩ := pool_start d hwf 1 s0 s1 hinit hstart
  obtain ⟨out, hres, _, hord⟩ := dag_toposort_acyclic d hwf hac
  have hsame : out = ring_contents s1 := by
    have := hres.symm.trans htopo
    simp only [toposort_result.mk.injEq, Option.some.injEq] at this
    exact this.2.1
  have hlinv := pool_launch_inv d hwf 1 s0 s1 hinit hstart
  have hlonce := pool_launch_once d hwf hfreq 1 s0 s1 hinit hstart
  refine ⟨ring_contents s1, htopo, hperm.nodup_iff.2 (List.nodup_range _),
    hsame ▸ hord, ?_, hinv, pool_run_once d.n_tasks es _ p hlinv hlonce hrun⟩
  exact pool_run_serial d.n_tasks _ es _ p hlinv hlonce (pool_launch_serial s1 hnw) hrun

/-- Claim C24. For every well-formed graph whose tasks all have `freq` 0, in every state of
a scheduler started with exactly one worker (the start succeeds only on an acyclic graph),
the tasks executed so far, then the task in the hands of the worker, then the ready queue
make up exactly the order `dag_toposort` returns; once the worker has left the executed
tasks are exactly that order; and for every dependency edge `u -> v`, when `v` is in the
hands of the worker or has been executed, `u` has been executed before and its status is
written: it is no longer `PENDING`. -/
theorem single_worker_runs_in_toposort_order (d : dag_t) (hwf : WellFormed d)
    (hfreq : ∀ t ∈ d.tasks, t.freq = 0) (p : pool_t) (hreach : PoolReachable d 1 p) :
    ∃ out : List Nat,
      dag_toposort d = { code := 0, out_order := some out, out_n := d.n_tasks } ∧
      p.log.map Prod.fst ++ held p.workers ++ ring_contents p.sched = out ∧
      (all_exited p → p.log.map Prod.fst = out) ∧
      (∀ u v, Edge d u v → v ∈ held p.workers →
        ∃ o t, (u, o) ∈ p.log ∧ p.sched.dag.tasks[u]? = some t ∧
          t.status ≠ task_status_t.PENDING) ∧
      (∀ u v, Edge d u v → ∀ j : Nat, (p.log.map Prod.fst)[j]? = some v →
        ∃ i : Nat, i < j ∧ (p.log.map Prod.fst)[i]? = some u) := by
  obtain ⟨out, htopo, hnd, hord, hs, hinv, hr⟩ := pool_reachable_serial d hwf hfreq p hreach
  obtain ⟨h1, h2⟩ := serial_order d out p hnd hord hs
  refine ⟨out, htopo, hs.2, ?_, ?_, h2⟩
  · intro hall
    have := hs.2
    rw [held_of_all_exited p.workers hall, hinv.drained hall] at this
    simpa using this
  · intro u v huv hv
    have hu := h1 u v huv hv
    obtain ⟨⟨u1, o⟩, hmem, hfst⟩ := List.mem_map.1 hu
    simp only at hfst
    subst hfst
    obtain ⟨t, ht, hst⟩ := hr.status u1 o hmem
    refine ⟨o, t, hmem, ht, ?_⟩
    rw [hst]
    split <;> simp

theorem single_worker_runs_in_toposort_order_witness :
    WellFormed test_dag ∧ (∀ t ∈ test_dag.tasks, t.freq = 0) ∧
    PoolReachable test_dag 1 serial_pool ∧
    held serial_pool.workers = [1] ∧ serial_pool.log.map Prod.fst = [0] ∧
    ∃ out : List Nat,
      dag_toposort test_dag =
        { code := 0, out_order := some out, out_n := test_dag.n_tasks } ∧
      serial_pool.log.map Prod.fst ++ held serial_pool.workers ++
        ring_contents serial_pool.sched = out ∧
      (all_exited serial_pool → serial_pool.log.map Prod.fst = out) ∧
      (∀ u v, Edge test_dag u v → v ∈ held serial_pool.workers →
        ∃ o t, (u, o) ∈ serial_pool.log ∧ serial_pool.sched.dag.tasks[u]? = some t ∧
          t.status ≠ task_status_t.PENDING) ∧
      (∀ u v, Edge test_dag u v → ∀ j : Nat, (serial_pool.log.map Prod.fst)[j]? = some v →
        ∃ i : Nat, i < j ∧ (serial_pool.log.map Prod.fst)[i]? = some u) :=
  ⟨wellFormed_of_slots test_dag (by decide), by decide,
   ⟨serial_sched, serial_started, serial_events, rfl, Prod.ext (by decide) rfl, rfl⟩,
   by decide, by decide,
   single_worker_runs_in_toposort_order test_dag (wellFormed_of_slots test_dag (by decide))
     (by decide) serial_pool
     ⟨serial_sched, serial_started, serial_events, rfl, Prod.ext (by decide) rfl, rfl⟩⟩

/-! ## Room in the ready queue -/

theorem seed_ready_queue_append (l1 l2 : List Nat) :
    ∀ s : scheduler_t,
      seed_ready_queue (l1 ++ l2) s = seed_ready_queue l2 (seed_ready_queue l1 s) := by
  induction l1 with
  | nil => intro s; rfl
  | cons x rest ih => intro s; exact ih (enqueue s x)

theorem sched_start_eq_seed (d : dag_t) (hwf : WellFormed d) (n_workers : Nat)
    (s0 s1 : scheduler_t) (hinit : sched_init (some d) n_workers = some s0)
    (hstart : sched_start s0 = (0, s1)) :
    s1 = seed_ready_queue (ring_contents s1)
      { s0 with order := some (ring_contents s1), n_order := d.n_tasks } ∧
    (ring_contents s1).length = d.n_tasks ∧
    s0.q_head = 0 ∧ s0.q_tail = 0 ∧ s0.q_capacity = d.n_tasks + 1 := by
  obtain ⟨_, hnw, _, _, _, hperm, htopo, _, _, _⟩ :=
    pool_start d hwf n_workers s0 s1 hinit hstart
  have hlen : (ring_contents s1).length = d.n_tasks := by
    rw [hperm.length_eq, List.length_range]
  rw [sched_init_some d n_workers hnw] at hinit
  have hs0 := Option.some.inj hinit
  subst hs0
  refine ⟨?_, hlen, rfl, rfl, rfl⟩
  have h2 := congrArg Prod.snd hstart
  simp only [sched_start, htopo] at h2
  simp only [ne_eq, not_true_eq_false, if_false, Option.getD_some] at h2
  rw [← hlen, List.take_length] at h2
  rw [hlen] at h2
  exact h2.symm

theorem ring_count_le (n : Nat) (p : pool_t) (hinv : PoolInv n p) :
    ring_count p.sched ≤ n := by
  have hlen := length_le_of_count (ring_contents p.sched ++ held p.workers) n
    (fun x => by rw [List.count_append]; exact hinv.once x)
    (fun x hx => by rw [List.count_append]; exact hinv.bound x hx)
  rw [List.length_append] at hlen
  rw [ringRep_count p.sched _ hinv.rep]
  omega

/-- Claim C25. The ready queue never overflows. After `sched_init` over a graph of `n` tasks
and one successful `sched_start`: at every point of the seeding loop (the entries `seeded`
are in, the entries `pending` are still to come) the ring buffer of `n + 1` cells stores
the `seeded` entries, at most `n`, and `q_tail` is not on `q_head` once an entry is in; in
every state the pool reaches afterwards the graph still has `n` tasks, the buffer has
`q_capacity = n + 1` cells and stores at most `n` indices, `q_head = q_tail` holds exactly
when nothing is stored, and a re-admission stores one index more and leaves `q_tail` off
`q_head`. -/
theorem ready_queue_never_overflows (d : dag_t) (hwf : WellFormed d) (n_workers : Nat)
    (s0 s1 : scheduler_t) (hinit : sched_init (some d) n_workers = some s0)
    (hstart : sched_start s0 = (0, s1)) :
    (∀ seeded pending : List Nat, ring_contents s1 = seeded ++ pending →
      ∃ mid : scheduler_t,
        mid = seed_ready_queue seeded
          { s0 with order := some (ring_contents s1), n_order := d.n_tasks } ∧
        s1 = seed_ready_queue pending mid ∧
        mid.q_capacity = d.n_tasks + 1 ∧
        ring_contents mid = seeded ∧ ring_count mid = seeded.length ∧
        seeded.length ≤ d.n_tasks ∧
        (seeded ≠ [] → mid.q_tail ≠ mid.q_head)) ∧
    (∀ (es : List pool_event) (p : pool_t), pool_run (launch s1) es = some p →
      p.sched.dag.n_tasks = d.n_tasks ∧ p.sched.q_capacity = d.n_tasks + 1 ∧
      ring_count p.sched ≤ d.n_tasks ∧
      (p.sched.q_head = p.sched.q_tail ↔ ring_contents p.sched = []) ∧
      ∀ (w : Nat) (q : pool_t), pool_step p (pool_event.readmit w) = some q →
        ring_count q.sched = ring_count p.sched + 1 ∧ ring_count q.sched ≤ d.n_tasks ∧
        q.sched.q_tail ≠ q.sched.q_head) := by
  constructor
  · intro seeded pending hsplit
    obtain ⟨hs1, hlen, hh, ht, hcap⟩ := sched_start_eq_seed d hwf n_workers s0 s1 hinit hstart
    have hle : seeded.length ≤ d.n_tasks := by
      rw [← hlen, hsplit, List.length_append]; omega
    have hrep0 : RingRep { s0 with order := some (ring_contents s1), n_order := d.n_tasks }
        [] :=
      ⟨by simp only [hh, hcap]; omega, by simp only [hcap, List.length_nil]; omega,
       by simp only [ht, hh, List.length_nil, Nat.add_zero, Nat.zero_mod],
       fun k hk => absurd hk (Nat.not_lt_zero k)⟩
    have hspec := seed_ready_queue_spec seeded _ [] hrep0
      (by simp only [hcap, List.length_nil]; omega)
    rw [List.nil_append] at hspec
    obtain ⟨hrep, _, _, hcap1, _⟩ := hspec
    refine ⟨_, rfl, ?_, hcap1.trans hcap, ringRep_contents _ _ hrep, ringRep_count _ _ hrep,
      hle, ?_⟩
    · rw [← seed_ready_queue_append, ← hsplit]; exact hs1
    · intro hne he
      exact hne ((ringRep_empty_iff _ _ hrep).1 he.symm)
  · intro es p hrun
    have hinv := pool_reachable_inv d hwf n_workers p ⟨s0, s1, es, hinit, hstart, hrun⟩
    refine ⟨hinv.n_tasks, hinv.cap, ring_count_le _ p hinv,
      ringRep_empty_iff _ _ hinv.rep, ?_⟩
    intro w q hstep
    have hinvq := pool_step_inv d.n_tasks p q _ hinv hstep
    obtain ⟨idx, _, hcont, _⟩ := pool_readmit_effect d.n_tasks p q w hinv hstep
    refine ⟨?_, ring_count_le _ q hinvq, ?_⟩
    · rw [ringRep_count _ _ hinvq.rep, ringRep_count _ _ hinv.rep, hcont]; simp
    · intro he
      have := (ringRep_empty_iff _ _ hinvq.rep).1 he.symm
      rw [hcont] at this
      simp at this

theorem ready_queue_never_overflows_witness :
    WellFormed recurring_dag ∧ sched_init (some recurring_dag) 1 = some recurring_sched ∧
    sched_start recurring_sched = (0, recurring_started) ∧
    (pool_run (launch recurring_started) recurring_events).isSome = true ∧
    (∀ seeded pending : List Nat, ring_contents recurring_started = seeded ++ pending →
      ∃ mid : scheduler_t,
        mid = seed_ready_queue seeded
          { recurring_sched with order := some (ring_contents recurring_started),
                                 n_order := recurring_dag.n_tasks } ∧
        recurring_started = seed_ready_queue pending mid ∧
        mid.q_capacity = recurring_dag.n_tasks + 1 ∧
        ring_contents mid = seeded ∧ ring_count mid = seeded.length ∧
        seeded.length ≤ recurring_dag.n_tasks ∧
        (seeded ≠ [] → mid.q_tail ≠ mid.q_head)) ∧
    (∀ (es : List pool_event) (p : pool_t), pool_run (launch recurring_started) es = some p →
      p.sched.dag.n_tasks = recurring_dag.n_tasks ∧
      p.sched.q_capacity = recurring_dag.n_tasks + 1 ∧
      ring_count p.sched ≤ recurring_dag.n_tasks ∧
      (p.sched.q_head = p.sched.q_tail ↔ ring_contents p.sched = []) ∧
      ∀ (w : Nat) (q : pool_t), pool_step p (pool_event.readmit w) = some q →
        ring_count q.sched = ring_count p.sched + 1 ∧
        ring_count q.sched ≤ recurring_dag.n_tasks ∧
        q.sched.q_tail ≠ q.sched.q_head) :=
  ⟨wellFormed_of_slots recurring_dag (by decide), rfl, Prod.ext (by decide) rfl, by decide,
   ready_queue_never_overflows recurring_dag (wellFormed_of_slots recurring_dag (by decide)) 1
     recurring_sched recurring_started rfl (Prod.ext (by decide) rfl)⟩

end GraphTasker
